import Mathlib

/-!
Shallow embedding of the `data-structures` repository's graph cluster:
the two weighted-graph variants (`weighted_graph.py`), the indexed
min-heap priority queue (`heap_queue.py`), and the union-find partition
(`partition.py`), together with Dijkstra single-source shortest paths
and Kruskal minimum spanning tree.

Python dictionaries are modelled as insertion-ordered association lists
(`PyDict`): `setdefault` appends at the end when the key is absent,
assignment updates in place keeping the position, deletion filters the
key out.  Python `raise` is modelled with `Except String`.  Unbounded
`while` loops are modelled with explicit fuel chosen at the call site;
the fuel-exhaustion branch is an `.error` that the theorems prove
unreachable under the source's own invariants.
-/

namespace DS

/-! ### Python dictionaries as insertion-ordered association lists -/

abbrev PyDict (α β : Type) := List (α × β)

namespace PyDict

variable {α β : Type} [DecidableEq α]

/-- `d[k]`, returning `none` when the key is absent (Python `KeyError`). -/
def lookup : PyDict α β → α → Option β
  | [], _ => none
  | (a, b) :: rest, k => if k = a then some b else lookup rest k

/-- `k in d`. -/
def contains (d : PyDict α β) (k : α) : Bool := (lookup d k).isSome

/-- `d[k] = v`: update in place when present (keeping the position),
append at the end otherwise. -/
def set : PyDict α β → α → β → PyDict α β
  | [], k, v => [(k, v)]
  | (a, b) :: rest, k, v => if k = a then (a, v) :: rest else (a, b) :: set rest k v

/-- `d.setdefault(k, v)`: append `(k, v)` when the key is absent. -/
def setdefault (d : PyDict α β) (k : α) (v : β) : PyDict α β :=
  if contains d k then d else d ++ [(k, v)]

/-- `del d[k]` / `d.pop(k, None)`: drop the key, keeping the order of the rest. -/
def erase (d : PyDict α β) (k : α) : PyDict α β :=
  d.filter (fun p => p.1 ≠ k)

/-- The keys, in insertion order. -/
def keys (d : PyDict α β) : List α := d.map Prod.fst

end PyDict

/-! ### `heap_queue.py`: indexed binary min-heap

`_entries` is the backing array of `(item, key)` pairs, `_indices` the
item-to-index dictionary.  `_indices` is only ever used for point lookup,
point update and point deletion, so it is modelled as a partial function
`I → Option Nat`.  The recursive sift-up / sift-down helpers are
structurally terminating (`_up` on the index, `_down` on the distance to
the end of the array). -/

structure HeapQueue (I K : Type) where
  entries : List (I × K)
  indices : I → Option Nat

namespace HeapQueue

variable {I K : Type} [DecidableEq I] [LinearOrder K]

/-- The empty heap (`HeapQueue()`). -/
def emptyHeap : HeapQueue I K := ⟨[], fun _ => none⟩

/-- `_swap(idx1, idx2)`.  Out-of-range indices would raise `IndexError` in
Python; every call site guards the range, and the fallback returns the
state unchanged. -/
def hswap (q : HeapQueue I K) (idx1 idx2 : Nat) : HeapQueue I K :=
  match q.entries[idx1]?, q.entries[idx2]? with
  | some e1, some e2 =>
    { entries := (q.entries.set idx1 e2).set idx2 e1
      -- `self._indices[item1] = idx2` then `self._indices[item2] = idx1`:
      -- the later assignment wins when the items coincide.
      indices := fun x => if x = e2.1 then some idx1 else if x = e1.1 then some idx2
                          else q.indices x }
  | _, _ => q

/-- The recursion of `_up(idx)`, structurally on a fuel bound.  The
index strictly decreases towards the root at every step, so any fuel
`≥ idx` realizes the exact recursion of the source (`hup_eq` below). -/
def hupFuel : Nat → HeapQueue I K → Nat → HeapQueue I K
  | _, q, 0 => q
  | 0, q, _ + 1 => q
  | f + 1, q, idx + 1 =>
    let parent := idx / 2
    match q.entries[idx + 1]?, q.entries[parent]? with
    | some ei, some ep =>
      if ei.2 < ep.2 then hupFuel f (hswap q (idx + 1) parent) parent else q
    | _, _ => q

/-- `_up(idx)`: sift a violating entry up towards the root. -/
def hup (q : HeapQueue I K) (idx : Nat) : HeapQueue I K :=
  hupFuel idx q idx

/-- `_smaller_child(idx)`: the child with the smaller key, if any. -/
def smallerChild (q : HeapQueue I K) (idx : Nat) : Option Nat :=
  let left := 2 * idx + 1
  if hl : q.entries.length ≤ left then none
  else
    let right := left + 1
    if hr : right = q.entries.length then some left
    else
      if (q.entries.get ⟨left, by omega⟩).2 < (q.entries.get ⟨right, by omega⟩).2 then
        some left
      else some right

/-- The recursion of `_down(idx)`, structurally on a fuel bound.  The
index strictly increases towards the leaves while staying below the
array length (which swaps preserve), so any fuel
`≥ len(self) - idx` realizes the exact recursion of the source
(`hdown_eq` below). -/
def hdownFuel : Nat → HeapQueue I K → Nat → HeapQueue I K
  | 0, q, _ => q
  | f + 1, q, idx =>
    match smallerChild q idx with
    | none => q
    | some child =>
      match q.entries[idx]?, q.entries[child]? with
      | some ei, some ec =>
        if ec.2 < ei.2 then hdownFuel f (hswap q idx child) child else q
      | _, _ => q

/-- `_down(idx)`: sift a violating entry down towards the leaves. -/
def hdown (q : HeapQueue I K) (idx : Nat) : HeapQueue I K :=
  hdownFuel q.entries.length q idx

/-- The descending loop of `_heapify`: `_down(idx)` for
`idx = i, i-1, ..., 0`. -/
def heapifyLoop (q : HeapQueue I K) : Nat → HeapQueue I K
  | 0 => hdown q 0
  | i + 1 => heapifyLoop (hdown q (i + 1)) i

/-- `_heapify()`: bottom-up heap construction from
`start = len(self) // 2 - 1` down to `0` (no iterations when
`len(self) // 2 = 0`). -/
def heapify (q : HeapQueue I K) : HeapQueue I K :=
  if q.entries.length / 2 = 0 then q
  else heapifyLoop q (q.entries.length / 2 - 1)

/-- `{item: idx for idx, (item, _) in enumerate(self._entries)}`:
a later duplicate item overwrites an earlier index. -/
def buildIndices (es : List (I × K)) : I → Option Nat :=
  es.enum.foldl (fun f p => fun x => if x = p.2.1 then some p.1 else f x) (fun _ => none)

/-- `HeapQueue(entries)`. -/
def ofEntries (es : List (I × K)) : HeapQueue I K :=
  heapify { entries := es, indices := buildIndices es }

/-- `item in heap`. -/
def hcontains (q : HeapQueue I K) (item : I) : Bool := (q.indices item).isSome

/-- `heap[item]` (`__getitem__`): `KeyError` when the item is absent,
`IndexError` when its recorded index is out of range. -/
def getKey (q : HeapQueue I K) (item : I) : Except String K :=
  match q.indices item with
  | none => .error "KeyError: item not found"
  | some idx =>
    match q.entries[idx]? with
    | some e => .ok e.2
    | none => .error "IndexError"

/-- `peek()`: `self._entries[0]` raises `IndexError` on an empty heap. -/
def peek (q : HeapQueue I K) : Except String I :=
  match q.entries[0]? with
  | some e => .ok e.1
  | none => .error "IndexError"

/-- `push(item, key)`. -/
def push (q : HeapQueue I K) (item : I) (key : K) : HeapQueue I K :=
  match q.indices item with
  | none =>
    -- new item: append at the end and sift up
    let idx := q.entries.length
    hup { entries := q.entries ++ [(item, key)]
          indices := fun x => if x = item then some idx else q.indices x } idx
  | some idx =>
    match q.entries[idx]? with
    | some e =>
      -- existing item: overwrite the key in place, then sift up or down
      let q1 : HeapQueue I K := { entries := q.entries.set idx (e.1, key)
                                  indices := q.indices }
      if key < e.2 then hup q1 idx
      else if e.2 < key then hdown q1 idx
      else q1
    | none => q  -- stale index out of range: Python would raise IndexError

/-- `pop()`: swap the root with the last entry, shrink, sift the new root
down.  On an empty heap `self._swap(0, -1)` raises `IndexError`. -/
def pop (q : HeapQueue I K) : Except String ((I × K) × HeapQueue I K) :=
  if q.entries.isEmpty then .error "IndexError"
  else
    let q1 := hswap q 0 (q.entries.length - 1)
    match q1.entries.getLast? with
    | some e =>
      let q2 : HeapQueue I K :=
        { entries := q1.entries.dropLast
          indices := fun x => if x = e.1 then none else q1.indices x }
      .ok (e, hdown q2 0)
    | none => .error "IndexError"

end HeapQueue

/-! ### `partition.py`: union-find forest

`_parents` and `_weights` are Python dictionaries.  The recursive
`find` is modelled with explicit fuel; `len(self._parents)` is enough
fuel for any well-formed forest (the path to the root visits distinct
keys), and the theorems establish that this fuel never runs out on
states reachable from a well-formed one. -/

structure Partition (I : Type) where
  parents : PyDict I I
  weights : PyDict I Nat

namespace Partition

variable {I : Type} [DecidableEq I]

/-- `Partition(items)`: every item is its own root with weight 1. -/
def init (items : List I) : Partition I :=
  { parents := items.foldl (fun d i => d.set i i) []
    weights := items.foldl (fun d i => d.set i 1) [] }

/-- `item in partition`. -/
def pcontains (p : Partition I) (item : I) : Bool := p.parents.contains item

/-- The recursion of `find`, with explicit fuel.  `self._parents[item]`
raises `KeyError` on an absent item. -/
def findAux (fuel : Nat) (p : Partition I) (item : I) : Except String (I × Partition I) :=
  match fuel with
  | 0 => .error "fuel exhausted"
  | f + 1 =>
    match p.parents.lookup item with
    | none => .error "KeyError"
    | some pi =>
      if pi = item then .ok (item, p)
      else do
        let (root, p1) ← findAux f p pi
        .ok (root, { p1 with parents := p1.parents.set item root })

/-- `find(item)`: root of the group, with full path compression. -/
def find (p : Partition I) (item : I) : Except String (I × Partition I) :=
  findAux p.parents.length p item

/-- `union(item1, item2)`: union by size of the two groups. -/
def union (p : Partition I) (item1 item2 : I) : Except String (Partition I) := do
  let (root1, p1) ← find p item1
  let (root2, p2) ← find p1 item2
  if root1 ≠ root2 then
    match p2.weights.lookup root1, p2.weights.lookup root2 with
    | some w1, some w2 =>
      -- swap the roots when root1 is lighter, so that `big` is heavier
      let big := if w1 < w2 then root2 else root1
      let small := if w1 < w2 then root1 else root2
      .ok { parents := p2.parents.set small big
            weights := p2.weights.set big (w1 + w2) }
    | _, _ => .error "KeyError"
  else .ok p2

/-- `add_group(items)`: reject when any item already exists, otherwise
make `items[0]` the direct root of all the others.  `items[0]` raises
`IndexError` on an empty list. -/
def addGroup (p : Partition I) (items : List I) : Except String (Partition I) :=
  if items.any (fun i => pcontains p i) then .error "ValueError: already exists"
  else
    match items with
    | [] => .error "IndexError"
    | first :: rest =>
      let parents1 := p.parents.set first first
      let weights1 := p.weights.set first items.length
      .ok { parents := rest.foldl (fun d i => d.set i first) parents1
            weights := rest.foldl (fun d i => d.set i 1) weights1 }

end Partition

/-! ### `weighted_graph.py`: `DirectedGraph` (adjacency map) -/

/-- Node labels are natural numbers, weights are integers. -/
structure DirectedGraph where
  adjacency : PyDict Nat (PyDict Nat Int)

namespace DirectedGraph

/-- `DirectedGraph()`. -/
def emptyGraph : DirectedGraph := ⟨[]⟩

/-- `add_node(label)`. -/
def addNode (g : DirectedGraph) (label : Nat) : DirectedGraph :=
  ⟨g.adjacency.setdefault label []⟩

/-- `add_edge(start, end, weight)`: `setdefault` the end node, then the
start node, then set the weight in the start node's neighbour dict. -/
def addEdge (g : DirectedGraph) (s e : Nat) (w : Int) : DirectedGraph :=
  let adj1 := g.adjacency.setdefault e []
  let adj2 := adj1.setdefault s []
  ⟨adj2.set s (((adj2.lookup s).getD []).set e w)⟩

/-- `remove_node(label)`: `ValueError` when absent; otherwise delete the
node's own entry and pop it from every remaining neighbour dict. -/
def removeNode (g : DirectedGraph) (label : Nat) : Except String DirectedGraph :=
  if g.adjacency.contains label then
    .ok ⟨(g.adjacency.erase label).map (fun p => (p.1, p.2.erase label))⟩
  else .error "ValueError: no node"

/-- The `nodes` property (dict iteration order = insertion order). -/
def nodes (g : DirectedGraph) : List Nat := g.adjacency.keys

/-- The `edges` property: `DirectedEdge(start, end, weight)` triples. -/
def edges (g : DirectedGraph) : List (Nat × Nat × Int) :=
  g.adjacency.flatMap (fun p => p.2.map (fun q => (p.1, q.1, q.2)))

/-- The `node_count` property. -/
def nodeCount (g : DirectedGraph) : Nat := g.adjacency.length

/-- The `edge_count` property. -/
def edgeCount (g : DirectedGraph) : Nat :=
  (g.adjacency.map (fun p => p.2.length)).sum

/-- `neighbors(label)`: `ValueError` when the node is absent, the
`(neighbor, weight)` pairs otherwise. -/
def neighbors (g : DirectedGraph) (label : Nat) : Except String (List (Nat × Int)) :=
  match g.adjacency.lookup label with
  | none => .error "ValueError: no node"
  | some nbr => .ok nbr

end DirectedGraph

/-! ### Dijkstra (`_dijkstra`, `_construct_path`,
`single_source_shortest_paths`)

Tentative costs live in `WithTop Int`: `⊤` is Python's `float('inf')`,
and `⊤ + w = ⊤` matches `inf + w == inf`. -/

abbrev Cost := WithTop Int

namespace DirectedGraph

/-- One relaxation pass over the popped node's neighbours (the inner
`for` loop of `_dijkstra`).  `frontier[nxt_node]` can in principle raise
(`getKey`), hence the `Except`. -/
def relaxAll (cur : Nat) (curCost : Cost) (nbrs : List (Nat × Int))
    (st : HeapQueue Nat Cost × PyDict Nat (Option Nat)) :
    Except String (HeapQueue Nat Cost × PyDict Nat (Option Nat)) :=
  nbrs.foldlM
    (fun st nb =>
      let frontier := st.1
      let cameFrom := st.2
      if frontier.hcontains nb.1 then do
        let nxtCost : Cost := curCost + (nb.2 : Cost)
        let curKey ← frontier.getKey nb.1
        if nxtCost < curKey then
          .ok (frontier.push nb.1 nxtCost, cameFrom.set nb.1 (some cur))
        else .ok (frontier, cameFrom)
      else .ok (frontier, cameFrom))
    st

/-- The `while frontier:` loop of `_dijkstra`, with fuel.  Every
iteration pops one entry and pushes only already-present items, so fuel
equal to the initial heap size never runs out. -/
def dijkstraLoop (g : DirectedGraph) : Nat → HeapQueue Nat Cost → List Nat →
    PyDict Nat (Option Nat) → Except String (PyDict Nat (Option Nat))
  | 0, frontier, _, cameFrom =>
    if frontier.entries.isEmpty then .ok cameFrom else .error "fuel exhausted"
  | fuel + 1, frontier, pending, cameFrom =>
    if frontier.entries.isEmpty then .ok cameFrom
    else do
      let ((cur, curCost), frontier1) ← frontier.pop
      let pending1 := pending.filter (fun t => t ≠ cur)
      if pending1.isEmpty then .ok cameFrom
      else do
        let nbrs ← g.neighbors cur
        let (frontier2, cameFrom2) ← relaxAll cur curCost nbrs (frontier1, cameFrom)
        dijkstraLoop g fuel frontier2 pending1 cameFrom2

/-- `_dijkstra(start, targets)`: seed every node with cost `inf`, push
`start` with cost `0`, and run the loop. -/
def dijkstra (g : DirectedGraph) (start : Nat) (targets : List Nat) :
    Except String (PyDict Nat (Option Nat)) :=
  let cameFrom : PyDict Nat (Option Nat) := [(start, none)]
  let pending := targets.dedup
  let frontier0 : HeapQueue Nat Cost :=
    HeapQueue.ofEntries (g.nodes.map (fun n => (n, (⊤ : Cost))))
  let frontier := frontier0.push start 0
  dijkstraLoop g frontier.entries.length frontier pending cameFrom

/-- The `while cur_node is not None:` walk of `_construct_path`, with
fuel; it returns the path from `target` back to the start.
`came_from[cur_node]` raises `KeyError` on a missing key. -/
def constructPathAux (cameFrom : PyDict Nat (Option Nat)) :
    Nat → Nat → Except String (List Nat)
  | 0, _ => .error "fuel exhausted"
  | fuel + 1, cur =>
    match cameFrom.lookup cur with
    | none => .error "KeyError"
    | some none => .ok [cur]
    | some (some prev) => do
      let rest ← constructPathAux cameFrom fuel prev
      .ok (cur :: rest)

/-- `_construct_path(came_from, target)`: backtrack, then reverse. -/
def constructPath (cameFrom : PyDict Nat (Option Nat)) (target : Nat) :
    Except String (List Nat) :=
  (constructPathAux cameFrom cameFrom.length target).map List.reverse

/-- `single_source_shortest_paths(start, targets)`. -/
def singleSourceShortestPaths (g : DirectedGraph) (start : Nat)
    (targets : List Nat) : Except String (PyDict Nat (List Nat)) :=
  if ¬ g.adjacency.contains start then .error "ValueError: no node"
  else if ¬ targets.all (fun t => g.adjacency.contains t) then
    .error "ValueError: no node"
  else do
    let cameFrom ← g.dijkstra start targets
    targets.foldlM
      (fun result target =>
        match cameFrom.lookup target with
        | none => .ok (result.set target [])
        | some _ => do
          let path ← constructPath cameFrom target
          .ok (result.set target path))
      []

end DirectedGraph

/-! ### `weighted_graph.py`: `EdgeMapGraph` (node set + edge map)

`frozenset({start, end})` is modelled by a canonical list: one element
for a self-loop, the two endpoints in increasing order otherwise; list
equality then coincides with set equality of the pairs.  The node set's
iteration order is never observable in the claims, so `_nodes` is a
duplicate-free list. -/

/-- The canonical representation of `frozenset({a, b})`. -/
def pairOf (a b : Nat) : List Nat :=
  if a = b then [a] else if a < b then [a, b] else [b, a]

structure EdgeMapGraph where
  nodeSet : List Nat
  edgeMap : PyDict (List Nat) Int

namespace EdgeMapGraph

/-- `EdgeMapGraph()`. -/
def emptyGraph : EdgeMapGraph := ⟨[], []⟩

/-- `self._nodes.add(label)`. -/
def setAdd (s : List Nat) (label : Nat) : List Nat :=
  if label ∈ s then s else s ++ [label]

/-- `add_node(label)`. -/
def addNode (g : EdgeMapGraph) (label : Nat) : EdgeMapGraph :=
  { g with nodeSet := setAdd g.nodeSet label }

/-- `add_edge(start, end, weight)`. -/
def addEdge (g : EdgeMapGraph) (s e : Nat) (w : Int) : EdgeMapGraph :=
  { nodeSet := setAdd (setAdd g.nodeSet s) e
    edgeMap := g.edgeMap.set (pairOf s e) w }

/-- `remove_node(label)`: `ValueError` when absent; otherwise drop the
node and retain only the edges not containing it. -/
def removeNode (g : EdgeMapGraph) (label : Nat) : Except String EdgeMapGraph :=
  if label ∈ g.nodeSet then
    .ok { nodeSet := g.nodeSet.filter (fun n => n ≠ label)
          edgeMap := g.edgeMap.filter (fun p => label ∉ p.1) }
  else .error "ValueError: no node"

/-- The `edges` property: `Edge(pair, weight)` pairs in insertion order. -/
def edges (g : EdgeMapGraph) : List (List Nat × Int) := g.edgeMap

/-- The `node_count` property. -/
def nodeCount (g : EdgeMapGraph) : Nat := g.nodeSet.length

/-- The `edge_count` property. -/
def edgeCount (g : EdgeMapGraph) : Nat := g.edgeMap.length

/-- The scan of Kruskal's algorithm over the sorted edge list, carrying
the chosen edges and the forest.  `start, end = edge.pair` is the
two-variable unpacking: any pair that is not a two-element collection
raises `ValueError`. -/
def kruskalLoop (nodeCount : Nat) : List (List Nat × Int) → List (List Nat × Int) →
    Partition Nat → Except String (List (List Nat × Int))
  | [], result, _ => .ok result
  | edge :: rest, result, forest =>
    match edge.1 with
    | [s, e] => do
      let (rootS, forest1) ← forest.find s
      let (rootE, forest2) ← forest1.find e
      let (result3, forest3) ←
        if rootS ≠ rootE then do
          let forest3 ← forest2.union s e
          .ok (result ++ [edge], forest3)
        else .ok (result, forest2)
      if result3.length = nodeCount - 1 then .ok result3
      else kruskalLoop nodeCount rest result3 forest3
    | _ => .error "ValueError: unpack"

/-- Insert an edge after every already-placed edge of smaller or equal
weight. -/
def insertEdge (e : List Nat × Int) : List (List Nat × Int) → List (List Nat × Int)
  | [] => [e]
  | f :: rest => if f.2 ≤ e.2 then f :: insertEdge e rest else e :: f :: rest

/-- `sorted(self.edges, key=lambda edge: edge.weight)`: stable sort by
ascending weight.  Python `sorted` is stable, and a stable sort's output
is uniquely determined (elements ordered by weight, ties by original
position), so this left-to-right insertion sort computes exactly it. -/
def sortEdges (l : List (List Nat × Int)) : List (List Nat × Int) :=
  l.foldl (fun acc e => insertEdge e acc) []

/-- The `min_span_tree` property: Kruskal over the edges sorted by
ascending weight. -/
def minSpanTree (g : EdgeMapGraph) : Except String (List (List Nat × Int)) :=
  kruskalLoop g.nodeCount (sortEdges g.edges) [] (Partition.init g.nodeSet)

end EdgeMapGraph

/-! ### Specification predicates -/

namespace HeapQueue

variable {I K : Type} [DecidableEq I] [LinearOrder K]

/-- The min-heap pair constraint at child position `i`: the key at the
parent position `(i-1)/2` is at most the key at `i`. -/
def heapAt (l : List (I × K)) (i : Nat) : Prop :=
  ∀ ei ep, 0 < i → l[i]? = some ei → l[(i - 1) / 2]? = some ep → ep.2 ≤ ei.2

/-- The heap constraint restricted to pairs whose parent position is at
least `b` (used for the bottom-up heapify induction). -/
def heapFrom (l : List (I × K)) (b : Nat) : Prop :=
  ∀ i, b ≤ (i - 1) / 2 → heapAt l i

/-- The full min-heap property: every non-root entry's key is `≥` its
parent's key. -/
def heapProp (l : List (I × K)) : Prop := ∀ i, heapAt l i

/-- Index consistency as stated in the spec: the recorded index of every
item in the backing array is exactly its position. -/
def indexConsistent (q : HeapQueue I K) : Prop :=
  ∀ j e, q.entries[j]? = some e → q.indices e.1 = some j

/-- The full two-sided index invariant the code maintains: additionally
every recorded index points at an entry holding that item. -/
def idxOk (q : HeapQueue I K) : Prop :=
  (∀ x j, q.indices x = some j → ∃ k, q.entries[j]? = some (x, k)) ∧
  indexConsistent q

/-- The states reachable by the public interface: construction (empty, or
from an entry collection with unique items) followed by any sequence of
`push` and `pop` calls. -/
inductive Reach : HeapQueue I K → Prop
  | empty : Reach emptyHeap
  | ofEntries (es : List (I × K)) (h : (es.map Prod.fst).Nodup) : Reach (ofEntries es)
  | push (q : HeapQueue I K) (item : I) (key : K) : Reach q → Reach (q.push item key)
  | pop (q : HeapQueue I K) (e : I × K) (q2 : HeapQueue I K) :
      Reach q → q.pop = .ok (e, q2) → Reach q2

end HeapQueue

namespace Partition

variable {I : Type} [DecidableEq I]

/-- The parent chain from `x` up to its root, as the list of visited
items (`x` first, the root last). -/
inductive PChain (P : PyDict I I) : I → List I → Prop
  | root (x : I) : P.lookup x = some x → PChain P x [x]
  | step (x y : I) (l : List I) : P.lookup x = some y → x ≠ y →
      PChain P y l → PChain P x (x :: l)

/-- `r` is the root of the group containing `x`. -/
def RootOf (P : PyDict I I) (x r : I) : Prop :=
  ∃ l, PChain P x l ∧ l.getLast? = some r

/-- `x` and `y` belong to the same group. -/
def SameRoot (P : PyDict I I) (x y : I) : Prop :=
  ∃ r, RootOf P x r ∧ RootOf P y r

/-- Well-formedness of the forest: distinct parent keys, a weight entry
for every parent key, and from every item a duplicate-free parent chain
inside the key set (hence of length at most `len(self._parents)`, which
is exactly the fuel `find` is given). -/
def WFP (p : Partition I) : Prop :=
  p.parents.keys.Nodup ∧
  (∀ x, x ∈ p.parents.keys → x ∈ p.weights.keys) ∧
  (∀ x, x ∈ p.parents.keys →
    ∃ l, PChain p.parents x l ∧ l.Nodup ∧ ∀ y ∈ l, y ∈ p.parents.keys)

end Partition

namespace DirectedGraph

/-- Well-formed adjacency storage: dictionary keys are unique (true of
every Python dict, and preserved by all mutators). -/
def WF (g : DirectedGraph) : Prop :=
  g.adjacency.keys.Nodup ∧ ∀ p ∈ g.adjacency, (PyDict.keys p.2).Nodup

/-- A single directed edge step. -/
def EdgeRel (g : DirectedGraph) (x y : Nat) : Prop :=
  ∃ nbr w, g.adjacency.lookup x = some nbr ∧ nbr.lookup y = some w

/-- Graph reachability along directed edges. -/
def ReachableFrom (g : DirectedGraph) (s t : Nat) : Prop :=
  Relation.ReflTransGen (EdgeRel g) s t

/-- The predecessor chain of the came-from dictionary: the walk of
`_construct_path` from a node back to the start (whose recorded
predecessor is `None`). -/
inductive CFChain (cf : PyDict Nat (Option Nat)) : Nat → List Nat → Prop
  | start (x : Nat) : cf.lookup x = some none → CFChain cf x [x]
  | step (x y : Nat) (l : List Nat) : cf.lookup x = some (some y) →
      CFChain cf y l → CFChain cf x (x :: l)

/-- The invariant of the Dijkstra loop: the frontier heap is
index-consistent and holds only graph nodes; every frontier entry with
a finite tentative cost is a came-from key; came-from keys are unique,
reachable from `start`, and carry duplicate-free predecessor chains
inside the key set; every recorded predecessor is a finalized node
(no longer in the frontier) joined by a graph edge. -/
def DInv (g : DirectedGraph) (start : Nat) (frontier : HeapQueue Nat Cost)
    (cf : PyDict Nat (Option Nat)) : Prop :=
  HeapQueue.idxOk frontier ∧
  (∀ e ∈ frontier.entries, e.1 ∈ g.nodes) ∧
  (∀ e ∈ frontier.entries, e.2 ≠ (⊤ : Cost) → e.1 ∈ PyDict.keys cf) ∧
  (PyDict.keys cf).Nodup ∧
  (∀ x y, cf.lookup x = some (some y) →
    y ∈ PyDict.keys cf ∧ y ∉ frontier.entries.map Prod.fst ∧ g.EdgeRel y x) ∧
  (∀ x, x ∈ PyDict.keys cf → g.ReachableFrom start x) ∧
  (∀ x, x ∈ PyDict.keys cf →
    ∃ l, CFChain cf x l ∧ l.Nodup ∧ ∀ z ∈ l, z ∈ PyDict.keys cf)

/-- State-threading wrapper recording that the whole
`single_source_shortest_paths` call reads `self` but never writes it:
every `self` access in the method body is a read
(`self._adjacency` membership tests, `self.nodes`, `self.neighbors`),
so the graph component of the state is passed through unchanged. -/
def ssspTraced (g : DirectedGraph) (start : Nat) (targets : List Nat) :
    Except String (PyDict Nat (List Nat)) × DirectedGraph :=
  (g.singleSourceShortestPaths start targets, g)

end DirectedGraph

namespace EdgeMapGraph

/-- State-threading wrapper for the `min_span_tree` property: the body
reads `self.nodes`, `self.edges` and `self.node_count` and never writes
`self`, so the graph component of the state is passed through
unchanged. -/
def minSpanTreeTraced (g : EdgeMapGraph) :
    Except String (List (List Nat × Int)) × EdgeMapGraph :=
  (g.minSpanTree, g)

end EdgeMapGraph

/-! ### Kruskal specification predicates (claim C2)

An undirected edge-set is a list of `(pair, weight)` entries.  One
edge-step joins the two endpoints of a pair; connectivity is the
reflexive-transitive closure.  A set is acyclic when no edge's
endpoints stay connected after removing it.  Counting arguments go
through an executable union-find closure (`ufAdd`) and an executable
root count (`rootCountP`). -/

/-- One step along an edge of `E`. -/
def EStep (E : List (List Nat × Int)) (x y : Nat) : Prop :=
  x ≠ y ∧ ∃ e ∈ E, e.1 = pairOf x y

/-- Connectivity via the edges of `E`. -/
def EConn (E : List (List Nat × Int)) : Nat → Nat → Prop :=
  Relation.ReflTransGen (EStep E)

/-- `E` spans `g`: every two nodes are connected through `E`. -/
def SpanningOf (g : EdgeMapGraph) (E : List (List Nat × Int)) : Prop :=
  ∀ x ∈ g.nodeSet, ∀ y ∈ g.nodeSet, EConn E x y

/-- `E` is acyclic: every edge is a bridge of `E`. -/
def AcyclicE (E : List (List Nat × Int)) : Prop :=
  ∀ e ∈ E, ∀ x y, x ≠ y → e.1 = pairOf x y → ¬ EConn (E.erase e) x y

/-- The total weight of an edge list. -/
def totalWeight (E : List (List Nat × Int)) : Int := (E.map Prod.snd).sum

/-- Well-formedness of an `EdgeMapGraph` without self-loops: distinct
nodes, distinct edge pairs, every pair a two-element canonical
`frozenset` of existing nodes (exactly the states reachable by
`add_node`/`add_edge` with distinct endpoints). -/
def WFE (g : EdgeMapGraph) : Prop :=
  g.nodeSet.Nodup ∧ (PyDict.keys g.edgeMap).Nodup ∧
  ∀ p ∈ g.edgeMap, ∃ a b, a < b ∧ a ∈ g.nodeSet ∧ b ∈ g.nodeSet ∧ p.1 = [a, b]

namespace Partition

variable {I : Type} [DecidableEq I]

/-- Walk the parent chain of a raw parent dictionary (pure version of
`find`, no compression), with fuel. -/
def rootD (P : PyDict I I) : Nat → I → Option I
  | 0, _ => none
  | f + 1, x =>
    match P.lookup x with
    | none => none
    | some px => if px = x then some x else rootD P f px

/-- The root of `x`, defaulting to `x` itself. -/
def rootFn (P : PyDict I I) (x : I) : I := (rootD P P.length x).getD x

/-- The number of roots (self-parent keys) of a parent dictionary: the
number of groups of the partition. -/
def rootCountP (P : PyDict I I) : Nat :=
  ((PyDict.keys P).filter (fun k => decide (PyDict.lookup P k = some k))).length

end Partition

/-- Fold `union` over an edge list (the union-find closure of an edge
set, used to count connected components). -/
def ufAdd (p : Partition Nat) (E : List (List Nat × Int)) :
    Except String (Partition Nat) :=
  E.foldlM
    (fun q f =>
      match f.1 with
      | [a, b] => q.union a b
      | _ => .error "ValueError: unpack")
    p

/-- The graph of claim C1: edges
(1,0,1), (0,2,2), (1,2,3), (1,3,4), (3,2,5), (3,4,6), (2,1,1), (4,3,3)
added to an initially empty `DirectedGraph`. -/
def exampleGraphC1 : DirectedGraph :=
  (((((((DirectedGraph.emptyGraph.addEdge 1 0 1).addEdge 0 2 2).addEdge
    1 2 3).addEdge 1 3 4).addEdge 3 2 5).addEdge 3 4 6).addEdge 2 1 1).addEdge 4 3 3

/-- The witness graph for claim C2: a triangle on nodes `0`, `1`, `2`
with weights `1`, `2`, `3`. -/
def exampleGraphC2 : EdgeMapGraph :=
  ((EdgeMapGraph.emptyGraph.addEdge 0 1 1).addEdge 1 2 2).addEdge 0 2 3

/-- The graph of claim C10: a single node `5` carrying the self-loop
edge `(5, 5, 2)`. -/
def selfLoopGraph : EdgeMapGraph := EdgeMapGraph.emptyGraph.addEdge 5 5 2


/-! ## Theorems -/

/-! ### Association-list dictionary lemmas -/

namespace PyDict

variable {α β : Type} [DecidableEq α]

theorem lookup_eq_none_iff {d : PyDict α β} {k : α} :
    lookup d k = none ↔ k ∉ keys d := by
  induction d with
  | nil => simp [lookup, keys]
  | cons p rest ih =>
    obtain ⟨a, b⟩ := p
    by_cases h : k = a <;> simp [lookup, keys, h, ih]

theorem lookup_isSome_iff {d : PyDict α β} {k : α} :
    (lookup d k).isSome = true ↔ k ∈ keys d := by
  rw [Option.isSome_iff_ne_none]
  simp [lookup_eq_none_iff]

theorem contains_iff_mem_keys {d : PyDict α β} {k : α} :
    contains d k = true ↔ k ∈ keys d := lookup_isSome_iff

theorem lookup_mem {d : PyDict α β} {k : α} {v : β} (h : lookup d k = some v) :
    (k, v) ∈ d := by
  induction d with
  | nil => simp [lookup] at h
  | cons p rest ih =>
    obtain ⟨a, b⟩ := p
    by_cases hk : k = a
    · subst hk
      simp [lookup] at h
      simp [h]
    · simp [lookup, hk] at h
      exact List.mem_cons_of_mem _ (ih h)

theorem lookup_set_self (d : PyDict α β) (k : α) (v : β) :
    lookup (set d k v) k = some v := by
  induction d with
  | nil => simp [set, lookup]
  | cons p rest ih =>
    obtain ⟨a, b⟩ := p
    by_cases h : k = a <;> simp [set, lookup, h, ih]

theorem lookup_set_ne (d : PyDict α β) {k k' : α} (v : β) (h : k' ≠ k) :
    lookup (set d k v) k' = lookup d k' := by
  induction d with
  | nil => simp [set, lookup, h]
  | cons p rest ih =>
    obtain ⟨a, b⟩ := p
    by_cases hk : k = a
    · subst hk
      simp [set, lookup, h]
    · by_cases hk' : k' = a <;> simp [set, lookup, hk, hk', ih]

theorem keys_set (d : PyDict α β) (k : α) (v : β) :
    keys (set d k v) = if k ∈ keys d then keys d else keys d ++ [k] := by
  induction d with
  | nil => simp [set, keys]
  | cons p rest ih =>
    obtain ⟨a, b⟩ := p
    by_cases h : k = a
    · subst h
      simp [set, keys]
    · have hmemc : (k ∈ a :: List.map Prod.fst rest) = (k ∈ List.map Prod.fst rest) := by
        simp [h]
      by_cases hmem : k ∈ List.map Prod.fst rest <;>
        simp [set, keys, h, hmem, hmemc] at ih ⊢ <;> simp [ih]

theorem keys_set_of_mem {d : PyDict α β} {k : α} (v : β) (h : k ∈ keys d) :
    keys (set d k v) = keys d := by
  simp [keys_set, h]

theorem length_set_of_mem {d : PyDict α β} {k : α} (v : β) (h : k ∈ keys d) :
    (set d k v).length = d.length := by
  have h1 : (keys (set d k v)).length = (keys d).length := by
    rw [keys_set_of_mem v h]
  simpa [keys] using h1

theorem nodup_keys_set {d : PyDict α β} (k : α) (v : β) (h : (keys d).Nodup) :
    (keys (set d k v)).Nodup := by
  rw [keys_set]
  by_cases hmem : k ∈ keys d
  · simpa [hmem]
  · simp only [hmem, if_false]
    simpa [List.nodup_append] using ⟨h, hmem⟩

theorem lookup_append_left {d d' : PyDict α β} {k : α} (h : k ∈ keys d) :
    lookup (d ++ d') k = lookup d k := by
  induction d with
  | nil => simp [keys] at h
  | cons p rest ih =>
    obtain ⟨a, b⟩ := p
    by_cases hk : k = a
    · simp [lookup, hk]
    · have h2 : k ∈ keys rest := by
        simp [keys] at h ⊢
        rcases h with h | h
        · exact absurd h hk
        · exact h
      simp [lookup, hk, ih h2]

theorem lookup_append_right {d d' : PyDict α β} {k : α} (h : k ∉ keys d) :
    lookup (d ++ d') k = lookup d' k := by
  induction d with
  | nil => simp
  | cons p rest ih =>
    obtain ⟨a, b⟩ := p
    simp only [keys, List.map_cons, List.mem_cons, not_or] at h
    have h2 : k ∉ keys rest := h.2
    simp [lookup, h.1, ih h2]

theorem lookup_setdefault_of_mem {d : PyDict α β} {k : α} (v : β) (h : k ∈ keys d) :
    lookup (setdefault d k v) k = lookup d k := by
  simp [setdefault, contains_iff_mem_keys.2 h]

theorem setdefault_of_mem {d : PyDict α β} {k : α} (v : β) (h : k ∈ keys d) :
    setdefault d k v = d := by
  simp [setdefault, contains_iff_mem_keys.2 h]

theorem lookup_erase_self (d : PyDict α β) (k : α) :
    lookup (erase d k) k = none := by
  induction d with
  | nil => simp [erase, lookup]
  | cons p rest ih =>
    obtain ⟨a, b⟩ := p
    by_cases h : a = k
    · simpa [erase, h] using (by simpa [erase] using ih)
    · simp [erase, List.filter] at ih ⊢
      simp [h, lookup, Ne.symm h, ih]

theorem lookup_erase_ne (d : PyDict α β) {k k' : α} (h : k' ≠ k) :
    lookup (erase d k) k' = lookup d k' := by
  induction d with
  | nil => simp [erase]
  | cons p rest ih =>
    obtain ⟨a, b⟩ := p
    by_cases ha : a = k
    · subst ha
      simp [erase, List.filter] at ih ⊢
      simp [lookup, h, ih]
    · simp [erase, List.filter, ha] at ih ⊢
      by_cases hk' : k' = a <;> simp [lookup, hk', ih]

theorem keys_erase (d : PyDict α β) (k : α) :
    keys (erase d k) = (keys d).filter (fun a => a ≠ k) := by
  induction d with
  | nil => simp [erase, keys]
  | cons p rest ih =>
    obtain ⟨a, b⟩ := p
    by_cases h : a = k <;>
      simp [erase, keys, List.filter, h] at ih ⊢ <;>
      simpa [h] using ih

end PyDict

namespace HeapQueue

variable {I K : Type} [DecidableEq I] [LinearOrder K]

theorem hswap_length (q : HeapQueue I K) (idx1 idx2 : Nat) :
    (hswap q idx1 idx2).entries.length = q.entries.length := by
  unfold hswap
  cases h1 : q.entries[idx1]? <;> cases h2 : q.entries[idx2]? <;> simp

theorem smallerChild_bounds {q : HeapQueue I K} {idx c : Nat}
    (h : smallerChild q idx = some c) : idx < c ∧ c < q.entries.length := by
  unfold smallerChild at h
  by_cases hl : q.entries.length ≤ 2 * idx + 1
  · simp [hl] at h
  · by_cases hr : 2 * idx + 1 + 1 = q.entries.length
    · simp [hl, hr] at h
      omega
    · simp only [hl, hr, dite_false, dite_true, reduceDIte] at h
      split at h <;> (simp at h; omega)

end HeapQueue

/-! ### Lemmas on `remove_node` -/

namespace DirectedGraph

theorem keys_strip (adj : List (Nat × PyDict Nat Int)) (label : Nat) :
    PyDict.keys ((PyDict.erase adj label).map (fun p => (p.1, PyDict.erase p.2 label))) =
      (PyDict.keys adj).filter (fun n => n ≠ label) := by
  induction adj with
  | nil => rfl
  | cons p rest ih =>
    obtain ⟨a, nbr⟩ := p
    by_cases ha : a = label <;>
      simp [PyDict.erase, PyDict.keys, List.filter_cons, ha] at ih ⊢ <;>
      simpa [PyDict.erase, PyDict.keys] using ih

theorem edges_strip (adj : List (Nat × PyDict Nat Int)) (label : Nat) :
    ((PyDict.erase adj label).map (fun p => (p.1, PyDict.erase p.2 label))).flatMap
        (fun p => p.2.map (fun q => (p.1, q.1, q.2))) =
      (adj.flatMap (fun p => p.2.map (fun q => (p.1, q.1, q.2)))).filter
        (fun e => e.1 ≠ label ∧ e.2.1 ≠ label) := by
  induction adj with
  | nil => rfl
  | cons p rest ih =>
    obtain ⟨a, nbr⟩ := p
    simp only [PyDict.erase, List.filter_cons] at ih ⊢
    by_cases ha : a = label
    · subst ha
      rw [if_neg (by simp)]
      rw [List.flatMap_cons, List.filter_append, ih]
      have h0 : List.filter (fun e => decide (e.1 ≠ a ∧ e.2.1 ≠ a))
          (List.map (fun q => (a, q.1, q.2)) nbr) = [] := by
        rw [List.filter_eq_nil_iff]
        intro e he
        simp only [List.mem_map] at he
        obtain ⟨q, _, rfl⟩ := he
        simp
      rw [h0, List.nil_append]
    · rw [if_pos (by simp [ha])]
      rw [List.map_cons, List.flatMap_cons, List.flatMap_cons, List.filter_append, ih]
      congr 1
      rw [List.filter_map]
      congr 1
      simp only [PyDict.erase]
      apply List.filter_congr
      intro q hq
      simp [Function.comp, ha]

theorem nodes_removeNode {g g2 : DirectedGraph} {label : Nat}
    (h : g.removeNode label = .ok g2) :
    g2.nodes = g.nodes.filter (fun n => n ≠ label) := by
  unfold removeNode at h
  by_cases hc : g.adjacency.contains label
  · simp only [hc, if_true, Except.ok.injEq] at h
    subst h
    exact keys_strip g.adjacency label
  · simp [hc] at h

theorem edges_removeNode {g g2 : DirectedGraph} {label : Nat}
    (h : g.removeNode label = .ok g2) :
    g2.edges = g.edges.filter (fun e => e.1 ≠ label ∧ e.2.1 ≠ label) := by
  unfold removeNode at h
  by_cases hc : g.adjacency.contains label
  · simp only [hc, if_true, Except.ok.injEq] at h
    subst h
    exact edges_strip g.adjacency label
  · simp [hc] at h

theorem edgeCount_eq_length_edges (g : DirectedGraph) :
    g.edgeCount = g.edges.length := by
  unfold edgeCount edges
  induction g.adjacency with
  | nil => simp
  | cons p rest ih => simp [ih]

theorem removeNode_isError {g : DirectedGraph} {label : Nat}
    (h : label ∉ g.nodes) : g.removeNode label = .error "ValueError: no node" := by
  unfold removeNode
  have : ¬ g.adjacency.contains label = true := by
    rw [PyDict.contains_iff_mem_keys]
    exact h
  simp [this]

theorem removeNode_isOk {g : DirectedGraph} {label : Nat}
    (h : label ∈ g.nodes) :
    g.removeNode label =
      .ok ⟨(g.adjacency.erase label).map (fun p => (p.1, p.2.erase label))⟩ := by
  unfold removeNode
  rw [if_pos (PyDict.contains_iff_mem_keys.2 h)]

end DirectedGraph

namespace EdgeMapGraph

theorem removeNodeE_isError {g : EdgeMapGraph} {label : Nat}
    (h : label ∉ g.nodeSet) : g.removeNode label = .error "ValueError: no node" := by
  simp [removeNode, h]

theorem removeNodeE_isOk {g : EdgeMapGraph} {label : Nat}
    (h : label ∈ g.nodeSet) :
    g.removeNode label = .ok { nodeSet := g.nodeSet.filter (fun n => n ≠ label)
                               edgeMap := g.edgeMap.filter (fun p => label ∉ p.1) } := by
  simp [removeNode, h]

end EdgeMapGraph

/-! ### Claim theorems (first batch) -/

/-- C1: on the directed graph with edges (1,0,1), (0,2,2), (1,2,3),
(1,3,4), (3,2,5), (3,4,6), (2,1,1), (4,3,3), the call
`single_source_shortest_paths(1, [0,1,2,3,4])` returns exactly the
mapping {0:[1,0], 1:[1], 2:[1,2], 3:[1,3], 4:[1,3,4]}. -/
theorem C1_dijkstra_example :
    exampleGraphC1.singleSourceShortestPaths 1 [0, 1, 2, 3, 4] =
      .ok [(0, [1, 0]), (1, [1]), (2, [1, 2]), (3, [1, 3]), (4, [1, 3, 4])] := rfl

/-- C10: `add_edge(5, 5, 2)` stores the self-loop as the one-element
pair `{5}`, and `min_span_tree` on that graph fails with the unhandled
`ValueError` of the two-variable unpacking of the one-element pair
instead of returning a spanning forest. -/
theorem C10_self_loop_unpack :
    selfLoopGraph.edges = [([5], 2)] ∧
    selfLoopGraph.minSpanTree = .error "ValueError: unpack" := ⟨rfl, rfl⟩

/-- C9: neither algorithm mutates the graph it runs on: both
`single_source_shortest_paths` (whether it returns or fails) and
`min_span_tree` only read the graph, so the graph component of the
state-threaded call is exactly the input graph. -/
theorem C9_algorithms_read_only :
    ∀ (g : DirectedGraph) (start : Nat) (targets : List Nat) (g2 : EdgeMapGraph),
      (g.ssspTraced start targets).2 = g ∧ g2.minSpanTreeTraced.2 = g2 :=
  fun _ _ _ _ => ⟨rfl, rfl⟩

/-- C4: for both graph variants, `remove_node(label)` fails with the
`ValueError` "no node" exactly when `label` is absent (the functional
state is untouched in that case — no partial mutation is observable);
when `label` is present it succeeds, afterwards no edge yielded by
`edges` references `label`, and `node_count` / `edge_count` equal the
sizes of the filtered node and edge sets. -/
theorem C4_remove_node_atomic :
    (∀ (g : DirectedGraph) (label : Nat),
      (label ∉ g.nodes → g.removeNode label = .error "ValueError: no node") ∧
      (label ∈ g.nodes → ∃ g2, g.removeNode label = .ok g2 ∧
        (∀ e ∈ g2.edges, e.1 ≠ label ∧ e.2.1 ≠ label) ∧
        g2.nodeCount = (g.nodes.filter (fun n => n ≠ label)).length ∧
        g2.edgeCount = (g.edges.filter (fun e => e.1 ≠ label ∧ e.2.1 ≠ label)).length)) ∧
    (∀ (g : EdgeMapGraph) (label : Nat),
      (label ∉ g.nodeSet → g.removeNode label = .error "ValueError: no node") ∧
      (label ∈ g.nodeSet → ∃ g2, g.removeNode label = .ok g2 ∧
        (∀ e ∈ g2.edges, label ∉ e.1) ∧
        g2.nodeCount = (g.nodeSet.filter (fun n => n ≠ label)).length ∧
        g2.edgeCount = (g.edges.filter (fun p => label ∉ p.1)).length)) := by
  constructor
  · intro g label
    refine ⟨DirectedGraph.removeNode_isError, fun h => ?_⟩
    refine ⟨_, DirectedGraph.removeNode_isOk h, ?_, ?_, ?_⟩
    · intro e he
      rw [DirectedGraph.edges_removeNode (DirectedGraph.removeNode_isOk h)] at he
      simpa using (List.of_mem_filter he)
    · have := DirectedGraph.nodes_removeNode (DirectedGraph.removeNode_isOk h)
      simp only [DirectedGraph.nodeCount, DirectedGraph.nodes] at this ⊢
      calc ((g.adjacency.erase label).map fun p => (p.1, p.2.erase label)).length
          = (PyDict.keys ((g.adjacency.erase label).map
              fun p => (p.1, p.2.erase label))).length := by simp [PyDict.keys]
        _ = _ := by rw [show PyDict.keys ((g.adjacency.erase label).map
              fun p => (p.1, p.2.erase label)) =
                List.filter (fun n => n ≠ label) (PyDict.keys g.adjacency) from this]
    · rw [DirectedGraph.edgeCount_eq_length_edges,
        DirectedGraph.edges_removeNode (DirectedGraph.removeNode_isOk h)]
  · intro g label
    refine ⟨EdgeMapGraph.removeNodeE_isError, fun h => ?_⟩
    refine ⟨_, EdgeMapGraph.removeNodeE_isOk h, ?_, rfl, rfl⟩
    intro e he
    have := List.of_mem_filter he
    simpa using this

/-- C4 witness: both branches of both variants instantiated on concrete
graphs (`exampleGraphC1` has node 1 but no node 9; the self-loop graph
has node 5 but no node 9). -/
theorem C4_remove_node_atomic_witness :
    (exampleGraphC1.removeNode 9 = .error "ValueError: no node") ∧
    (∃ g2, exampleGraphC1.removeNode 1 = .ok g2 ∧
      (∀ e ∈ g2.edges, e.1 ≠ 1 ∧ e.2.1 ≠ 1) ∧
      g2.nodeCount = (exampleGraphC1.nodes.filter (fun n => n ≠ 1)).length ∧
      g2.edgeCount = (exampleGraphC1.edges.filter
        (fun e => e.1 ≠ 1 ∧ e.2.1 ≠ 1)).length) ∧
    (selfLoopGraph.removeNode 9 = .error "ValueError: no node") ∧
    (∃ g2, selfLoopGraph.removeNode 5 = .ok g2 ∧
      (∀ e ∈ g2.edges, 5 ∉ e.1) ∧
      g2.nodeCount = (selfLoopGraph.nodeSet.filter (fun n => n ≠ 5)).length ∧
      g2.edgeCount = (selfLoopGraph.edges.filter (fun p => 5 ∉ p.1)).length) := by
  refine ⟨(C4_remove_node_atomic.1 exampleGraphC1 9).1 (by decide),
    (C4_remove_node_atomic.1 exampleGraphC1 1).2 (by decide),
    (C4_remove_node_atomic.2 selfLoopGraph 9).1 (by decide),
    (C4_remove_node_atomic.2 selfLoopGraph 5).2 (by decide)⟩

/-! ### `add_group` (claim C8) -/

namespace PyDict

variable {α β : Type} [DecidableEq α]

theorem lookup_foldl_set_notmem {l : List α} {x : α} (v : β) (d : PyDict α β)
    (h : x ∉ l) :
    lookup (l.foldl (fun d i => set d i v) d) x = lookup d x := by
  induction l generalizing d with
  | nil => rfl
  | cons i rest ih =>
    simp only [List.mem_cons, not_or] at h
    rw [List.foldl_cons, ih _ h.2, lookup_set_ne d v h.1]

theorem lookup_foldl_set_mem {l : List α} {x : α} (v : β) (d : PyDict α β)
    (h : x ∈ l) :
    lookup (l.foldl (fun d i => set d i v) d) x = some v := by
  induction l generalizing d with
  | nil => simp at h
  | cons i rest ih =>
    rw [List.foldl_cons]
    by_cases hx : x ∈ rest
    · exact ih _ hx
    · have hxi : x = i := by
        rcases List.mem_cons.1 h with h1 | h1
        · exact h1
        · exact absurd h1 hx
      subst hxi
      rw [lookup_foldl_set_notmem v _ hx, lookup_set_self]

end PyDict

/-- C8 counterexample: `[7, 7]` is a non-empty list none of whose items
exists in the empty partition, and `add_group([7, 7])` succeeds — but
the root's recorded size ends up `1`, not the number of items `2`
(the trailing duplicate overwrites the root's weight), refuting the
claim as stated for lists with repeated items. -/
theorem C8_add_group_counterexample :
    (Partition.init ([] : List Nat)).addGroup [7, 7] =
      .ok { parents := [(7, 7)], weights := [(7, 1)] } ∧
    ([7, 7] : List Nat) ≠ [] ∧
    (∀ i ∈ ([7, 7] : List Nat), i ∉ (Partition.init ([] : List Nat)).parents.keys) ∧
    ([7, 7] : List Nat).length = 2 ∧
    ({ parents := [(7, 7)], weights := [(7, 1)] } : Partition Nat).weights.lookup 7 ≠
      some 2 :=
  ⟨rfl, by decide, by decide, rfl, by decide⟩

/-- C8 (amended — the claim holds for lists of pairwise-distinct items):
`add_group(items)` fails with the conflict `ValueError` when some item
already exists in the forest (the Python code raises before any
mutation, so the partition is unchanged); otherwise it succeeds, the
first item becomes its own parent with recorded size `len(items)`, and
every other item's parent is set directly to that first item (with
recorded size 1). -/
theorem C8_add_group_amended {I : Type} [DecidableEq I] (p : Partition I)
    (items : List I) (hnd : items.Nodup) :
    ((∃ i ∈ items, i ∈ p.parents.keys) →
      p.addGroup items = .error "ValueError: already exists") ∧
    (items ≠ [] → (∀ i ∈ items, i ∉ p.parents.keys) →
      ∃ p2, p.addGroup items = .ok p2 ∧
        ∀ first rest, items = first :: rest →
          p2.parents.lookup first = some first ∧
          p2.weights.lookup first = some items.length ∧
          ∀ i ∈ rest, p2.parents.lookup i = some first ∧
            p2.weights.lookup i = some 1) := by
  constructor
  · intro hex
    obtain ⟨i, hi, hmem⟩ := hex
    have hany : items.any (fun i => p.pcontains i) = true := by
      rw [List.any_eq_true]
      exact ⟨i, hi, PyDict.contains_iff_mem_keys.2 hmem⟩
    unfold Partition.addGroup
    rw [if_pos hany]
  · intro hne habs
    have hany : items.any (fun i => p.pcontains i) = false := by
      rw [List.any_eq_false]
      intro i hi
      simp only [Partition.pcontains, Bool.not_eq_true]
      rw [← Bool.not_eq_true, PyDict.contains_iff_mem_keys]
      exact habs i hi
    obtain ⟨first, rest, rfl⟩ := List.exists_cons_of_ne_nil hne
    have hstep : p.addGroup (first :: rest) = .ok
        { parents := rest.foldl (fun d i => d.set i first) (p.parents.set first first)
          weights := rest.foldl (fun d i => d.set i 1)
            (p.weights.set first (first :: rest).length) } := by
      unfold Partition.addGroup
      simp only [hany]
      rfl
    refine ⟨_, hstep, ?_⟩
    intro first2 rest2 heq
    injection heq with h1 h2
    subst h1
    subst h2
    have hfr : first ∉ rest := (List.nodup_cons.1 hnd).1
    refine ⟨?_, ?_, ?_⟩
    · rw [PyDict.lookup_foldl_set_notmem first _ hfr, PyDict.lookup_set_self]
    · rw [PyDict.lookup_foldl_set_notmem 1 _ hfr, PyDict.lookup_set_self]
    · intro i hi
      exact ⟨PyDict.lookup_foldl_set_mem first _ hi, PyDict.lookup_foldl_set_mem 1 _ hi⟩

/-! ### Union-find lemmas (claim C7)

The development follows the parent chains: `PChain P x l` is the path
from `x` to its root.  Well-formedness (`WFP`) supplies a duplicate-free
chain inside the key set for every item, which bounds the recursion
depth of `find` by `len(self._parents)` — exactly the fuel `find` is
given. -/

namespace PyDict

variable {α β : Type} [DecidableEq α]

theorem mem_keys_of_lookup {d : PyDict α β} {k : α} {v : β}
    (h : lookup d k = some v) : k ∈ keys d := by
  by_contra hk
  rw [← lookup_eq_none_iff (d := d)] at hk
  rw [hk] at h
  exact Option.noConfusion h

theorem set_id {d : PyDict α β} {k : α} {v : β} (h : lookup d k = some v) :
    set d k v = d := by
  induction d with
  | nil => simp [lookup] at h
  | cons p rest ih =>
    obtain ⟨a, b⟩ := p
    by_cases hk : k = a
    · subst hk
      simp [lookup] at h
      simp [set, h]
    · simp [lookup, hk] at h
      simp [set, hk, ih h]

end PyDict

theorem getLast?_cons_ne {α : Type} (x : α) {l : List α} (h : l ≠ []) :
    (x :: l).getLast? = l.getLast? := by
  cases l with
  | nil => exact absurd rfl h
  | cons a t => rw [List.getLast?_cons_cons]

namespace Partition

variable {I : Type} [DecidableEq I]

theorem PChain.ne_nil {P : PyDict I I} {x : I} {l : List I}
    (h : PChain P x l) : l ≠ [] := by
  cases h <;> simp

theorem PChain.head_eq {P : PyDict I I} {x : I} {l : List I}
    (h : PChain P x l) : ∃ t, l = x :: t := by
  cases h <;> exact ⟨_, rfl⟩

theorem PChain.mem_keys {P : PyDict I I} {x : I} {l : List I}
    (h : PChain P x l) : ∀ y ∈ l, y ∈ PyDict.keys P := by
  induction h with
  | root x hx =>
    intro y hy
    simp only [List.mem_singleton] at hy
    subst hy
    exact PyDict.mem_keys_of_lookup hx
  | step x y l hx hxy hc ih =>
    intro z hz
    rcases List.mem_cons.1 hz with h1 | h1
    · subst h1
      exact PyDict.mem_keys_of_lookup hx
    · exact ih z h1

theorem PChain.getLast_root {P : PyDict I I} {x : I} {l : List I}
    (h : PChain P x l) : ∀ r, l.getLast? = some r → P.lookup r = some r := by
  induction h with
  | root x hx =>
    intro r hr
    simp only [List.getLast?_singleton, Option.some.injEq] at hr
    subst hr
    exact hx
  | step x y l hx hxy hc ih =>
    intro r hr
    rw [getLast?_cons_ne _ hc.ne_nil] at hr
    exact ih r hr

theorem PChain.root_only_last {P : PyDict I I} {x : I} {l : List I}
    (h : PChain P x l) {z : I} (hz : P.lookup z = some z) (hmem : z ∈ l) :
    l.getLast? = some z := by
  induction h with
  | root x hx =>
    simp only [List.mem_singleton] at hmem
    subst hmem
    rfl
  | step x y l hx hxy hc ih =>
    rcases List.mem_cons.1 hmem with h1 | h1
    · subst h1
      rw [hx] at hz
      exact absurd (Option.some.inj hz) (Ne.symm hxy)
    · rw [getLast?_cons_ne _ hc.ne_nil]
      exact ih h1

theorem PChain.uniq {P : PyDict I I} {x : I} {l1 l2 : List I}
    (h1 : PChain P x l1) (h2 : PChain P x l2) : l1 = l2 := by
  induction h1 generalizing l2 with
  | root x hx =>
    cases h2 with
    | root => rfl
    | step _ y2 l2t hx2 hxy2 hc2 =>
      rw [hx] at hx2
      exact absurd (Option.some.inj hx2) hxy2
  | step x y l hx hxy hc ih =>
    cases h2 with
    | root _ hx2 =>
      rw [hx] at hx2
      exact absurd (Option.some.inj hx2) (Ne.symm hxy)
    | step _ y2 l2t hx2 hxy2 hc2 =>
      rw [hx] at hx2
      have : y = y2 := Option.some.inj hx2
      subst this
      rw [ih hc2]

theorem RootOf.unique {P : PyDict I I} {x r1 r2 : I}
    (h1 : RootOf P x r1) (h2 : RootOf P x r2) : r1 = r2 := by
  obtain ⟨l1, hc1, hl1⟩ := h1
  obtain ⟨l2, hc2, hl2⟩ := h2
  rw [hc1.uniq hc2] at hl1
  rw [hl1] at hl2
  exact Option.some.inj hl2

theorem PChain.suffix_root {P : PyDict I I} {x : I} {l : List I}
    (h : PChain P x l) {r : I} (hr : l.getLast? = some r) :
    ∀ y ∈ l, RootOf P y r := by
  induction h with
  | root x hx =>
    intro y hy
    simp only [List.getLast?_singleton, Option.some.injEq] at hr
    simp only [List.mem_singleton] at hy
    subst hr; subst hy
    exact ⟨[y], .root y hx, rfl⟩
  | step x y l hx hxy hc ih =>
    intro z hz
    rw [getLast?_cons_ne _ hc.ne_nil] at hr
    rcases List.mem_cons.1 hz with h1 | h1
    · subst h1
      exact ⟨z :: l, .step z y l hx hxy hc, by
        rw [getLast?_cons_ne _ hc.ne_nil]; exact hr⟩
    · exact ih hr z h1

theorem PChain.getLast_not_mem_dropLast {P : PyDict I I} {x : I} {l : List I}
    (h : PChain P x l) (hnd : l.Nodup) {r : I} (hr : l.getLast? = some r) :
    r ∉ l.dropLast := by
  intro hmem
  have hne := h.ne_nil
  have hg : l.getLast hne = r := by
    rw [List.getLast?_eq_getLast _ hne] at hr
    exact Option.some.inj hr
  have hsplit : l.dropLast ++ [r] = l := by
    rw [← hg]
    exact List.dropLast_append_getLast hne
  rw [← hsplit] at hnd
  exact (List.disjoint_of_nodup_append hnd) hmem (List.mem_singleton_self r)

/-- The full behaviour of the `find` recursion on an item with parent
chain `l`: given fuel at least the chain length, it returns the chain's
last element (the root) and compresses exactly the non-root chain nodes
to point directly at the root, leaving the key set and the weights
untouched. -/
theorem findAux_ok {P : PyDict I I} {W : PyDict I Nat} {x : I} {l : List I}
    (hch : PChain P x l) :
    ∀ fuel, l.length ≤ fuel →
      ∃ r P2, findAux fuel ⟨P, W⟩ x = .ok (r, ⟨P2, W⟩) ∧
        l.getLast? = some r ∧
        PyDict.keys P2 = PyDict.keys P ∧
        (∀ y, P2.lookup y = if y ∈ l.dropLast then some r else P.lookup y) := by
  induction hch with
  | root z hz =>
    intro fuel hfuel
    match fuel, hfuel with
    | f + 1, _ =>
      refine ⟨z, P, ?_, rfl, rfl, ?_⟩
      · show findAux (f + 1) ⟨P, W⟩ z = .ok (z, ⟨P, W⟩)
        unfold findAux
        simp only [hz]
        simp
      · intro y
        simp
  | step z y l hz hzy hc ih =>
    intro fuel hfuel
    match fuel, hfuel with
    | f + 1, hfuel =>
      have hf : l.length ≤ f := by
        simp only [List.length_cons] at hfuel
        omega
      obtain ⟨r, P2, heq, hlast, hkeys, hchar⟩ := ih f hf
      have hzk : z ∈ PyDict.keys P2 := by
        rw [hkeys]
        exact PyDict.mem_keys_of_lookup hz
      refine ⟨r, P2.set z r, ?_, ?_, ?_, ?_⟩
      · show findAux (f + 1) ⟨P, W⟩ z = .ok (r, ⟨P2.set z r, W⟩)
        unfold findAux
        simp only [hz]
        rw [if_neg (Ne.symm hzy), heq]
        rfl
      · rw [getLast?_cons_ne _ hc.ne_nil]
        exact hlast
      · rw [PyDict.keys_set_of_mem _ hzk, hkeys]
      · intro w
        rw [List.dropLast_cons_of_ne_nil hc.ne_nil]
        by_cases hw : w = z
        · subst hw
          rw [PyDict.lookup_set_self]
          simp
        · rw [PyDict.lookup_set_ne _ _ hw, hchar w]
          by_cases hmem : w ∈ l.dropLast <;> simp [hmem, hw]

theorem length_le_of_nodup_subset {α : Type} [DecidableEq α] {l L : List α}
    (h : l.Nodup) (hs : ∀ y ∈ l, y ∈ L) : l.length ≤ L.length := by
  calc l.length = l.toFinset.card := (List.toFinset_card_of_nodup h).symm
    _ ≤ L.toFinset.card := Finset.card_le_card (by
        intro a ha
        simp only [List.mem_toFinset] at ha ⊢
        exact hs a ha)
    _ ≤ L.length := List.toFinset_card_le L

theorem mem_of_getLast?_eq {α : Type} {l : List α} {a : α}
    (h : l.getLast? = some a) : a ∈ l := by
  cases l with
  | nil => exact Option.noConfusion h
  | cons x t =>
    have hne : x :: t ≠ [] := by simp
    rw [List.getLast?_eq_getLast _ hne] at h
    rw [← Option.some.inj h]
    exact List.getLast_mem hne

/-- Re-rooting preserves roots, forward direction: a parent chain of the
old forest yields the same root in the updated forest.  `S` is the set
of re-pointed items, all with root `r`. -/
theorem RootOf_update_fwd {P P2 : PyDict I I} {S : List I} {r : I}
    (hupd : ∀ y, P2.lookup y = if y ∈ S then some r else P.lookup y)
    (hroot : P.lookup r = some r) (hrS : r ∉ S)
    (hS : ∀ y ∈ S, RootOf P y r) :
    ∀ {z c}, PChain P z c → ∀ r2, c.getLast? = some r2 → RootOf P2 z r2 := by
  intro z c hch
  induction hch with
  | root w hw =>
    intro r2 hr2
    simp only [List.getLast?_singleton, Option.some.injEq] at hr2
    subst hr2
    have hwS : w ∉ S := by
      intro hmem
      have h1 : RootOf P w r := hS w hmem
      have h2 : RootOf P w w := ⟨[w], .root w hw, rfl⟩
      rw [h1.unique h2] at hrS
      exact hrS hmem
    refine ⟨[w], .root w ?_, rfl⟩
    rw [hupd w, if_neg hwS]
    exact hw
  | step w y c hw hwy hc ih =>
    intro r2 hr2
    rw [getLast?_cons_ne _ hc.ne_nil] at hr2
    by_cases hwS : w ∈ S
    · have h1 : RootOf P w r := hS w hwS
      have h2 : RootOf P w r2 :=
        ⟨w :: c, .step w y c hw hwy hc, by rw [getLast?_cons_ne _ hc.ne_nil]; exact hr2⟩
      have hrr2 : r2 = r := h2.unique h1
      subst hrr2
      have hwr : w ≠ r2 := fun hwr => hrS (hwr ▸ hwS)
      refine ⟨[w, r2], .step w r2 [r2] ?_ hwr (.root r2 ?_), rfl⟩
      · rw [hupd w, if_pos hwS]
      · rw [hupd r2, if_neg hrS]
        exact hroot
    · obtain ⟨c2, hc2, hlast2⟩ := ih r2 hr2
      refine ⟨w :: c2, .step w y c2 ?_ hwy hc2, ?_⟩
      · rw [hupd w, if_neg hwS]
        exact hw
      · rw [getLast?_cons_ne _ hc2.ne_nil]
        exact hlast2

/-- Re-rooting preserves roots, backward direction. -/
theorem RootOf_update_bwd {P P2 : PyDict I I} {S : List I} {r : I}
    (hupd : ∀ y, P2.lookup y = if y ∈ S then some r else P.lookup y)
    (hroot : P.lookup r = some r) (hrS : r ∉ S)
    (hS : ∀ y ∈ S, RootOf P y r) :
    ∀ {z c}, PChain P2 z c → ∀ r2, c.getLast? = some r2 → RootOf P z r2 := by
  intro z c hch
  induction hch with
  | root w hw =>
    intro r2 hr2
    simp only [List.getLast?_singleton, Option.some.injEq] at hr2
    subst hr2
    rw [hupd w] at hw
    by_cases hwS : w ∈ S
    · rw [if_pos hwS] at hw
      have : r = w := Option.some.inj hw
      subst this
      exact absurd hwS hrS
    · rw [if_neg hwS] at hw
      exact ⟨[w], .root w hw, rfl⟩
  | step w y c hw hwy hc ih =>
    intro r2 hr2
    rw [getLast?_cons_ne _ hc.ne_nil] at hr2
    rw [hupd w] at hw
    by_cases hwS : w ∈ S
    · rw [if_pos hwS] at hw
      have hyr : y = r := (Option.some.inj hw).symm
      subst hyr
      have h1 : RootOf P y r2 := ih r2 hr2
      have h2 : RootOf P y y := ⟨[y], .root y hroot, rfl⟩
      rw [h1.unique h2]
      exact hS w hwS
    · rw [if_neg hwS] at hw
      obtain ⟨c2, hc2, hlast2⟩ := ih r2 hr2
      refine ⟨w :: c2, .step w y c2 hw hwy hc2, ?_⟩
      rw [getLast?_cons_ne _ hc2.ne_nil]
      exact hlast2

/-- Re-rooting preserves the rooted-at relation in both directions. -/
theorem RootOf_update_iff {P P2 : PyDict I I} {S : List I} {r : I}
    (hupd : ∀ y, P2.lookup y = if y ∈ S then some r else P.lookup y)
    (hroot : P.lookup r = some r) (hrS : r ∉ S)
    (hS : ∀ y ∈ S, RootOf P y r) :
    ∀ z r2, RootOf P z r2 ↔ RootOf P2 z r2 := by
  intro z r2
  constructor
  · rintro ⟨c, hc, hlast⟩
    exact RootOf_update_fwd hupd hroot hrS hS hc r2 hlast
  · rintro ⟨c, hc, hlast⟩
    exact RootOf_update_bwd hupd hroot hrS hS hc r2 hlast

/-- Re-rooting keeps a duplicate-free chain for every item: the new
chain uses only old chain nodes and the root `r`. -/
theorem chain_update_nodup {P P2 : PyDict I I} {S : List I} {r : I}
    (hupd : ∀ y, P2.lookup y = if y ∈ S then some r else P.lookup y)
    (hroot : P.lookup r = some r) (hrS : r ∉ S)
    (hS : ∀ y ∈ S, RootOf P y r) :
    ∀ {z c}, PChain P z c → c.Nodup →
      ∃ c2, PChain P2 z c2 ∧ c2.Nodup ∧ ∀ y ∈ c2, y ∈ c ∨ y = r := by
  intro z c hch
  induction hch with
  | root w hw =>
    intro _
    have hwS : w ∉ S := by
      intro hmem
      have h1 : RootOf P w r := hS w hmem
      have h2 : RootOf P w w := ⟨[w], .root w hw, rfl⟩
      rw [h1.unique h2] at hrS
      exact hrS hmem
    refine ⟨[w], .root w ?_, List.nodup_singleton w, ?_⟩
    · rw [hupd w, if_neg hwS]
      exact hw
    · intro y hy
      simp only [List.mem_singleton] at hy
      subst hy
      exact Or.inl (List.mem_singleton_self y)
  | step w y c hw hwy hc ih =>
    intro hnd
    have hndc : c.Nodup := (List.nodup_cons.1 hnd).2
    have hwc : w ∉ c := (List.nodup_cons.1 hnd).1
    have hwr : w ≠ r := by
      intro hwr
      subst hwr
      rw [hroot] at hw
      exact hwy (Option.some.inj hw)
    by_cases hwS : w ∈ S
    · refine ⟨[w, r], .step w r [r] ?_ hwr (.root r ?_), ?_, ?_⟩
      · rw [hupd w, if_pos hwS]
      · rw [hupd r, if_neg hrS]
        exact hroot
      · simp [hwr]
      · intro u hu
        rcases List.mem_cons.1 hu with h1 | h1
        · exact Or.inl (h1 ▸ List.mem_cons_self w c)
        · simp only [List.mem_singleton] at h1
          exact Or.inr h1
    · obtain ⟨c2, hc2, hnd2, hsub2⟩ := ih hndc
      have hwc2 : w ∉ c2 := by
        intro hmem
        rcases hsub2 w hmem with h1 | h1
        · exact hwc h1
        · exact hwr h1
      refine ⟨w :: c2, .step w y c2 ?_ hwy hc2, List.nodup_cons.2 ⟨hwc2, hnd2⟩, ?_⟩
      · rw [hupd w, if_neg hwS]
        exact hw
      · intro u hu
        rcases List.mem_cons.1 hu with h1 | h1
        · exact Or.inl (h1 ▸ List.mem_cons_self w c)
        · rcases hsub2 u h1 with h2 | h2
          · exact Or.inl (List.mem_cons_of_mem w h2)
          · exact Or.inr h2

/-- The behaviour of the public `find`: on a well-formed forest and a
present item it succeeds, returns the item's root, compresses paths
without changing any group, keeps the key set and the weights, and
preserves well-formedness. -/
theorem find_ok {p : Partition I} {x : I} (hw : WFP p) (hx : x ∈ PyDict.keys p.parents) :
    ∃ r p2, p.find x = .ok (r, p2) ∧
      p2.weights = p.weights ∧
      PyDict.keys p2.parents = PyDict.keys p.parents ∧
      RootOf p.parents x r ∧
      p2.parents.lookup r = some r ∧
      (∀ z, p.parents.lookup z = some z → p2.parents.lookup z = some z) ∧
      (∀ z r2, RootOf p.parents z r2 ↔ RootOf p2.parents z r2) ∧
      WFP p2 := by
  obtain ⟨l, hch, hnd, hsub⟩ := hw.2.2 x hx
  have hlen : l.length ≤ p.parents.length := by
    have := length_le_of_nodup_subset hnd hsub
    simpa [PyDict.keys] using this
  obtain ⟨r, P2, heq, hlast, hkeys, hchar⟩ := findAux_ok hch p.parents.length hlen
  have hroot : p.parents.lookup r = some r := hch.getLast_root r hlast
  have hrS : r ∉ l.dropLast := hch.getLast_not_mem_dropLast hnd hlast
  have hS : ∀ y ∈ l.dropLast, RootOf p.parents y r := fun y hy =>
    hch.suffix_root hlast y (List.dropLast_subset l hy)
  have hfind : p.find x = .ok (r, ⟨P2, p.weights⟩) := heq
  refine ⟨r, ⟨P2, p.weights⟩, hfind, rfl, hkeys, ⟨l, hch, hlast⟩, ?_, ?_, ?_, ?_, ?_, ?_⟩
  · rw [hchar r, if_neg hrS]
    exact hroot
  · intro z hz
    rw [hchar z]
    by_cases hzS : z ∈ l.dropLast
    · exfalso
      have h1 : RootOf p.parents z r := hS z hzS
      have h2 : RootOf p.parents z z := ⟨[z], .root z hz, rfl⟩
      rw [h1.unique h2] at hrS
      exact hrS hzS
    · rw [if_neg hzS]
      exact hz
  · exact RootOf_update_iff hchar hroot hrS hS
  · exact hkeys ▸ hw.1
  · intro y hy
    rw [hkeys] at hy
    exact hw.2.1 y hy
  · intro y hy
    rw [hkeys] at hy
    obtain ⟨c, hc, hcnd, hcsub⟩ := hw.2.2 y hy
    obtain ⟨c2, hc2, hnd2, hsub2⟩ := chain_update_nodup hchar hroot hrS hS hc hcnd
    refine ⟨c2, hc2, hnd2, ?_⟩
    intro u hu
    rw [hkeys]
    rcases hsub2 u hu with h1 | h1
    · exact hcsub u h1
    · subst h1
      exact hsub u (mem_of_getLast?_eq hlast)

/-- Attaching the root `small` under the root `big` transforms every
duplicate-free chain into a duplicate-free chain: chains rooted at
`small` get `big` appended, all others are unchanged. -/
theorem chain_link {P : PyDict I I} {big small : I}
    (hbig : P.lookup big = some big) (hsmall : P.lookup small = some small)
    (hne : small ≠ big) :
    ∀ {z c}, PChain P z c → c.Nodup →
      ∃ c3, PChain (P.set small big) z c3 ∧ c3.Nodup ∧
        (∀ y ∈ c3, y ∈ c ∨ y = big) ∧
        ∀ r0, c.getLast? = some r0 →
          c3.getLast? = some (if r0 = small then big else r0) := by
  intro z c hch
  induction hch with
  | root w hw =>
    intro _
    by_cases hws : w = small
    · subst hws
      refine ⟨[w, big], .step w big [big] ?_ (by simpa using hne) (.root big ?_),
        ?_, ?_, ?_⟩
      · rw [PyDict.lookup_set_self]
      · rw [PyDict.lookup_set_ne _ _ (Ne.symm hne)]
        exact hbig
      · simp [hne]
      · intro y hy
        simp only [List.mem_cons, List.mem_singleton] at hy ⊢
        tauto
      · intro r0 hr0
        simp only [List.getLast?_singleton, Option.some.injEq] at hr0
        subst hr0
        simp
    · refine ⟨[w], .root w ?_, List.nodup_singleton w, ?_, ?_⟩
      · rw [PyDict.lookup_set_ne _ _ hws]
        exact hw
      · intro y hy
        simp only [List.mem_singleton] at hy
        exact Or.inl (hy ▸ List.mem_singleton_self w)
      · intro r0 hr0
        simp only [List.getLast?_singleton, Option.some.injEq] at hr0
        subst hr0
        simp [hws]
  | step w y c hw hwy hc ih =>
    intro hnd
    have hndc : c.Nodup := (List.nodup_cons.1 hnd).2
    have hwc : w ∉ c := (List.nodup_cons.1 hnd).1
    have hwsmall : w ≠ small := by
      intro h
      subst h
      rw [hsmall] at hw
      exact hwy (Option.some.inj hw)
    have hwbig : w ≠ big := by
      intro h
      subst h
      rw [hbig] at hw
      exact hwy (Option.some.inj hw)
    obtain ⟨c3, hc3, hnd3, hsub3, hlast3⟩ := ih hndc
    have hwc3 : w ∉ c3 := by
      intro hmem
      rcases hsub3 w hmem with h1 | h1
      · exact hwc h1
      · exact hwbig h1
    refine ⟨w :: c3, .step w y c3 ?_ hwy hc3,
      List.nodup_cons.2 ⟨hwc3, hnd3⟩, ?_, ?_⟩
    · rw [PyDict.lookup_set_ne _ _ hwsmall]
      exact hw
    · intro u hu
      rcases List.mem_cons.1 hu with h1 | h1
      · exact Or.inl (h1 ▸ List.mem_cons_self w c)
      · rcases hsub3 u h1 with h2 | h2
        · exact Or.inl (List.mem_cons_of_mem w h2)
        · exact Or.inr h2
    · intro r0 hr0
      rw [getLast?_cons_ne _ hc.ne_nil] at hr0
      rw [getLast?_cons_ne _ hc3.ne_nil]
      exact hlast3 r0 hr0

/-- The behaviour of the public `union` on a well-formed forest with
both items present: it succeeds, keeps the key set, preserves
well-formedness, and afterwards the two items have a common root. -/
theorem union_ok {p : Partition I} {a b : I} (hw : WFP p)
    (ha : a ∈ PyDict.keys p.parents) (hb : b ∈ PyDict.keys p.parents) :
    ∃ p3 r, p.union a b = .ok p3 ∧ WFP p3 ∧
      PyDict.keys p3.parents = PyDict.keys p.parents ∧
      RootOf p3.parents a r ∧ RootOf p3.parents b r := by
  obtain ⟨r1, p1, hf1, hws1, hkeys1, hroot1, hlk1, hstab1, hiff1, hwf1⟩ := find_ok hw ha
  have hb1 : b ∈ PyDict.keys p1.parents := hkeys1 ▸ hb
  obtain ⟨r2, p2, hf2, hws2, hkeys2, hroot2, hlk2, hstab2, hiff2, hwf2⟩ := find_ok hwf1 hb1
  have hlk1' : p2.parents.lookup r1 = some r1 := hstab2 r1 hlk1
  have hkeys12 : PyDict.keys p2.parents = PyDict.keys p.parents := by
    rw [hkeys2, hkeys1]
  have hrootA : RootOf p2.parents a r1 := (hiff2 a r1).1 ((hiff1 a r1).1 hroot1)
  have hrootB : RootOf p2.parents b r2 := (hiff2 b r2).1 hroot2
  by_cases hr : r1 = r2
  · subst hr
    refine ⟨p2, r1, ?_, hwf2, hkeys12, hrootA, hrootB⟩
    unfold union
    rw [hf1]
    simp only [bind, Except.bind]
    rw [hf2]
    simp
  · have hr1k : r1 ∈ PyDict.keys p2.parents := PyDict.mem_keys_of_lookup hlk1'
    have hr2k : r2 ∈ PyDict.keys p2.parents := PyDict.mem_keys_of_lookup hlk2
    have hw1 : ∃ w1, p2.weights.lookup r1 = some w1 := by
      have := hwf2.2.1 r1 hr1k
      rw [← PyDict.lookup_isSome_iff] at this
      exact Option.isSome_iff_exists.1 this
    have hw2 : ∃ w2, p2.weights.lookup r2 = some w2 := by
      have := hwf2.2.1 r2 hr2k
      rw [← PyDict.lookup_isSome_iff] at this
      exact Option.isSome_iff_exists.1 this
    obtain ⟨w1, hw1⟩ := hw1
    obtain ⟨w2, hw2⟩ := hw2
    have hstep : p.union a b = .ok
        { parents := p2.parents.set (if w1 < w2 then r1 else r2) (if w1 < w2 then r2 else r1)
          weights := p2.weights.set (if w1 < w2 then r2 else r1) (w1 + w2) } := by
      unfold union
      rw [hf1]
      simp only [bind, Except.bind]
      rw [hf2]
      simp only [hw1, hw2]
      simp [hr]
    set big := if w1 < w2 then r2 else r1 with hbigdef
    set small := if w1 < w2 then r1 else r2 with hsmalldef
    have hbigr : p2.parents.lookup big = some big := by
      by_cases hlt : w1 < w2 <;> simp [hbigdef, hlt, hlk1', hlk2]
    have hsmallr : p2.parents.lookup small = some small := by
      by_cases hlt : w1 < w2 <;> simp [hsmalldef, hlt, hlk1', hlk2]
    have hbs : small ≠ big := by
      by_cases hlt : w1 < w2 <;> simp [hbigdef, hsmalldef, hlt, hr, Ne.symm hr]
    have hsk : small ∈ PyDict.keys p2.parents := PyDict.mem_keys_of_lookup hsmallr
    have hbk : big ∈ PyDict.keys p2.parents := PyDict.mem_keys_of_lookup hbigr
    have hkeys3 : PyDict.keys (p2.parents.set small big) = PyDict.keys p2.parents :=
      PyDict.keys_set_of_mem _ hsk
    refine ⟨_, big, hstep, ?_, ?_, ?_, ?_⟩
    · refine ⟨?_, ?_, ?_⟩
      · show (PyDict.keys (p2.parents.set small big)).Nodup
        rw [hkeys3]
        exact hkeys12 ▸ hw.1
      · intro x hx
        show x ∈ PyDict.keys (p2.weights.set big (w1 + w2))
        have hbw : big ∈ PyDict.keys p2.weights := hwf2.2.1 big hbk
        rw [PyDict.keys_set_of_mem _ hbw]
        apply hwf2.2.1
        rw [hkeys3] at hx
        exact hx
      · intro x hx
        rw [hkeys3] at hx
        obtain ⟨c, hc, hcnd, hcsub⟩ := hwf2.2.2 x hx
        obtain ⟨c3, hc3, hnd3, hsub3, _⟩ := chain_link hbigr hsmallr hbs hc hcnd
        refine ⟨c3, hc3, hnd3, ?_⟩
        intro u hu
        show u ∈ PyDict.keys (p2.parents.set small big)
        rw [hkeys3]
        rcases hsub3 u hu with h1 | h1
        · exact hcsub u h1
        · exact h1 ▸ hbk
    · rw [hkeys3, hkeys12]
    · obtain ⟨c, hc, hcnd, _⟩ := hwf2.2.2 a (hkeys12 ▸ ha)
      have hcl : c.getLast? = some r1 := by
        have h2 : RootOf p2.parents a r1 := hrootA
        obtain ⟨c0, hc0, hl0⟩ := h2
        rw [hc.uniq hc0]
        exact hl0
      obtain ⟨c3, hc3, _, _, hlast3⟩ := chain_link hbigr hsmallr hbs hc hcnd
      refine ⟨c3, hc3, ?_⟩
      have := hlast3 r1 hcl
      by_cases hlt : w1 < w2 <;>
        simp only [hbigdef, hsmalldef, hlt, if_true, if_false, reduceIte] at this ⊢ <;>
        simpa [hr] using this
    · obtain ⟨c, hc, hcnd, _⟩ := hwf2.2.2 b (hkeys12 ▸ hb)
      have hcl : c.getLast? = some r2 := by
        obtain ⟨c0, hc0, hl0⟩ := hrootB
        rw [hc.uniq hc0]
        exact hl0
      obtain ⟨c3, hc3, _, _, hlast3⟩ := chain_link hbigr hsmallr hbs hc hcnd
      refine ⟨c3, hc3, ?_⟩
      have := hlast3 r2 hcl
      by_cases hlt : w1 < w2 <;>
        simp only [hbigdef, hsmalldef, hlt, if_true, if_false, reduceIte] at this ⊢ <;>
        simpa [Ne.symm hr] using this

/-- `find` on an item whose parent is itself returns immediately and
does not touch the state. -/
theorem find_root_id {p : Partition I} {r : I}
    (hr : p.parents.lookup r = some r) (hne : p.parents ≠ []) :
    p.find r = .ok (r, p) := by
  unfold find
  cases hlen : p.parents.length with
  | zero =>
    exact absurd (List.length_eq_zero.1 hlen) hne
  | succ n =>
    unfold findAux
    simp only [hr]
    simp

theorem find_idem {p p1 : Partition I} {x r : I} (hw : WFP p)
    (hx : x ∈ PyDict.keys p.parents) (heq : p.find x = .ok (r, p1)) :
    p1.find r = .ok (r, p1) := by
  obtain ⟨r0, p20, hf, _, hkeys, _, hlk, _, _, _⟩ := find_ok hw hx
  rw [heq] at hf
  obtain ⟨h1, h2⟩ : r = r0 ∧ p1 = p20 := by
    have := Except.ok.inj hf
    exact ⟨congrArg Prod.fst this, congrArg Prod.snd this⟩
  subst h1
  subst h2
  apply find_root_id hlk
  intro hnil
  rw [hnil] at hkeys
  rw [← hkeys] at hx
  simp [PyDict.keys] at hx

end Partition

namespace PyDict

variable {α β : Type} [DecidableEq α]

theorem mem_keys_foldl_set (f : α → β) (items : List α) (d : PyDict α β) (x : α) :
    x ∈ keys (items.foldl (fun d i => set d i (f i)) d) ↔ x ∈ keys d ∨ x ∈ items := by
  induction items generalizing d with
  | nil => simp
  | cons i rest ih =>
    rw [List.foldl_cons, ih]
    rw [keys_set]
    by_cases hmem : i ∈ keys d
    · simp only [hmem, if_true]
      constructor
      · rintro (h | h)
        · exact Or.inl h
        · exact Or.inr (List.mem_cons_of_mem i h)
      · rintro (h | h)
        · exact Or.inl h
        · rcases List.mem_cons.1 h with h1 | h1
          · exact Or.inl (h1 ▸ hmem)
          · exact Or.inr h1
    · simp only [hmem, if_false, List.mem_append, List.mem_singleton, List.mem_cons]
      tauto

theorem nodup_keys_foldl_set (f : α → β) (items : List α) (d : PyDict α β)
    (h : (keys d).Nodup) :
    (keys (items.foldl (fun d i => set d i (f i)) d)).Nodup := by
  induction items generalizing d with
  | nil => exact h
  | cons i rest ih =>
    rw [List.foldl_cons]
    exact ih _ (nodup_keys_set i (f i) h)

theorem lookup_foldl_set_fn (f : α → β) (items : List α) (d : PyDict α β) (x : α) :
    lookup (items.foldl (fun d i => set d i (f i)) d) x =
      if x ∈ items then some (f x) else lookup d x := by
  induction items generalizing d with
  | nil => simp
  | cons i rest ih =>
    rw [List.foldl_cons, ih]
    by_cases hr : x ∈ rest
    · simp [hr, List.mem_cons_of_mem i hr]
    · by_cases hxi : x = i
      · subst hxi
        simp [hr, lookup_set_self]
      · simp [hr, hxi, lookup_set_ne _ _ hxi]

end PyDict

namespace Partition

variable {I : Type} [DecidableEq I]

/-- `Partition(items)` is well-formed: every item is a root, so every
chain is the singleton. -/
theorem WFP_init (items : List I) : WFP (init items) := by
  have hflat : ∀ x, PyDict.lookup (init items).parents x =
      if x ∈ items then some x else none := by
    intro x
    show PyDict.lookup (items.foldl (fun d i => d.set i i) []) x = _
    have := PyDict.lookup_foldl_set_fn (fun i => i) items [] x
    simpa [PyDict.lookup] using this
  have hmemp : ∀ x, x ∈ PyDict.keys (init items).parents ↔ x ∈ items := by
    intro x
    show x ∈ PyDict.keys (items.foldl (fun d i => d.set i i) []) ↔ _
    have := PyDict.mem_keys_foldl_set (fun i => i) items [] x
    simpa [PyDict.keys] using this
  have hmemw : ∀ x, x ∈ PyDict.keys (init items).weights ↔ x ∈ items := by
    intro x
    show x ∈ PyDict.keys (items.foldl (fun d i => d.set i 1) []) ↔ _
    have := PyDict.mem_keys_foldl_set (fun _ => 1) items [] x
    simpa [PyDict.keys] using this
  refine ⟨?_, ?_, ?_⟩
  · exact PyDict.nodup_keys_foldl_set (fun i => i) items [] List.nodup_nil
  · intro x hx
    exact (hmemw x).2 ((hmemp x).1 hx)
  · intro x hx
    have hxi : x ∈ items := (hmemp x).1 hx
    refine ⟨[x], .root x ?_, List.nodup_singleton x, ?_⟩
    · rw [hflat x, if_pos hxi]
    · intro y hy
      simp only [List.mem_singleton] at hy
      exact hy ▸ hx

end Partition

/-- C7: on every well-formed partition containing `a`, `b` and `x`:
`find` is idempotent (finding the returned root returns the same root
and leaves the state untouched); `union(a, a)` succeeds and leaves the
group structure (the same-root relation) unchanged; after `union(a, b)`
the two `find` calls return one common root, and this remains true
after repeating `union(a, b)`. -/
theorem C7_union_find_algebra {I : Type} [DecidableEq I] (p : Partition I)
    (a b x : I) (hw : Partition.WFP p)
    (ha : a ∈ PyDict.keys p.parents) (hb : b ∈ PyDict.keys p.parents)
    (hx : x ∈ PyDict.keys p.parents) :
    (∀ r p1, p.find x = .ok (r, p1) → p1.find r = .ok (r, p1)) ∧
    (∃ p2, p.union a a = .ok p2 ∧
      ∀ z w, Partition.SameRoot p2.parents z w ↔ Partition.SameRoot p.parents z w) ∧
    (∃ p3, p.union a b = .ok p3 ∧
      (∃ r pA pB, p3.find a = .ok (r, pA) ∧ pA.find b = .ok (r, pB)) ∧
      (∃ p5, p3.union a b = .ok p5 ∧
        ∃ r2 pC pD, p5.find a = .ok (r2, pC) ∧ pC.find b = .ok (r2, pD))) := by
  have common : ∀ (q : Partition I), Partition.WFP q →
      a ∈ PyDict.keys q.parents → b ∈ PyDict.keys q.parents →
      ∀ r, Partition.RootOf q.parents a r → Partition.RootOf q.parents b r →
        ∃ pA pB, q.find a = .ok (r, pA) ∧ pA.find b = .ok (r, pB) := by
    intro q hwq haq hbq r hra hrb
    obtain ⟨rA, pA, hfA, _, hkeysA, hrootA, _, _, hiffA, hwfA⟩ :=
      Partition.find_ok hwq haq
    have hrA : rA = r := hrootA.unique hra
    rw [hrA] at hfA
    obtain ⟨rB, pB, hfB, _, _, hrootB, _, _, _, _⟩ :=
      Partition.find_ok hwfA (hkeysA ▸ hbq)
    have hrootB2 : Partition.RootOf pA.parents b r := (hiffA b r).1 hrb
    have hrB : rB = r := hrootB.unique hrootB2
    rw [hrB] at hfB
    exact ⟨pA, pB, hfA, hfB⟩
  refine ⟨?_, ?_, ?_⟩
  · intro r p1 heq
    exact Partition.find_idem hw hx heq
  · obtain ⟨r1, p1, hf1, _, hkeys1, hroot1, hlk1, _, hiff1, hwf1⟩ :=
      Partition.find_ok hw ha
    obtain ⟨r1b, p2, hf2, _, hkeys2, hroot1b, _, _, hiff2, hwf2⟩ :=
      Partition.find_ok hwf1 (hkeys1 ▸ ha)
    have hr1b : r1b = r1 := hroot1b.unique ((hiff1 a r1).1 hroot1)
    subst hr1b
    refine ⟨p2, ?_, ?_⟩
    · unfold Partition.union
      rw [hf1]
      simp only [bind, Except.bind]
      rw [hf2]
      simp
    · intro z w
      constructor
      · rintro ⟨r, hz, hw2⟩
        exact ⟨r, (hiff1 z r).2 ((hiff2 z r).2 hz), (hiff1 w r).2 ((hiff2 w r).2 hw2)⟩
      · rintro ⟨r, hz, hw2⟩
        exact ⟨r, (hiff2 z r).1 ((hiff1 z r).1 hz), (hiff2 w r).1 ((hiff1 w r).1 hw2)⟩
  · obtain ⟨p3, r, hu, hwf3, hkeys3, hrA, hrB⟩ := Partition.union_ok hw ha hb
    obtain ⟨pA, pB, hfA, hfB⟩ :=
      common p3 hwf3 (hkeys3 ▸ ha) (hkeys3 ▸ hb) r hrA hrB
    obtain ⟨p5, r5, hu5, hwf5, hkeys5, hr5A, hr5B⟩ :=
      Partition.union_ok hwf3 (hkeys3 ▸ ha) (hkeys3 ▸ hb)
    obtain ⟨pC, pD, hfC, hfD⟩ :=
      common p5 hwf5 ((hkeys3 ▸ hkeys5 : _ = _) ▸ ha)
        ((hkeys3 ▸ hkeys5 : _ = _) ▸ hb) r5 hr5A hr5B
    exact ⟨p3, hu, ⟨r, pA, pB, hfA, hfB⟩, p5, hu5, r5, pC, pD, hfC, hfD⟩

/-- C7 witness: the partition of `{0, 1, 2}` with `a = 0`, `b = 1`,
`x = 2`. -/
theorem C7_union_find_algebra_witness :
    (∀ r p1, (Partition.init [0, 1, 2]).find 2 = .ok (r, p1) →
       p1.find r = .ok (r, p1)) ∧
    (∃ p2, (Partition.init [0, 1, 2]).union 0 0 = .ok p2 ∧
      ∀ z w, Partition.SameRoot p2.parents z w ↔
        Partition.SameRoot (Partition.init [0, 1, 2]).parents z w) ∧
    (∃ p3, (Partition.init [0, 1, 2]).union 0 1 = .ok p3 ∧
      (∃ r pA pB, p3.find 0 = .ok (r, pA) ∧ pA.find 1 = .ok (r, pB)) ∧
      (∃ p5, p3.union 0 1 = .ok p5 ∧
        ∃ r2 pC pD, p5.find 0 = .ok (r2, pC) ∧ pC.find 1 = .ok (r2, pD))) :=
  C7_union_find_algebra (Partition.init [0, 1, 2]) 0 1 2
    (Partition.WFP_init [0, 1, 2]) (by decide) (by decide) (by decide)

/-- C8 witness: both branches instantiated; `add_group([3, 4])` on the
partition of `{0, 1}` succeeds with the claimed shape, and
`add_group([1, 5])` on it conflicts. -/
theorem C8_add_group_amended_witness :
    ((Partition.init [0, 1]).addGroup [1, 5] = .error "ValueError: already exists") ∧
    (∃ p2, (Partition.init [0, 1]).addGroup [3, 4] = .ok p2 ∧
      ∀ first rest, ([3, 4] : List Nat) = first :: rest →
        p2.parents.lookup first = some first ∧
        p2.weights.lookup first = some ([3, 4] : List Nat).length ∧
        ∀ i ∈ rest, p2.parents.lookup i = some first ∧
          p2.weights.lookup i = some 1) :=
  ⟨(C8_add_group_amended (Partition.init [0, 1]) [1, 5] (by decide)).1
      ⟨1, by decide, by decide⟩,
    (C8_add_group_amended (Partition.init [0, 1]) [3, 4] (by decide)).2
      (by decide) (by decide)⟩

/-- Setting a position to the value it already holds is a no-op. -/
theorem list_set_eq_self {γ : Type} {l : List γ} {i : Nat} {a : γ}
    (h : l[i]? = some a) : l.set i a = l := by
  induction l generalizing i with
  | nil => simp at h
  | cons x t ih =>
    cases i with
    | zero =>
      simp only [List.getElem?_cons_zero, Option.some.injEq] at h
      simp [h]
    | succ n =>
      simp only [List.getElem?_cons_succ] at h
      simp [ih h]

theorem getLast?_eq_getElem?_pred {γ : Type} (l : List γ) :
    l.getLast? = l[l.length - 1]? := List.getLast?_eq_getElem? l

namespace HeapQueue

variable {I K : Type} [DecidableEq I] [LinearOrder K]

theorem lt_length_of_getElem? {γ : Type} {l : List γ} {i : Nat} {a : γ}
    (h : l[i]? = some a) : i < l.length :=
  (List.getElem?_eq_some.1 h).1

/-- The reduced form of `_swap` at in-range indices. -/
theorem hswap_eq {q : HeapQueue I K} {i j : Nat} {ei ej : I × K}
    (hi : q.entries[i]? = some ei) (hj : q.entries[j]? = some ej) :
    hswap q i j = ⟨(q.entries.set i ej).set j ei,
      fun x => if x = ej.1 then some i else if x = ei.1 then some j
               else q.indices x⟩ := by
  unfold hswap
  rw [hi, hj]

/-- Lookup in a two-position swap of the entry list. -/
theorem set2_getElem? {γ : Type} {l : List γ} {i j : Nat} {ei ej : γ}
    (hi : l[i]? = some ei) (hj : l[j]? = some ej) (k : Nat) :
    ((l.set i ej).set j ei)[k]? =
      if k = j then some ei else if k = i then some ej else l[k]? := by
  have hi' := lt_length_of_getElem? hi
  have hj' := lt_length_of_getElem? hj
  rw [List.getElem?_set, List.getElem?_set]
  simp only [List.length_set]
  by_cases hkj : k = j
  · subst hkj
    simp [hj']
  · by_cases hki : k = i
    · subst hki
      rw [if_neg (fun h : j = k => hkj h.symm), if_pos rfl, if_pos hi']
      simp [hkj]
    · rw [if_neg (fun h : j = k => hkj h.symm), if_neg (fun h : i = k => hki h.symm)]
      simp [hkj, hki]

/-- `_swap` keeps the two-sided index invariant. -/
theorem idxOk_hswap {q : HeapQueue I K} {i j : Nat} (hq : idxOk q)
    (hi : i < q.entries.length) (hj : j < q.entries.length) :
    idxOk (hswap q i j) := by
  obtain ⟨ei, hei⟩ : ∃ e, q.entries[i]? = some e := by
    rw [← Option.isSome_iff_exists]
    simp [List.getElem?_eq_getElem hi]
  obtain ⟨ej, hej⟩ : ∃ e, q.entries[j]? = some e := by
    rw [← Option.isSome_iff_exists]
    simp [List.getElem?_eq_getElem hj]
  rw [hswap_eq hei hej]
  have hidxi : q.indices ei.1 = some i := hq.2 i ei hei
  have hidxj : q.indices ej.1 = some j := hq.2 j ej hej
  constructor
  · intro x idx hx
    dsimp only at hx ⊢
    rw [set2_getElem? hei hej]
    by_cases hxj : x = ej.1
    · rw [if_pos hxj] at hx
      have hidx : idx = i := (Option.some.inj hx).symm
      subst hidx
      by_cases hij : idx = j
      · subst hij
        rw [hej] at hei
        rw [if_pos rfl]
        have heq : ej = ei := Option.some.inj hei
        exact ⟨ei.2, by rw [hxj, heq]⟩
      · rw [if_neg hij, if_pos rfl]
        exact ⟨ej.2, by rw [hxj]⟩
    · rw [if_neg hxj] at hx
      by_cases hxi : x = ei.1
      · rw [if_pos hxi] at hx
        have hidx : idx = j := (Option.some.inj hx).symm
        subst hidx
        rw [if_pos rfl]
        exact ⟨ei.2, by rw [hxi]⟩
      · rw [if_neg hxi] at hx
        obtain ⟨k, hk⟩ := hq.1 x idx hx
        have hij : idx ≠ j := by
          intro h
          subst h
          rw [hk] at hej
          exact hxj (congrArg Prod.fst (Option.some.inj hej))
        have hii : idx ≠ i := by
          intro h
          subst h
          rw [hk] at hei
          exact hxi (congrArg Prod.fst (Option.some.inj hei))
        rw [if_neg hij, if_neg hii]
        exact ⟨k, hk⟩
  · intro k e hk
    dsimp only at hk ⊢
    rw [set2_getElem? hei hej] at hk
    by_cases hkj : k = j
    · subst hkj
      rw [if_pos rfl] at hk
      have he : e = ei := (Option.some.inj hk).symm
      subst he
      by_cases heq : e.1 = ej.1
      · rw [if_pos heq]
        have hij : i = k := by
          rw [heq] at hidxi
          rw [hidxi] at hidxj
          exact Option.some.inj hidxj
        rw [hij]
      · rw [if_neg heq, if_pos rfl]
    · rw [if_neg hkj] at hk
      by_cases hki : k = i
      · subst hki
        rw [if_pos rfl] at hk
        have he : e = ej := (Option.some.inj hk).symm
        subst he
        rw [if_pos rfl]
      · rw [if_neg hki] at hk
        have hxj : e.1 ≠ ej.1 := by
          intro h
          have h2 := hq.2 k e hk
          rw [h, hidxj] at h2
          exact hkj (Option.some.inj h2).symm
        have hxi : e.1 ≠ ei.1 := by
          intro h
          have h2 := hq.2 k e hk
          rw [h, hidxi] at h2
          exact hki (Option.some.inj h2).symm
        rw [if_neg hxj, if_neg hxi]
        exact hq.2 k e hk

end HeapQueue

namespace HeapQueue

variable {I K : Type} [DecidableEq I] [LinearOrder K]

theorem mem_of_getElem?_entry {γ : Type} {l : List γ} {n : Nat} {a : γ}
    (h : l[n]? = some a) : a ∈ l := by
  obtain ⟨hlt, he⟩ := List.getElem?_eq_some.1 h
  exact he ▸ List.getElem_mem hlt

theorem exists_getElem?_of_mem {γ : Type} {l : List γ} {a : γ} (h : a ∈ l) :
    ∃ n : Nat, l[n]? = some a := by
  obtain ⟨n, hn, he⟩ := List.getElem_of_mem h
  exact ⟨n, by rw [List.getElem?_eq_getElem hn, he]⟩

theorem hswap_mem {q : HeapQueue I K} {i j : Nat} {e : I × K}
    (h : e ∈ (hswap q i j).entries) : e ∈ q.entries := by
  unfold hswap at h
  cases h1 : q.entries[i]? with
  | none => rw [h1] at h; exact h
  | some e1 =>
    cases h2 : q.entries[j]? with
    | none => rw [h1, h2] at h; exact h
    | some e2 =>
      rw [h1, h2] at h
      dsimp only at h
      rcases List.mem_or_eq_of_mem_set h with h3 | h3
      · rcases List.mem_or_eq_of_mem_set h3 with h4 | h4
        · exact h4
        · exact h4 ▸ mem_of_getElem?_entry h2
      · exact h3 ▸ mem_of_getElem?_entry h1

theorem hupFuel_length (f : Nat) (q : HeapQueue I K) (idx : Nat) :
    (hupFuel f q idx).entries.length = q.entries.length := by
  induction f generalizing q idx with
  | zero => cases idx <;> rfl
  | succ f ih =>
    cases idx with
    | zero => rfl
    | succ n =>
      rw [hupFuel]
      cases h1 : q.entries[n + 1]? with
      | none => rfl
      | some ei =>
        cases h2 : q.entries[n / 2]? with
        | none => rfl
        | some ep =>
          dsimp only
          split
          · rw [ih, hswap_length]
          · rfl

theorem hupFuel_mem {f : Nat} {q : HeapQueue I K} {idx : Nat} {e : I × K}
    (h : e ∈ (hupFuel f q idx).entries) : e ∈ q.entries := by
  induction f generalizing q idx with
  | zero => cases idx <;> exact h
  | succ f ih =>
    cases idx with
    | zero => exact h
    | succ n =>
      rw [hupFuel] at h
      cases h1 : q.entries[n + 1]? with
      | none => rw [h1] at h; exact h
      | some ei =>
        cases h2 : q.entries[n / 2]? with
        | none => rw [h1, h2] at h; exact h
        | some ep =>
          rw [h1, h2] at h
          dsimp only at h
          split at h
          · exact hswap_mem (ih h)
          · exact h

theorem idxOk_hupFuel (f : Nat) {q : HeapQueue I K} (idx : Nat) (hq : idxOk q) :
    idxOk (hupFuel f q idx) := by
  induction f generalizing q idx with
  | zero => cases idx <;> exact hq
  | succ f ih =>
    cases idx with
    | zero => exact hq
    | succ n =>
      rw [hupFuel]
      cases h1 : q.entries[n + 1]? with
      | none => exact hq
      | some ei =>
        cases h2 : q.entries[n / 2]? with
        | none => exact hq
        | some ep =>
          dsimp only
          split
          · exact ih _ (idxOk_hswap hq (lt_length_of_getElem? h1) (lt_length_of_getElem? h2))
          · exact hq

theorem hdownFuel_length (f : Nat) (q : HeapQueue I K) (idx : Nat) :
    (hdownFuel f q idx).entries.length = q.entries.length := by
  induction f generalizing q idx with
  | zero => rfl
  | succ f ih =>
    rw [hdownFuel]
    cases h0 : smallerChild q idx with
    | none => rfl
    | some child =>
      dsimp only
      cases h1 : q.entries[idx]? with
      | none => rfl
      | some ei =>
        cases h2 : q.entries[child]? with
        | none => rfl
        | some ec =>
          dsimp only
          split
          · rw [ih, hswap_length]
          · rfl

theorem hdownFuel_mem {f : Nat} {q : HeapQueue I K} {idx : Nat} {e : I × K}
    (h : e ∈ (hdownFuel f q idx).entries) : e ∈ q.entries := by
  induction f generalizing q idx with
  | zero => exact h
  | succ f ih =>
    rw [hdownFuel] at h
    cases h0 : smallerChild q idx with
    | none => rw [h0] at h; exact h
    | some child =>
      rw [h0] at h
      dsimp only at h
      cases h1 : q.entries[idx]? with
      | none => rw [h1] at h; exact h
      | some ei =>
        cases h2 : q.entries[child]? with
        | none => rw [h1, h2] at h; exact h
        | some ec =>
          rw [h1, h2] at h
          dsimp only at h
          split at h
          · exact hswap_mem (ih h)
          · exact h

theorem idxOk_hdownFuel (f : Nat) {q : HeapQueue I K} (idx : Nat) (hq : idxOk q) :
    idxOk (hdownFuel f q idx) := by
  induction f generalizing q idx with
  | zero => exact hq
  | succ f ih =>
    rw [hdownFuel]
    cases h0 : smallerChild q idx with
    | none => exact hq
    | some child =>
      dsimp only
      cases h1 : q.entries[idx]? with
      | none => exact hq
      | some ei =>
        cases h2 : q.entries[child]? with
        | none => exact hq
        | some ec =>
          dsimp only
          split
          · exact ih _ (idxOk_hswap hq (lt_length_of_getElem? h1) (lt_length_of_getElem? h2))
          · exact hq

theorem hup_length (q : HeapQueue I K) (idx : Nat) :
    (hup q idx).entries.length = q.entries.length := hupFuel_length _ _ _

theorem hdown_length (q : HeapQueue I K) (idx : Nat) :
    (hdown q idx).entries.length = q.entries.length := hdownFuel_length _ _ _

theorem hup_mem {q : HeapQueue I K} {idx : Nat} {e : I × K}
    (h : e ∈ (hup q idx).entries) : e ∈ q.entries := hupFuel_mem h

theorem hdown_mem {q : HeapQueue I K} {idx : Nat} {e : I × K}
    (h : e ∈ (hdown q idx).entries) : e ∈ q.entries := hdownFuel_mem h

theorem idxOk_hup {q : HeapQueue I K} (idx : Nat) (hq : idxOk q) :
    idxOk (hup q idx) := idxOk_hupFuel _ _ hq

theorem idxOk_hdown {q : HeapQueue I K} (idx : Nat) (hq : idxOk q) :
    idxOk (hdown q idx) := idxOk_hdownFuel _ _ hq

theorem heapifyLoop_length (q : HeapQueue I K) (i : Nat) :
    (heapifyLoop q i).entries.length = q.entries.length := by
  induction i generalizing q with
  | zero => exact hdown_length _ _
  | succ n ih => rw [heapifyLoop, ih, hdown_length]

theorem heapifyLoop_mem {q : HeapQueue I K} {i : Nat} {e : I × K}
    (h : e ∈ (heapifyLoop q i).entries) : e ∈ q.entries := by
  induction i generalizing q with
  | zero => exact hdown_mem h
  | succ n ih =>
    rw [heapifyLoop] at h
    exact hdown_mem (ih h)

theorem idxOk_heapifyLoop {q : HeapQueue I K} (i : Nat) (hq : idxOk q) :
    idxOk (heapifyLoop q i) := by
  induction i generalizing q with
  | zero => exact idxOk_hdown _ hq
  | succ n ih =>
    rw [heapifyLoop]
    exact ih (idxOk_hdown _ hq)

theorem heapify_length (q : HeapQueue I K) :
    (heapify q).entries.length = q.entries.length := by
  unfold heapify
  split
  · rfl
  · exact heapifyLoop_length _ _

theorem heapify_mem {q : HeapQueue I K} {e : I × K}
    (h : e ∈ (heapify q).entries) : e ∈ q.entries := by
  unfold heapify at h
  split at h
  · exact h
  · exact heapifyLoop_mem h

theorem idxOk_heapify {q : HeapQueue I K} (hq : idxOk q) : idxOk (heapify q) := by
  unfold heapify
  split
  · exact hq
  · exact idxOk_heapifyLoop _ hq

end HeapQueue

namespace HeapQueue

variable {I K : Type} [DecidableEq I] [LinearOrder K]

theorem buildIndices_concat (es : List (I × K)) (e : I × K) :
    buildIndices (es ++ [e]) =
      fun x => if x = e.1 then some es.length else buildIndices es x := by
  unfold buildIndices
  rw [List.enum_append, List.foldl_append]
  rfl

/-- With unique items, the constructed index dictionary is exactly the
position map of the entry list. -/
theorem idxOk_mk {es : List (I × K)} (h : (es.map Prod.fst).Nodup) :
    idxOk (⟨es, buildIndices es⟩ : HeapQueue I K) := by
  induction es using List.reverseRecOn with
  | nil =>
    constructor
    · intro x j hx
      exact Option.noConfusion hx
    · intro j e hj
      simp at hj
  | append_singleton es e ih =>
    rw [List.map_append, List.nodup_append] at h
    obtain ⟨h1, _, h2⟩ := h
    have hnot : e.1 ∉ es.map Prod.fst := by
      intro hmem
      exact h2 hmem (by simp)
    obtain ⟨ihf, ihb⟩ := ih h1
    constructor
    · intro x j hx
      dsimp only at hx ⊢
      rw [buildIndices_concat] at hx
      dsimp only at hx
      by_cases hxe : x = e.1
      · rw [if_pos hxe] at hx
        have hj : j = es.length := (Option.some.inj hx).symm
        subst hj
        refine ⟨e.2, ?_⟩
        rw [show (es ++ [e])[es.length]? = some e by simp]
        rw [hxe]
      · rw [if_neg hxe] at hx
        obtain ⟨k, hk⟩ := ihf x j hx
        refine ⟨k, ?_⟩
        rw [List.getElem?_append, if_pos (lt_length_of_getElem? hk)]
        exact hk
    · intro j ev hj
      dsimp only at hj ⊢
      rw [buildIndices_concat]
      dsimp only
      have hjlt : j < es.length + 1 := by
        have := lt_length_of_getElem? hj
        simpa using this
      by_cases hje : j = es.length
      · subst hje
        rw [show (es ++ [e])[es.length]? = some e by simp] at hj
        have : ev = e := Option.some.inj hj.symm
        subst this
        rw [if_pos rfl]
      · have hjlt2 : j < es.length := by omega
        rw [List.getElem?_append, if_pos hjlt2] at hj
        have hb := ihb j ev hj
        have hne : ev.1 ≠ e.1 := by
          intro hh
          apply hnot
          rw [← hh]
          exact List.mem_map_of_mem Prod.fst (mem_of_getElem?_entry hj)
        rw [if_neg hne]
        exact hb

theorem idxOk_ofEntries {es : List (I × K)} (h : (es.map Prod.fst).Nodup) :
    idxOk (ofEntries es) := idxOk_heapify (idxOk_mk h)

theorem idxOk_emptyHeap : idxOk (emptyHeap : HeapQueue I K) := by
  constructor
  · intro x j hx
    exact Option.noConfusion hx
  · intro j e hj
    simp [emptyHeap] at hj

/-- `push` keeps the two-sided index invariant. -/
theorem idxOk_push {q : HeapQueue I K} (item : I) (key : K) (hq : idxOk q) :
    idxOk (q.push item key) := by
  unfold push
  cases hni : q.indices item with
  | none =>
    dsimp only
    apply idxOk_hup
    constructor
    · intro x j hx
      dsimp only at hx ⊢
      by_cases hxi : x = item
      · rw [if_pos hxi] at hx
        have hj : j = q.entries.length := (Option.some.inj hx).symm
        subst hj
        refine ⟨key, ?_⟩
        rw [show (q.entries ++ [(item, key)])[q.entries.length]? = some (item, key)
          by simp]
        rw [hxi]
      · rw [if_neg hxi] at hx
        obtain ⟨k, hk⟩ := hq.1 x j hx
        refine ⟨k, ?_⟩
        rw [List.getElem?_append, if_pos (lt_length_of_getElem? hk)]
        exact hk
    · intro j ev hj
      dsimp only at hj ⊢
      have hjlt : j < q.entries.length + 1 := by
        have := lt_length_of_getElem? hj
        simpa using this
      by_cases hje : j = q.entries.length
      · subst hje
        rw [show (q.entries ++ [(item, key)])[q.entries.length]? = some (item, key)
          by simp] at hj
        have : ev = (item, key) := Option.some.inj hj.symm
        subst this
        rw [if_pos rfl]
      · have hjlt2 : j < q.entries.length := by omega
        rw [List.getElem?_append, if_pos hjlt2] at hj
        have hb := hq.2 j ev hj
        have hne : ev.1 ≠ item := by
          intro hh
          rw [hh, hni] at hb
          exact Option.noConfusion hb
        rw [if_neg hne]
        exact hb
  | some idx =>
    dsimp only
    cases he : q.entries[idx]? with
    | none => exact hq
    | some e =>
      dsimp only
      have he1 : e.1 = item := by
        obtain ⟨k, hk⟩ := hq.1 item idx hni
        rw [hk] at he
        exact (congrArg Prod.fst (Option.some.inj he)).symm
      have hlt : idx < q.entries.length := lt_length_of_getElem? he
      have hbase : idxOk (⟨q.entries.set idx (e.1, key), q.indices⟩ : HeapQueue I K) := by
        constructor
        · intro x j hx
          dsimp only at hx ⊢
          obtain ⟨k, hk⟩ := hq.1 x j hx
          by_cases hj : j = idx
          · subst hj
            rw [hk] at he
            have hex : e = (x, k) := (Option.some.inj he).symm
            refine ⟨key, ?_⟩
            rw [List.getElem?_set, if_pos rfl, if_pos hlt]
            rw [hex]
          · rw [List.getElem?_set, if_neg (fun hh => hj hh.symm)]
            exact ⟨k, hk⟩
        · intro j ev hj
          dsimp only at hj ⊢
          by_cases hji : j = idx
          · subst hji
            rw [List.getElem?_set, if_pos rfl, if_pos hlt] at hj
            have : ev = (e.1, key) := Option.some.inj hj.symm
            subst this
            exact hq.2 j e he
          · rw [List.getElem?_set, if_neg (fun hh => hji hh.symm)] at hj
            exact hq.2 j ev hj
      split
      · exact idxOk_hup _ hbase
      · split
        · exact idxOk_hdown _ hbase
        · exact hbase

/-- The exact shape of a successful `pop`: the returned entry is the
old root, and the new state is the shrunk array sifted down from the
root. -/
theorem pop_eq {q : HeapQueue I K} (hne : q.entries ≠ []) (hq : idxOk q) :
    ∃ e0, q.entries[0]? = some e0 ∧
      q.pop = .ok (e0, hdown
        ⟨(hswap q 0 (q.entries.length - 1)).entries.dropLast,
         fun x => if x = e0.1 then none
                  else (hswap q 0 (q.entries.length - 1)).indices x⟩ 0) := by
  have hlen : 0 < q.entries.length := List.length_pos.2 hne
  obtain ⟨e0, he0⟩ : ∃ e, q.entries[0]? = some e := by
    rw [← Option.isSome_iff_exists]
    simp [List.getElem?_eq_getElem hlen]
  obtain ⟨en, hen⟩ : ∃ e, q.entries[q.entries.length - 1]? = some e := by
    rw [← Option.isSome_iff_exists]
    simp [List.getElem?_eq_getElem (by omega : q.entries.length - 1 < q.entries.length)]
  refine ⟨e0, he0, ?_⟩
  unfold pop
  rw [if_neg (by simpa [List.isEmpty_iff] using hne)]
  dsimp only
  have hlast : (hswap q 0 (q.entries.length - 1)).entries.getLast? = some e0 := by
    rw [getLast?_eq_getElem?_pred, hswap_length]
    rw [hswap_eq he0 hen]
    dsimp only
    rw [set2_getElem? he0 hen, if_pos rfl]
  rw [hlast]

/-- The pre-sift state inside `pop` keeps the two-sided index
invariant. -/
theorem idxOk_popped {q : HeapQueue I K} (hq : idxOk q) (hne : q.entries ≠ [])
    {e0 : I × K} (he0 : q.entries[0]? = some e0) :
    idxOk (⟨(hswap q 0 (q.entries.length - 1)).entries.dropLast,
      fun x => if x = e0.1 then none
               else (hswap q 0 (q.entries.length - 1)).indices x⟩ : HeapQueue I K) := by
  have hlen : 0 < q.entries.length := List.length_pos.2 hne
  have hq1 : idxOk (hswap q 0 (q.entries.length - 1)) :=
    idxOk_hswap hq hlen (by omega)
  have hq1len : (hswap q 0 (q.entries.length - 1)).entries.length =
      q.entries.length := hswap_length _ _ _
  have hq1last : (hswap q 0 (q.entries.length - 1)).entries[q.entries.length - 1]? =
      some e0 := by
    obtain ⟨en, hen⟩ : ∃ e, q.entries[q.entries.length - 1]? = some e := by
      rw [← Option.isSome_iff_exists]
      simp [List.getElem?_eq_getElem (by omega : q.entries.length - 1 < q.entries.length)]
    rw [hswap_eq he0 hen]
    dsimp only
    rw [set2_getElem? he0 hen, if_pos rfl]
  have hidx0 : (hswap q 0 (q.entries.length - 1)).indices e0.1 =
      some (q.entries.length - 1) := hq1.2 _ _ hq1last
  constructor
  · intro x j hx
    dsimp only at hx ⊢
    by_cases hxe : x = e0.1
    · rw [if_pos hxe] at hx
      exact Option.noConfusion hx
    · rw [if_neg hxe] at hx
      obtain ⟨k, hk⟩ := hq1.1 x j hx
      have hjne : j ≠ q.entries.length - 1 := by
        intro hh
        subst hh
        rw [hk] at hq1last
        exact hxe (congrArg Prod.fst (Option.some.inj hq1last.symm)).symm
      have hjlt : j < q.entries.length := by
        have := lt_length_of_getElem? hk
        omega
      refine ⟨k, ?_⟩
      rw [List.getElem?_dropLast, if_pos (by omega)]
      exact hk
  · intro j ev hj
    dsimp only at hj ⊢
    rw [List.getElem?_dropLast] at hj
    by_cases hjlt : j < (hswap q 0 (q.entries.length - 1)).entries.length - 1
    · rw [if_pos hjlt] at hj
      have hb := hq1.2 j ev hj
      have hne2 : ev.1 ≠ e0.1 := by
        intro hh
        rw [hh, hidx0] at hb
        have : q.entries.length - 1 = j := Option.some.inj hb
        omega
      rw [if_neg hne2]
      exact hb
    · rw [if_neg hjlt] at hj
      exact Option.noConfusion hj

end HeapQueue

namespace HeapQueue

variable {I K : Type} [DecidableEq I] [LinearOrder K]

theorem smallerChild_none {q : HeapQueue I K} {idx : Nat}
    (h : smallerChild q idx = none) : q.entries.length ≤ 2 * idx + 1 := by
  unfold smallerChild at h
  by_cases hl : q.entries.length ≤ 2 * idx + 1
  · exact hl
  · rw [dif_neg hl] at h
    by_cases hr : 2 * idx + 1 + 1 = q.entries.length
    · rw [dif_pos hr] at h
      exact Option.noConfusion h
    · rw [dif_neg hr] at h
      split at h <;> exact Option.noConfusion h

theorem smallerChild_some {q : HeapQueue I K} {idx c : Nat}
    (h : smallerChild q idx = some c) :
    (c = 2 * idx + 1 ∨ c = 2 * idx + 2) ∧ c < q.entries.length ∧
    ∀ j ej ec, (j = 2 * idx + 1 ∨ j = 2 * idx + 2) → j ≠ c →
      q.entries[j]? = some ej → q.entries[c]? = some ec → ec.2 ≤ ej.2 := by
  unfold smallerChild at h
  by_cases hl : q.entries.length ≤ 2 * idx + 1
  · rw [dif_pos hl] at h
    exact Option.noConfusion h
  · rw [dif_neg hl] at h
    by_cases hr : 2 * idx + 1 + 1 = q.entries.length
    · rw [dif_pos hr] at h
      have hc : c = 2 * idx + 1 := (Option.some.inj h).symm
      subst hc
      refine ⟨Or.inl rfl, by omega, ?_⟩
      intro j ej ec hj hne hgj hgc
      have hjlt := lt_length_of_getElem? hgj
      omega
    · rw [dif_neg hr] at h
      have hleft : 2 * idx + 1 < q.entries.length := by omega
      have hright : 2 * idx + 2 < q.entries.length := by omega
      have hgl : q.entries[2 * idx + 1]? =
          some (q.entries.get ⟨2 * idx + 1, by omega⟩) := by
        rw [List.getElem?_eq_getElem hleft]
        rfl
      have hgr : q.entries[2 * idx + 2]? =
          some (q.entries.get ⟨2 * idx + 2, by omega⟩) := by
        rw [List.getElem?_eq_getElem hright]
        rfl
      split at h
      · -- left child has the smaller key
        have hc : c = 2 * idx + 1 := (Option.some.inj h).symm
        subst hc
        refine ⟨Or.inl rfl, by omega, ?_⟩
        intro j ej ec hj hne hgj hgc
        have hj2 : j = 2 * idx + 2 := by omega
        subst hj2
        rw [List.getElem?_eq_getElem hleft] at hgc
        rw [List.getElem?_eq_getElem hright] at hgj
        rw [← Option.some.inj hgc, ← Option.some.inj hgj]
        rename_i hlt
        exact le_of_lt hlt
      · -- right child has the smaller or equal key
        have hc : c = 2 * idx + 2 := (Option.some.inj h).symm
        subst hc
        refine ⟨Or.inr rfl, by omega, ?_⟩
        intro j ej ec hj hne hgj hgc
        have hj2 : j = 2 * idx + 1 := by omega
        subst hj2
        rw [List.getElem?_eq_getElem hleft] at hgj
        rw [List.getElem?_eq_getElem hright] at hgc
        rw [← Option.some.inj hgc, ← Option.some.inj hgj]
        rename_i hnlt
        exact le_of_not_lt hnlt

/-- The sift-down invariant: if the heap constraint (restricted to
parents `≥ b`) holds everywhere except below position `idx`, and
`idx`'s own parent already dominates `idx`'s children, then sifting
down restores the constraint everywhere (restricted to parents `≥ b`).
The fuel only needs to cover the distance to the end of the array. -/
theorem heapFrom_hdownFuel {f : Nat} {q : HeapQueue I K} {b idx : Nat}
    (hfuel : q.entries.length - idx ≤ f) (hb : b ≤ idx)
    (h1 : ∀ i, b ≤ (i - 1) / 2 → (i - 1) / 2 ≠ idx → heapAt q.entries i)
    (h2 : ∀ c ec eg, (c - 1) / 2 = idx → 0 < idx → b ≤ (idx - 1) / 2 →
      q.entries[c]? = some ec → q.entries[(idx - 1) / 2]? = some eg → eg.2 ≤ ec.2) :
    heapFrom (hdownFuel f q idx).entries b := by
  induction f generalizing q idx with
  | zero =>
    rw [hdownFuel]
    intro i hpi
    by_cases hne : (i - 1) / 2 = idx
    · intro ei ep hpos hgi hgp
      have hilen := lt_length_of_getElem? hgi
      omega
    · exact h1 i hpi hne
  | succ f ih =>
    rw [hdownFuel]
    cases h0 : smallerChild q idx with
    | none =>
      dsimp only
      have hlen := smallerChild_none h0
      intro i hpi
      by_cases hne : (i - 1) / 2 = idx
      · intro ei ep hpos hgi hgp
        have hilen := lt_length_of_getElem? hgi
        omega
      · exact h1 i hpi hne
    | some child =>
      dsimp only
      obtain ⟨hcs, hclen, hcmin⟩ := smallerChild_some h0
      have hidxlt : idx < q.entries.length := by omega
      obtain ⟨ei, hei⟩ : ∃ e, q.entries[idx]? = some e := by
        rw [← Option.isSome_iff_exists]
        simp [List.getElem?_eq_getElem hidxlt]
      obtain ⟨ec, hec⟩ : ∃ e, q.entries[child]? = some e := by
        rw [← Option.isSome_iff_exists]
        simp [List.getElem?_eq_getElem hclen]
      rw [hei, hec]
      dsimp only
      by_cases hkey : ec.2 < ei.2
      · rw [if_pos hkey]
        have hlen2 : (hswap q idx child).entries.length = q.entries.length :=
          hswap_length _ _ _
        have hE : ∀ k, (hswap q idx child).entries[k]? =
            if k = child then some ei else if k = idx then some ec
            else q.entries[k]? := by
          intro k
          rw [hswap_eq hei hec]
          exact set2_getElem? hei hec k
        apply ih
        · rw [hlen2]
          omega
        · omega
        · -- the heap constraint away from `child`
          intro i hpi hpne ei2 ep2 hpos hgi hgp
          rw [hE] at hgi hgp
          by_cases hiidx : i = idx
          · subst hiidx
            rw [if_neg (by omega), if_pos rfl] at hgi
            have hpar_ne_child : (i - 1) / 2 ≠ child := hpne
            rw [if_neg hpar_ne_child, if_neg (by omega)] at hgp
            have hchildpar : (child - 1) / 2 = i := by omega
            have := h2 child ec ep2 hchildpar (by omega) (by omega) hec hgp
            rw [← Option.some.inj hgi]
            exact this
          · by_cases hichild : i = child
            · subst hichild
              rw [if_pos rfl] at hgi
              have hpar : (i - 1) / 2 = idx := by omega
              rw [if_neg (by omega), hpar, if_pos rfl] at hgp
              rw [← Option.some.inj hgi, ← Option.some.inj hgp]
              exact le_of_lt hkey
            · rw [if_neg hichild, if_neg hiidx] at hgi
              by_cases hpidx : (i - 1) / 2 = idx
              · -- sibling of `child`
                rw [if_neg hpne, hpidx, if_pos rfl] at hgp
                have := hcmin i ei2 ec (by omega) hichild hgi hec
                rw [← Option.some.inj hgp]
                exact this
              · rw [if_neg hpne, if_neg hpidx] at hgp
                exact h1 i hpi hpidx ei2 ep2 hpos hgi hgp
        · -- the grandparent condition at `child`
          intro c2 ec2 eg2 hc2 hcpos hguard hgc2 hgg
          rw [hE] at hgc2 hgg
          have hc2big : c2 = 2 * child + 1 ∨ c2 = 2 * child + 2 := by omega
          rw [if_neg (by omega), if_neg (by omega)] at hgc2
          have hgpar : (child - 1) / 2 = idx := by omega
          rw [hgpar, if_neg (by omega), if_pos rfl] at hgg
          have hAt := h1 c2 (by omega) (by omega) ec2 ec (by omega)
            hgc2 (by rw [hc2]; exact hec)
          rw [← Option.some.inj hgg]
          exact hAt
      · rw [if_neg hkey]
        have hkey2 : ei.2 ≤ ec.2 := le_of_not_lt hkey
        intro i hpi
        by_cases hpidx : (i - 1) / 2 = idx
        · intro ei2 ep2 hpos hgi hgp
          rw [hpidx, hei] at hgp
          have hep : ep2 = ei := Option.some.inj hgp.symm
          subst hep
          by_cases hic : i = child
          · subst hic
            rw [hec] at hgi
            have : ei2 = ec := Option.some.inj hgi.symm
            subst this
            exact hkey2
          · have := hcmin i ei2 ec (by omega) hic hgi hec
            exact le_trans hkey2 this
        · exact h1 i hpi hpidx

end HeapQueue

namespace HeapQueue

variable {I K : Type} [DecidableEq I] [LinearOrder K]

/-- The sift-up invariant: if the heap constraint holds everywhere
except possibly between `idx` and its parent, and `idx`'s parent
already dominates `idx`'s children, then sifting up restores the heap
property everywhere.  Fuel `idx` suffices. -/
theorem heapProp_hupFuel {f : Nat} {q : HeapQueue I K} {idx : Nat}
    (hfuel : idx ≤ f)
    (h1 : ∀ i, i ≠ idx → heapAt q.entries i)
    (h2 : ∀ c ec eg, (c - 1) / 2 = idx → 0 < idx →
      q.entries[c]? = some ec → q.entries[(idx - 1) / 2]? = some eg → eg.2 ≤ ec.2) :
    heapProp (hupFuel f q idx).entries := by
  induction f generalizing q idx with
  | zero =>
    have hidx : idx = 0 := by omega
    subst hidx
    rw [hupFuel]
    intro i ei ep hpos hgi hgp
    exact h1 i (by omega) ei ep hpos hgi hgp
  | succ f ih =>
    cases idx with
    | zero =>
      rw [hupFuel]
      intro i ei ep hpos hgi hgp
      exact h1 i (by omega) ei ep hpos hgi hgp
    | succ n =>
      rw [hupFuel]
      cases h1g : q.entries[n + 1]? with
      | none =>
        dsimp only
        intro i ei ep hpos hgi hgp
        by_cases hi : i = n + 1
        · subst hi
          rw [h1g] at hgi
          exact Option.noConfusion hgi
        · exact h1 i hi ei ep hpos hgi hgp
      | some ei =>
        cases h2g : q.entries[n / 2]? with
        | none =>
          dsimp only
          have := lt_length_of_getElem? h1g
          have := List.getElem?_eq_none_iff.1 h2g
          omega
        | some ep =>
          dsimp only
          by_cases hkey : ei.2 < ep.2
          · rw [if_pos hkey]
            have hE : ∀ k, (hswap q (n + 1) (n / 2)).entries[k]? =
                if k = n / 2 then some ei else if k = n + 1 then some ep
                else q.entries[k]? := by
              intro k
              rw [hswap_eq h1g h2g]
              exact set2_getElem? h1g h2g k
            apply ih (by omega)
            · -- heap constraint away from the parent position
              intro i hine ei2 ep2 hpos hgi hgp
              rw [hE] at hgi hgp
              by_cases hi1 : i = n + 1
              · subst hi1
                rw [if_neg (by omega), if_pos rfl] at hgi
                rw [if_pos (by omega)] at hgp
                rw [← Option.some.inj hgi, ← Option.some.inj hgp]
                exact le_of_lt hkey
              · by_cases hpar : (i - 1) / 2 = n + 1
                · -- a child of the sifted position
                  rw [if_neg hi1, if_neg (by omega)] at hgi
                  rw [hpar, if_neg (by omega), if_pos rfl] at hgp
                  have := h2 i ei2 ep hpar (by omega) hgi h2g
                  rw [← Option.some.inj hgp]
                  exact this
                · by_cases hpar2 : (i - 1) / 2 = n / 2
                  · -- the sibling of the sifted position
                    rw [if_neg hi1, if_neg (show ¬ i = n / 2 by omega)] at hgi
                    rw [hpar2, if_pos rfl] at hgp
                    have hAt := h1 i hi1 ei2 ep hpos (by exact hgi) (by rw [hpar2]; exact h2g)
                    rw [← Option.some.inj hgp]
                    exact le_trans (le_of_lt hkey) hAt
                  · rw [if_neg hi1] at hgi
                    rw [if_neg hpar2, if_neg hpar] at hgp
                    by_cases hi2 : i = n / 2
                    · exact absurd hi2 (fun hh => hine hh)
                    · rw [if_neg hi2] at hgi
                      exact h1 i hi1 ei2 ep2 hpos hgi hgp
            · -- grandparent condition at the parent position
              intro c ec eg hc hcpos hgc hgg
              rw [hE] at hgc hgg
              have hcbig : c = 2 * (n / 2) + 1 ∨ c = 2 * (n / 2) + 2 := by omega
              rw [if_neg (by omega)] at hgg
              rw [if_neg (by omega)] at hgg
              have hgp := h1 (n / 2) (by omega)
              by_cases hcn : c = n + 1
              · subst hcn
                rw [if_neg (by omega), if_pos rfl] at hgc
                have := hgp ep eg (by omega) h2g hgg
                rw [← Option.some.inj hgc]
                exact this
              · rw [if_neg hcn, if_neg (by omega)] at hgc
                have hup := hgp ep eg (by omega) h2g hgg
                have hAt := h1 c (by omega) ec ep (by omega) hgc
                  (by rw [hc]; exact h2g)
                exact le_trans hup hAt
          · rw [if_neg hkey]
            intro i ei2 ep2 hpos hgi hgp
            by_cases hi1 : i = n + 1
            · subst hi1
              rw [h1g] at hgi
              rw [show (n + 1 - 1) / 2 = n / 2 by omega, h2g] at hgp
              rw [← Option.some.inj hgi, ← Option.some.inj hgp]
              exact le_of_not_lt hkey
            · exact h1 i hi1 ei2 ep2 hpos hgi hgp

end HeapQueue

namespace HeapQueue

variable {I K : Type} [DecidableEq I] [LinearOrder K]

theorem heapFrom_zero {l : List (I × K)} (h : heapFrom l 0) : heapProp l :=
  fun i => h i (Nat.zero_le _)

theorem heapProp_short {l : List (I × K)} (h : l.length ≤ 1) : heapProp l := by
  intro i ei ep hpos hgi hgp
  have := lt_length_of_getElem? hgi
  omega

/-- `push` preserves the heap property (all three branches). -/
theorem heapProp_push {q : HeapQueue I K} (item : I) (key : K)
    (hq : heapProp q.entries) (hidx : idxOk q) :
    heapProp (q.push item key).entries := by
  unfold push
  cases hni : q.indices item with
  | none =>
    dsimp only
    apply heapProp_hupFuel (le_refl _)
    · intro i hne ei ep hpos hgi hgp
      have hilt : i < q.entries.length + 1 := by
        have := lt_length_of_getElem? hgi
        simpa using this
      have hilt2 : i < q.entries.length := by omega
      rw [List.getElem?_append, if_pos hilt2] at hgi
      rw [List.getElem?_append, if_pos (by omega)] at hgp
      exact hq i ei ep hpos hgi hgp
    · intro c ec eg hc hpos hgc hgg
      have := lt_length_of_getElem? hgc
      simp only [List.length_append, List.length_cons, List.length_nil] at this
      omega
  | some idx =>
    dsimp only
    cases he : q.entries[idx]? with
    | none => exact hq
    | some e =>
      dsimp only
      have hlt : idx < q.entries.length := lt_length_of_getElem? he
      have hE : ∀ k, (q.entries.set idx (e.1, key))[k]? =
          if k = idx then some (e.1, key) else q.entries[k]? := by
        intro k
        rw [List.getElem?_set]
        by_cases hk : k = idx
        · subst hk
          rw [if_pos rfl, if_pos rfl, if_pos hlt]
        · rw [if_neg (fun hh => hk hh.symm), if_neg hk]
      split
      · -- key decreased: sift up
        rename_i hkey
        apply heapProp_hupFuel (le_refl _)
        · intro i hne ei2 ep2 hpos hgi hgp
          rw [hE] at hgi hgp
          rw [if_neg hne] at hgi
          by_cases hpi : (i - 1) / 2 = idx
          · rw [if_pos hpi] at hgp
            have hold := hq i ei2 e hpos hgi (by rw [← hpi] at he; exact he)
            rw [← Option.some.inj hgp]
            exact le_trans (le_of_lt hkey) hold
          · rw [if_neg hpi] at hgp
            exact hq i ei2 ep2 hpos hgi hgp
        · intro c ec eg hc hpos hgc hgg
          rw [hE] at hgc hgg
          rw [if_neg (by omega)] at hgc
          rw [if_neg (by omega)] at hgg
          have h1 := hq idx e eg hpos he hgg
          have h2 := hq c ec e (by omega) hgc (by rw [hc]; exact he)
          exact le_trans h1 h2
      · split
        · -- key increased: sift down
          rename_i hnlt hkey
          apply heapFrom_zero
          apply heapFrom_hdownFuel (by simp) (Nat.zero_le _)
          · intro i hpi hne ei2 ep2 hpos hgi hgp
            rw [hE] at hgi hgp
            rw [if_neg hne] at hgp
            by_cases hii : i = idx
            · subst hii
              rw [if_pos rfl] at hgi
              have hold := hq i e ep2 hpos he hgp
              rw [← Option.some.inj hgi]
              exact le_trans hold (le_of_lt hkey)
            · rw [if_neg hii] at hgi
              exact hq i ei2 ep2 hpos hgi hgp
          · intro c ec eg hc hpos hguard hgc hgg
            rw [hE] at hgc hgg
            rw [if_neg (by omega)] at hgc
            rw [if_neg (by omega)] at hgg
            have h1 := hq idx e eg hpos he hgg
            have h2 := hq c ec e (by omega) hgc (by rw [hc]; exact he)
            exact le_trans h1 h2
        · -- key unchanged
          rename_i hnlt hngt
          have hkeq : key = e.2 := le_antisymm (le_of_not_lt hngt) (le_of_not_lt hnlt)
          have hset : q.entries.set idx (e.1, key) = q.entries := by
            rw [hkeq]
            exact list_set_eq_self he
          intro i
          dsimp only
          rw [hset]
          exact hq i

/-- Bottom-up heapify establishes the heap property. -/
theorem heapFrom_heapifyLoop {q : HeapQueue I K} {i : Nat}
    (h : heapFrom q.entries (i + 1)) : heapFrom (heapifyLoop q i).entries 0 := by
  induction i generalizing q with
  | zero =>
    show heapFrom (hdown q 0).entries 0
    apply heapFrom_hdownFuel (by omega) (le_refl _)
    · intro j hpj hne
      exact h j (by omega)
    · intro c ec eg hc hpos hguard hgc hgg
      omega
  | succ i ih =>
    show heapFrom (heapifyLoop (hdown q (i + 1)) i).entries 0
    apply ih
    apply heapFrom_hdownFuel (by omega) (le_refl _)
    · intro j hpj hne
      exact h j (by omega)
    · intro c ec eg hc hpos hguard hgc hgg
      omega

theorem heapProp_heapify (q : HeapQueue I K) (h0 : heapFrom q.entries
    (q.entries.length / 2)) : heapProp (heapify q).entries := by
  unfold heapify
  split
  · rename_i hlen
    apply heapProp_short
    omega
  · rename_i hlen
    apply heapFrom_zero
    apply heapFrom_heapifyLoop
    have : q.entries.length / 2 - 1 + 1 = q.entries.length / 2 := by omega
    rw [this]
    exact h0

theorem heapProp_ofEntries (es : List (I × K)) : heapProp (ofEntries es).entries := by
  apply heapProp_heapify
  show heapFrom es (es.length / 2)
  intro i hpi ei ep hpos hgi hgp
  have := lt_length_of_getElem? hgi
  omega

/-- The pre-sift state inside `pop` satisfies the sift-down invariant
at the root, so the final sift restores the heap property. -/
theorem heapProp_popped {q : HeapQueue I K} (hq : heapProp q.entries)
    (hne : q.entries ≠ []) {e0 : I × K} (he0 : q.entries[0]? = some e0) :
    heapProp (hdown
      ⟨(hswap q 0 (q.entries.length - 1)).entries.dropLast,
       fun x => if x = e0.1 then none
                else (hswap q 0 (q.entries.length - 1)).indices x⟩ 0).entries := by
  have hlen : 0 < q.entries.length := List.length_pos.2 hne
  obtain ⟨en, hen⟩ : ∃ e, q.entries[q.entries.length - 1]? = some e := by
    rw [← Option.isSome_iff_exists]
    simp [List.getElem?_eq_getElem (by omega : q.entries.length - 1 < q.entries.length)]
  have hE1 : ∀ k, (hswap q 0 (q.entries.length - 1)).entries[k]? =
      if k = q.entries.length - 1 then some e0 else if k = 0 then some en
      else q.entries[k]? := by
    intro k
    rw [hswap_eq he0 hen]
    exact set2_getElem? he0 hen k
  have hlen1 : (hswap q 0 (q.entries.length - 1)).entries.length =
      q.entries.length := hswap_length _ _ _
  apply heapFrom_zero
  apply heapFrom_hdownFuel (by omega) (le_refl _)
  · intro i hpi hne2 ei2 ep2 hpos hgi hgp
    dsimp only at hgi hgp
    rw [List.getElem?_dropLast] at hgi hgp
    rw [hlen1] at hgi hgp
    by_cases hilt : i < q.entries.length - 1
    · rw [if_pos hilt] at hgi
      rw [if_pos (by omega)] at hgp
      rw [hE1] at hgi hgp
      rw [if_neg (by omega), if_neg (by omega)] at hgi
      rw [if_neg (by omega), if_neg (by omega)] at hgp
      exact hq i ei2 ep2 hpos hgi hgp
    · rw [if_neg hilt] at hgi
      exact Option.noConfusion hgi
  · intro c ec eg hc hpos hguard hgc hgg
    omega

/-- Every reachable heap state has the heap property and the two-sided
index invariant. -/
theorem reach_inv {q : HeapQueue I K} (h : Reach q) :
    heapProp q.entries ∧ idxOk q := by
  induction h with
  | empty =>
    exact ⟨heapProp_short (by simp [emptyHeap]), idxOk_emptyHeap⟩
  | ofEntries es hnd =>
    exact ⟨heapProp_ofEntries es, idxOk_ofEntries hnd⟩
  | push q item key hr ih =>
    exact ⟨heapProp_push item key ih.1 ih.2, idxOk_push item key ih.2⟩
  | pop q e q2 hr heq ih =>
    have hne : q.entries ≠ [] := by
      intro hempty
      unfold pop at heq
      rw [if_pos (by simp [hempty])] at heq
      exact Except.noConfusion heq
    obtain ⟨e0, he0, heq2⟩ := pop_eq hne ih.2
    rw [heq] at heq2
    have hq2 : q2 = hdown
        ⟨(hswap q 0 (q.entries.length - 1)).entries.dropLast,
         fun x => if x = e0.1 then none
                  else (hswap q 0 (q.entries.length - 1)).indices x⟩ 0 := by
      have := Except.ok.inj heq2
      exact congrArg Prod.snd this
    rw [hq2]
    exact ⟨heapProp_popped ih.1 hne he0,
      idxOk_hdown _ (idxOk_popped ih.2 hne he0)⟩

/-- The minimum-at-root consequence of the heap property. -/
theorem heapProp_root_min {l : List (I × K)} (h : heapProp l) {e0 : I × K}
    (h0 : l[0]? = some e0) :
    ∀ (i : Nat) (ei : I × K), l[i]? = some ei → e0.2 ≤ ei.2 := by
  intro i
  induction i using Nat.strong_induction_on with
  | _ i ih =>
    intro ei hgi
    cases i with
    | zero =>
      rw [h0] at hgi
      rw [Option.some.inj hgi]
    | succ n =>
      have hplt : (n + 1 - 1) / 2 < n + 1 := by omega
      have hpltlen : (n + 1 - 1) / 2 < l.length := by
        have := lt_length_of_getElem? hgi
        omega
      obtain ⟨ep, hep⟩ : ∃ e, l[(n + 1 - 1) / 2]? = some e := by
        rw [← Option.isSome_iff_exists]
        rw [List.getElem?_eq_getElem hpltlen]
        rfl
      exact le_trans (ih _ hplt ep hep)
        (h (n + 1) ei ep (by omega) hgi hep)

end HeapQueue

/-- C3: after constructing a `HeapQueue` (empty or from an entry
collection with unique items) and performing any sequence of `push` and
`pop` operations, every reachable state satisfies the min-heap property
(every non-root entry's key is `≥` its parent's key) and index
consistency (the recorded index of every item is exactly its position
in the backing entry array). -/
theorem C3_heap_invariants {I K : Type} [DecidableEq I] [LinearOrder K]
    (q : HeapQueue I K) (h : HeapQueue.Reach q) :
    HeapQueue.heapProp q.entries ∧ HeapQueue.indexConsistent q :=
  ⟨(HeapQueue.reach_inv h).1, (HeapQueue.reach_inv h).2.2⟩

/-- C3 witness: a heap built from three entries followed by two pushes
(one fresh item, one key update). -/
theorem C3_heap_invariants_witness :
    HeapQueue.heapProp (((HeapQueue.ofEntries
        [(0, 5), (1, 3), (2, 4)] : HeapQueue Nat Nat).push 7 1).push 2 0).entries ∧
    HeapQueue.indexConsistent (((HeapQueue.ofEntries
        [(0, 5), (1, 3), (2, 4)] : HeapQueue Nat Nat).push 7 1).push 2 0) :=
  C3_heap_invariants _ (HeapQueue.Reach.push _ 2 0
    (HeapQueue.Reach.push _ 7 1 (HeapQueue.Reach.ofEntries _ (by decide))))

/-- C6: on every reachable non-empty heap, `pop()` removes and returns
an `(item, key)` entry whose key is `≤` the key of every entry in the
queue, and `peek()` returns that same minimum item (being a pure
observation, it leaves the state untouched); on an empty heap both
fail with the empty-queue `IndexError`. -/
theorem C6_pop_peek_minimum {I K : Type} [DecidableEq I] [LinearOrder K]
    (q : HeapQueue I K) :
    (q.entries = [] → q.pop = .error "IndexError" ∧ q.peek = .error "IndexError") ∧
    (HeapQueue.Reach q → q.entries ≠ [] →
      ∃ e q2, q.pop = .ok (e, q2) ∧ q.peek = .ok e.1 ∧
        (∀ e2 ∈ q.entries, e.2 ≤ e2.2) ∧
        q2.entries.length = q.entries.length - 1) := by
  constructor
  · intro hempty
    constructor
    · unfold HeapQueue.pop
      rw [if_pos (by simp [hempty])]
    · unfold HeapQueue.peek
      rw [hempty]
      rfl
  · intro hr hne
    obtain ⟨hheap, hidx⟩ := HeapQueue.reach_inv hr
    obtain ⟨e0, he0, heq⟩ := HeapQueue.pop_eq hne hidx
    refine ⟨e0, _, heq, ?_, ?_, ?_⟩
    · unfold HeapQueue.peek
      rw [he0]
    · intro e2 he2
      obtain ⟨i, hi⟩ := HeapQueue.exists_getElem?_of_mem he2
      exact HeapQueue.heapProp_root_min hheap he0 i e2 hi
    · rw [HeapQueue.hdown_length]
      dsimp only
      rw [List.length_dropLast, HeapQueue.hswap_length]

/-- C6 witness: the empty heap errors on both calls, and the heap of
`[(0, 5), (1, 3)]` pops the minimum. -/
theorem C6_pop_peek_minimum_witness :
    ((HeapQueue.emptyHeap : HeapQueue Nat Nat).pop = .error "IndexError" ∧
      (HeapQueue.emptyHeap : HeapQueue Nat Nat).peek = .error "IndexError") ∧
    (∃ e q2, (HeapQueue.ofEntries [(0, 5), (1, 3)] : HeapQueue Nat Nat).pop =
        .ok (e, q2) ∧
      (HeapQueue.ofEntries [(0, 5), (1, 3)] : HeapQueue Nat Nat).peek = .ok e.1 ∧
      (∀ e2 ∈ (HeapQueue.ofEntries [(0, 5), (1, 3)] : HeapQueue Nat Nat).entries,
        e.2 ≤ e2.2) ∧
      q2.entries.length =
        (HeapQueue.ofEntries [(0, 5), (1, 3)] : HeapQueue Nat Nat).entries.length - 1) :=
  ⟨(C6_pop_peek_minimum HeapQueue.emptyHeap).1 rfl,
    (C6_pop_peek_minimum _).2
      (HeapQueue.Reach.ofEntries _ (by decide)) (by decide)⟩

/-! ### Dijkstra never fails: auxiliary heap lemmas

For the C5 argument we additionally need that the heap operations never
lose entries (membership is preserved in both directions by `_swap` and
the sift loops), that `push` on an already-present item keeps the entry
count, and that `pop` really removes the popped item. -/

namespace HeapQueue

variable {I K : Type} [DecidableEq I] [LinearOrder K]

theorem hswap_mem_rev {q : HeapQueue I K} {i j : Nat} {e : I × K}
    (h : e ∈ q.entries) : e ∈ (hswap q i j).entries := by
  unfold hswap
  cases hi : q.entries[i]? with
  | none => exact h
  | some ei =>
    cases hj : q.entries[j]? with
    | none => exact h
    | some ej =>
      dsimp only
      obtain ⟨k, hk⟩ := exists_getElem?_of_mem h
      by_cases hkj : k = j
      · have hej : ej = e := by
          subst hkj
          rw [hk] at hj
          exact (Option.some.inj hj).symm
        by_cases hij : i = j
        · have hei : ei = e := by
            rw [hij, hj] at hi
            exact ((Option.some.inj hi).symm).trans hej
          apply mem_of_getElem?_entry (n := j)
          rw [set2_getElem? hi hj, if_pos rfl, hei]
        · apply mem_of_getElem?_entry (n := i)
          rw [set2_getElem? hi hj, if_neg hij, if_pos rfl, hej]
      · by_cases hki : k = i
        · have hei : ei = e := by
            subst hki
            rw [hk] at hi
            exact (Option.some.inj hi).symm
          apply mem_of_getElem?_entry (n := j)
          rw [set2_getElem? hi hj, if_pos rfl, hei]
        · apply mem_of_getElem?_entry (n := k)
          rw [set2_getElem? hi hj, if_neg hkj, if_neg hki]
          exact hk

theorem hupFuel_mem_rev {f : Nat} {q : HeapQueue I K} {idx : Nat} {e : I × K}
    (h : e ∈ q.entries) : e ∈ (hupFuel f q idx).entries := by
  induction f generalizing q idx with
  | zero => cases idx <;> exact h
  | succ f ih =>
    cases idx with
    | zero => exact h
    | succ n =>
      rw [hupFuel]
      cases h1 : q.entries[n + 1]? with
      | none => exact h
      | some ei =>
        cases h2 : q.entries[n / 2]? with
        | none => exact h
        | some ep =>
          dsimp only
          split
          · exact ih (hswap_mem_rev h)
          · exact h

theorem hdownFuel_mem_rev {f : Nat} {q : HeapQueue I K} {idx : Nat} {e : I × K}
    (h : e ∈ q.entries) : e ∈ (hdownFuel f q idx).entries := by
  induction f generalizing q idx with
  | zero => exact h
  | succ f ih =>
    rw [hdownFuel]
    cases h0 : smallerChild q idx with
    | none => exact h
    | some child =>
      dsimp only
      cases h1 : q.entries[idx]? with
      | none => exact h
      | some ei =>
        cases h2 : q.entries[child]? with
        | none => exact h
        | some ec =>
          dsimp only
          split
          · exact ih (hswap_mem_rev h)
          · exact h

theorem hup_mem_rev {q : HeapQueue I K} {idx : Nat} {e : I × K}
    (h : e ∈ q.entries) : e ∈ (hup q idx).entries := hupFuel_mem_rev h

theorem hdown_mem_rev {q : HeapQueue I K} {idx : Nat} {e : I × K}
    (h : e ∈ q.entries) : e ∈ (hdown q idx).entries := hdownFuel_mem_rev h

theorem heapifyLoop_mem_rev {q : HeapQueue I K} {i : Nat} {e : I × K}
    (h : e ∈ q.entries) : e ∈ (heapifyLoop q i).entries := by
  induction i generalizing q with
  | zero => exact hdown_mem_rev h
  | succ i ih => exact ih (hdown_mem_rev h)

theorem heapify_mem_rev {q : HeapQueue I K} {e : I × K}
    (h : e ∈ q.entries) : e ∈ (heapify q).entries := by
  unfold heapify
  split
  · exact h
  · exact heapifyLoop_mem_rev h

theorem ofEntries_mem_rev {es : List (I × K)} {e : I × K}
    (h : e ∈ es) : e ∈ (ofEntries es).entries := heapify_mem_rev h

/-- A present item pushed with a new key keeps the entry count. -/
theorem push_existing_length {q : HeapQueue I K} {item : I} (key : K)
    (hq : idxOk q) (hc : q.hcontains item) :
    (q.push item key).entries.length = q.entries.length := by
  obtain ⟨idx, hidx⟩ := Option.isSome_iff_exists.1 hc
  obtain ⟨k, hk⟩ := hq.1 item idx hidx
  unfold push
  rw [hidx]
  dsimp only
  rw [hk]
  dsimp only
  split
  · rw [hup_length]
    exact List.length_set ..
  · split
    · rw [hdown_length]
      exact List.length_set ..
    · exact List.length_set ..

/-- Every entry after pushing a present item is an old entry or the
pushed pair. -/
theorem push_existing_mem {q : HeapQueue I K} {item : I} {key : K} {e : I × K}
    (hq : idxOk q) (hc : q.hcontains item)
    (h : e ∈ (q.push item key).entries) : e ∈ q.entries ∨ e = (item, key) := by
  obtain ⟨idx, hidx⟩ := Option.isSome_iff_exists.1 hc
  obtain ⟨k, hk⟩ := hq.1 item idx hidx
  unfold push at h
  rw [hidx] at h
  dsimp only at h
  rw [hk] at h
  dsimp only at h
  have hset : e ∈ q.entries.set idx (item, key) → e ∈ q.entries ∨ e = (item, key) := by
    intro hm
    rcases List.mem_or_eq_of_mem_set hm with hm | hm
    · exact Or.inl hm
    · exact Or.inr hm
  split at h
  · exact hset (hup_mem h)
  · split at h
    · exact hset (hdown_mem h)
    · exact hset h

/-- The state built inside a successful `pop` only holds entries of the
original heap. -/
theorem popped_mem {q : HeapQueue I K} (f : I → Option Nat) {e : I × K}
    (h : e ∈ (hdown ⟨(hswap q 0 (q.entries.length - 1)).entries.dropLast, f⟩
      0).entries) : e ∈ q.entries := by
  have h1 : e ∈ (hswap q 0 (q.entries.length - 1)).entries.dropLast := hdown_mem h
  exact hswap_mem (List.dropLast_subset _ h1)

theorem popped_length {q : HeapQueue I K} (f : I → Option Nat) :
    (hdown ⟨(hswap q 0 (q.entries.length - 1)).entries.dropLast, f⟩
      0).entries.length = q.entries.length - 1 := by
  rw [hdown_length]
  dsimp only
  rw [List.length_dropLast, hswap_length]

/-- The popped item is really gone: no remaining entry carries it. -/
theorem popped_not_mem {q : HeapQueue I K} (hq : idxOk q) (hne : q.entries ≠ [])
    {e0 : I × K} (he0 : q.entries[0]? = some e0) (f : I → Option Nat) :
    ∀ e ∈ (hdown ⟨(hswap q 0 (q.entries.length - 1)).entries.dropLast, f⟩
      0).entries, e.1 ≠ e0.1 := by
  intro e he heq
  have hlen : 0 < q.entries.length := List.length_pos.2 hne
  have h1 : e ∈ (hswap q 0 (q.entries.length - 1)).entries.dropLast := hdown_mem he
  obtain ⟨j, hj⟩ := exists_getElem?_of_mem h1
  rw [List.getElem?_dropLast] at hj
  by_cases hjlt : j < (hswap q 0 (q.entries.length - 1)).entries.length - 1
  · rw [if_pos hjlt] at hj
    have hq1 : idxOk (hswap q 0 (q.entries.length - 1)) :=
      idxOk_hswap hq hlen (by omega)
    obtain ⟨en, hen⟩ : ∃ e, q.entries[q.entries.length - 1]? = some e := by
      rw [← Option.isSome_iff_exists]
      simp [List.getElem?_eq_getElem (by omega : q.entries.length - 1 < q.entries.length)]
    have hq1last : (hswap q 0 (q.entries.length - 1)).entries[q.entries.length - 1]? =
        some e0 := by
      rw [hswap_eq he0 hen]
      dsimp only
      rw [set2_getElem? he0 hen, if_pos rfl]
    have hb := hq1.2 j e hj
    have hb0 := hq1.2 _ e0 hq1last
    rw [heq, hb0] at hb
    have := Option.some.inj hb
    rw [hswap_length] at hjlt
    omega
  · rw [if_neg hjlt] at hj
    exact Option.noConfusion hj

end HeapQueue

namespace PyDict

variable {α β : Type} [DecidableEq α]

/-- With duplicate-free keys, membership of a pair determines lookup. -/
theorem lookup_of_mem_nodup {d : PyDict α β} {k : α} {v : β}
    (hn : (keys d).Nodup) (h : (k, v) ∈ d) : lookup d k = some v := by
  induction d with
  | nil => cases h
  | cons p rest ih =>
    obtain ⟨a, b⟩ := p
    simp only [keys, List.map_cons] at hn
    obtain ⟨hna, hnr⟩ := List.nodup_cons.1 hn
    rw [List.mem_cons] at h
    rcases h with h | h
    · injection h with h1 h2
      subst h1
      subst h2
      rw [lookup, if_pos rfl]
    · have hka : k ≠ a := by
        intro hk
        subst hk
        exact hna (List.mem_map_of_mem Prod.fst h)
      rw [lookup, if_neg hka]
      exact ih hnr h

theorem mem_keys_set_self (d : PyDict α β) (k : α) (v : β) :
    k ∈ keys (set d k v) := by
  rw [keys_set]
  by_cases hm : k ∈ keys d <;> simp [hm]

theorem mem_keys_set_mono {d : PyDict α β} {x : α} (k : α) (v : β)
    (h : x ∈ keys d) : x ∈ keys (set d k v) := by
  rw [keys_set]
  by_cases hm : k ∈ keys d <;> simp [hm, h]

theorem mem_keys_set_inv {d : PyDict α β} {x k : α} {v : β}
    (h : x ∈ keys (set d k v)) (hx : x ≠ k) : x ∈ keys d := by
  rw [keys_set] at h
  by_cases hm : k ∈ keys d
  · rw [if_pos hm] at h
    exact h
  · rw [if_neg hm] at h
    rcases List.mem_append.1 h with h | h
    · exact h
    · rw [List.mem_singleton] at h
      exact absurd h hx

end PyDict

namespace DirectedGraph

theorem CFChain.head_mem {cf : PyDict Nat (Option Nat)} {x : Nat} {l : List Nat}
    (h : CFChain cf x l) : x ∈ PyDict.keys cf := by
  cases h with
  | start _ hx => exact PyDict.mem_keys_of_lookup hx
  | step _ y l1 hx hc => exact PyDict.mem_keys_of_lookup hx

/-- Every node on a predecessor chain is its head or a recorded
predecessor. -/
theorem CFChain.mem_pred {cf : PyDict Nat (Option Nat)} {x : Nat} {l : List Nat}
    (h : CFChain cf x l) :
    ∀ z ∈ l, z = x ∨ ∃ w, cf.lookup w = some (some z) := by
  induction h with
  | start x1 hx =>
    intro z hz
    rw [List.mem_singleton] at hz
    exact Or.inl hz
  | step x1 y l1 hx hc ih =>
    intro z hz
    rw [List.mem_cons] at hz
    rcases hz with hz | hz
    · exact Or.inl hz
    · rcases ih z hz with hz2 | hz2
      · subst hz2
        exact Or.inr ⟨x1, hx⟩
      · exact Or.inr hz2

/-- A predecessor chain only depends on the lookups at its own nodes. -/
theorem CFChain.congr {cf cf2 : PyDict Nat (Option Nat)} {x : Nat} {l : List Nat}
    (h : CFChain cf x l) (heq : ∀ z ∈ l, cf2.lookup z = cf.lookup z) :
    CFChain cf2 x l := by
  induction h with
  | start x1 hx => exact .start x1 (by rw [heq x1 (by simp), hx])
  | step x1 y l1 hx hc ih =>
    exact .step x1 y l1 (by rw [heq x1 (by simp), hx])
      (ih (fun z hz => heq z (by simp [hz])))

/-- `_construct_path`'s walk succeeds given a predecessor chain within
the fuel bound. -/
theorem constructPathAux_ok {cf : PyDict Nat (Option Nat)} {x : Nat} {l : List Nat}
    (h : CFChain cf x l) : ∀ fuel, l.length ≤ fuel →
    ∃ p, constructPathAux cf fuel x = .ok p := by
  induction h with
  | start x1 hx =>
    intro fuel hf
    cases fuel with
    | zero => simp at hf
    | succ f =>
      refine ⟨[x1], ?_⟩
      rw [constructPathAux, hx]
  | step x1 y l1 hx hc ih =>
    intro fuel hf
    cases fuel with
    | zero => simp at hf
    | succ f =>
      obtain ⟨p, hp⟩ := ih f (by simp at hf; omega)
      refine ⟨x1 :: p, ?_⟩
      rw [constructPathAux, hx]
      dsimp only
      simp only [bind, Except.bind]
      rw [hp]

/-- One relaxation pass preserves the loop invariant: it never raises,
keeps the heap size (only already-present items are pushed), keeps the
popped node out of the frontier, and only grows the came-from keys. -/
theorem relaxAll_ok {g : DirectedGraph} {start cur : Nat} {curCost : Cost} :
    ∀ (nbrs : List (Nat × Int)) (fr : HeapQueue Nat Cost)
      (cf : PyDict Nat (Option Nat)),
      (∀ nb ∈ nbrs, g.EdgeRel cur nb.1) →
      DInv g start fr cf →
      (∀ e ∈ fr.entries, e.1 ≠ cur) →
      (curCost ≠ (⊤ : Cost) → cur ∈ PyDict.keys cf) →
      ∃ fr2 cf2, relaxAll cur curCost nbrs (fr, cf) = .ok (fr2, cf2) ∧
        DInv g start fr2 cf2 ∧
        fr2.entries.length = fr.entries.length ∧
        (∀ e ∈ fr2.entries, e.1 ≠ cur) ∧
        (∀ x, x ∈ PyDict.keys cf → x ∈ PyDict.keys cf2) := by
  intro nbrs
  induction nbrs with
  | nil =>
    intro fr cf hnb hinv hcur hcurk
    exact ⟨fr, cf, rfl, hinv, rfl, hcur, fun x hx => hx⟩
  | cons nb rest ih =>
    intro fr cf hnb hinv hcur hcurk
    obtain ⟨nxt, w⟩ := nb
    by_cases hc : fr.hcontains nxt = true
    · -- the neighbour is still in the frontier
      obtain ⟨hIdx, hNodes, hFin, hNd, hLink, hReach, hChain⟩ := hinv
      obtain ⟨idx, hidx⟩ := Option.isSome_iff_exists.1 hc
      obtain ⟨k, hk⟩ := hIdx.1 nxt idx hidx
      have hgk : fr.getKey nxt = .ok k := by
        unfold HeapQueue.getKey
        rw [hidx]
        dsimp only
        rw [hk]
      have hmem_nxt : (nxt, k) ∈ fr.entries := HeapQueue.mem_of_getElem?_entry hk
      have hnxt_items : nxt ∈ fr.entries.map Prod.fst :=
        List.mem_map_of_mem Prod.fst hmem_nxt
      have hne_cur : nxt ≠ cur := hcur (nxt, k) hmem_nxt
      by_cases hlt : curCost + (w : Cost) < k
      · -- relaxation happens: push the smaller key, record the predecessor
        have hCurTop : curCost ≠ (⊤ : Cost) := by
          intro h
          rw [h, top_add] at hlt
          exact not_top_lt hlt
        have hcurk' : cur ∈ PyDict.keys cf := hcurk hCurTop
        have hedge : g.EdgeRel cur nxt := hnb (nxt, w) (by simp)
        have hinv' : DInv g start (fr.push nxt (curCost + (w : Cost)))
            (cf.set nxt (some cur)) := by
          refine ⟨HeapQueue.idxOk_push nxt _ hIdx, ?_, ?_, PyDict.nodup_keys_set _ _ hNd,
            ?_, ?_, ?_⟩
          · intro e he
            rcases HeapQueue.push_existing_mem hIdx hc he with h | h
            · exact hNodes e h
            · rw [h]
              exact hNodes (nxt, k) hmem_nxt
          · intro e he ht
            rcases HeapQueue.push_existing_mem hIdx hc he with h | h
            · exact PyDict.mem_keys_set_mono _ _ (hFin e h ht)
            · rw [h]
              exact PyDict.mem_keys_set_self cf nxt (some cur)
          · intro x y hxy
            by_cases hxn : x = nxt
            · subst hxn
              rw [PyDict.lookup_set_self] at hxy
              have hyc : y = cur := by
                have := Option.some.inj hxy
                exact (Option.some.inj this).symm
              subst hyc
              refine ⟨PyDict.mem_keys_set_mono _ _ hcurk', ?_, hedge⟩
              intro hm
              obtain ⟨e, he, he1⟩ := List.mem_map.1 hm
              rcases HeapQueue.push_existing_mem hIdx hc he with h | h
              · exact hcur e h he1
              · rw [h] at he1
                exact hne_cur he1
            · rw [PyDict.lookup_set_ne _ _ hxn] at hxy
              obtain ⟨hyk, hyni, hye⟩ := hLink x y hxy
              refine ⟨PyDict.mem_keys_set_mono _ _ hyk, ?_, hye⟩
              intro hm
              obtain ⟨e, he, he1⟩ := List.mem_map.1 hm
              rcases HeapQueue.push_existing_mem hIdx hc he with h | h
              · exact hyni (he1 ▸ List.mem_map_of_mem Prod.fst h)
              · rw [h] at he1
                dsimp only at he1
                rw [he1] at hnxt_items
                exact hyni hnxt_items
          · intro x hx
            by_cases hxn : x = nxt
            · subst hxn
              exact Relation.ReflTransGen.tail (hReach cur hcurk') hedge
            · exact hReach x (PyDict.mem_keys_set_inv hx hxn)
          · intro x hx
            by_cases hxn : x = nxt
            · rw [hxn]
              obtain ⟨l, hl, hlnd, hlk⟩ := hChain cur hcurk'
              have hnl : nxt ∉ l := by
                intro hmem
                rcases CFChain.mem_pred hl nxt hmem with h | ⟨w', hw'⟩
                · exact hne_cur h
                · exact (hLink w' nxt hw').2.1 hnxt_items
              have hl' : CFChain (cf.set nxt (some cur)) cur l :=
                CFChain.congr hl (fun z hz =>
                  PyDict.lookup_set_ne _ _ (fun hz2 => hnl (hz2 ▸ hz)))
              refine ⟨nxt :: l, CFChain.step nxt cur l (PyDict.lookup_set_self _ _ _) hl',
                List.nodup_cons.2 ⟨hnl, hlnd⟩, ?_⟩
              intro z hz
              rcases List.mem_cons.1 hz with h | h
              · rw [h]
                exact PyDict.mem_keys_set_self cf nxt (some cur)
              · exact PyDict.mem_keys_set_mono _ _ (hlk z h)
            · obtain ⟨l, hl, hlnd, hlk⟩ := hChain x (PyDict.mem_keys_set_inv hx hxn)
              have hnl : nxt ∉ l := by
                intro hmem
                rcases CFChain.mem_pred hl nxt hmem with h | ⟨w', hw'⟩
                · exact hxn h.symm
                · exact (hLink w' nxt hw').2.1 hnxt_items
              refine ⟨l, CFChain.congr hl (fun z hz =>
                PyDict.lookup_set_ne _ _ (fun hz2 => hnl (hz2 ▸ hz))),
                hlnd, fun z hz => PyDict.mem_keys_set_mono _ _ (hlk z hz)⟩
        have hcur' : ∀ e ∈ (fr.push nxt (curCost + (w : Cost))).entries, e.1 ≠ cur := by
          intro e he
          rcases HeapQueue.push_existing_mem hIdx hc he with h | h
          · exact hcur e h
          · rw [h]
            exact hne_cur
        have hcurk2 : curCost ≠ (⊤ : Cost) → cur ∈ PyDict.keys (cf.set nxt (some cur)) :=
          fun h => PyDict.mem_keys_set_mono _ _ (hcurk h)
        obtain ⟨fr2, cf2, hrec, hinv2, hlen2, hcur2, hmono2⟩ :=
          ih (fr.push nxt (curCost + (w : Cost))) (cf.set nxt (some cur))
            (fun nb2 h2 => hnb nb2 (by simp [h2])) hinv' hcur' hcurk2
        have hstep : relaxAll cur curCost ((nxt, w) :: rest) (fr, cf) =
            relaxAll cur curCost rest
              (fr.push nxt (curCost + (w : Cost)), cf.set nxt (some cur)) := by
          unfold relaxAll
          rw [List.foldlM_cons]
          dsimp only
          rw [if_pos hc, hgk]
          simp only [bind, Except.bind]
          rw [if_pos hlt]
        refine ⟨fr2, cf2, hstep.trans hrec, hinv2, ?_, hcur2, ?_⟩
        · rw [hlen2, HeapQueue.push_existing_length _ hIdx hc]
        · intro x hx
          exact hmono2 x (PyDict.mem_keys_set_mono _ _ hx)
      · -- no improvement: state unchanged
        obtain ⟨fr2, cf2, hrec, hinv2, hlen2, hcur2, hmono2⟩ :=
          ih fr cf (fun nb2 h2 => hnb nb2 (by simp [h2]))
            ⟨hIdx, hNodes, hFin, hNd, hLink, hReach, hChain⟩ hcur hcurk
        have hstep : relaxAll cur curCost ((nxt, w) :: rest) (fr, cf) =
            relaxAll cur curCost rest (fr, cf) := by
          unfold relaxAll
          rw [List.foldlM_cons]
          dsimp only
          rw [if_pos hc, hgk]
          simp only [bind, Except.bind]
          rw [if_neg hlt]
        exact ⟨fr2, cf2, hstep.trans hrec, hinv2, hlen2, hcur2, hmono2⟩
    · -- the neighbour is no longer in the frontier: nothing happens
      obtain ⟨fr2, cf2, hrec, hinv2, hlen2, hcur2, hmono2⟩ :=
        ih fr cf (fun nb2 h2 => hnb nb2 (by simp [h2])) hinv hcur hcurk
      have hstep : relaxAll cur curCost ((nxt, w) :: rest) (fr, cf) =
          relaxAll cur curCost rest (fr, cf) := by
        unfold relaxAll
        rw [List.foldlM_cons]
        dsimp only
        rw [if_neg hc]
        simp only [bind, Except.bind]
      exact ⟨fr2, cf2, hstep.trans hrec, hinv2, hlen2, hcur2, hmono2⟩

/-- The `while frontier:` loop of `_dijkstra` never raises when started
in an invariant state with fuel covering the heap size, and its final
came-from dictionary has unique, reachable keys carrying duplicate-free
predecessor chains inside the key set. -/
theorem dijkstraLoop_ok {g : DirectedGraph} (hwf : g.WF) (start : Nat) :
    ∀ (fuel : Nat) (frontier : HeapQueue Nat Cost) (pending : List Nat)
      (cf : PyDict Nat (Option Nat)),
      frontier.entries.length ≤ fuel →
      DInv g start frontier cf →
      ∃ cf2, dijkstraLoop g fuel frontier pending cf = .ok cf2 ∧
        (PyDict.keys cf2).Nodup ∧
        (∀ x, x ∈ PyDict.keys cf2 → g.ReachableFrom start x) ∧
        (∀ x, x ∈ PyDict.keys cf2 →
          ∃ l, CFChain cf2 x l ∧ l.Nodup ∧ ∀ z ∈ l, z ∈ PyDict.keys cf2) := by
  intro fuel
  induction fuel with
  | zero =>
    intro frontier pending cf hlen hinv
    have hemp : frontier.entries = [] := List.length_eq_zero.1 (Nat.le_zero.1 hlen)
    rw [dijkstraLoop, if_pos (by simp [hemp])]
    exact ⟨cf, rfl, hinv.2.2.2.1, hinv.2.2.2.2.2.1, hinv.2.2.2.2.2.2⟩
  | succ fuel ih =>
    intro frontier pending cf hlen hinv
    obtain ⟨hIdx, hNodes, hFin, hNd, hLink, hReach, hChain⟩ := hinv
    rw [dijkstraLoop]
    by_cases hemp : frontier.entries.isEmpty
    · rw [if_pos hemp]
      exact ⟨cf, rfl, hNd, hReach, hChain⟩
    · rw [if_neg hemp]
      have hne : frontier.entries ≠ [] := by simpa [List.isEmpty_iff] using hemp
      have hpos : 0 < frontier.entries.length := List.length_pos.2 hne
      obtain ⟨e0, he0, hpop⟩ := HeapQueue.pop_eq hne hIdx
      obtain ⟨cur, cc⟩ := e0
      rw [hpop]
      simp only [bind, Except.bind]
      dsimp only
      by_cases hpe : (pending.filter (fun t => t ≠ cur)).isEmpty
      · rw [if_pos hpe]
        exact ⟨cf, rfl, hNd, hReach, hChain⟩
      · rw [if_neg hpe]
        have hmem0 : (cur, cc) ∈ frontier.entries := HeapQueue.mem_of_getElem?_entry he0
        have hcur_node : cur ∈ g.nodes := hNodes (cur, cc) hmem0
        obtain ⟨nbrd, hlook⟩ :=
          Option.isSome_iff_exists.1 (PyDict.lookup_isSome_iff.2 hcur_node)
        have hnbr : g.neighbors cur = .ok nbrd := by
          unfold neighbors
          rw [hlook]
        rw [hnbr]
        simp only [bind, Except.bind]
        have hnb : ∀ nb ∈ nbrd, g.EdgeRel cur nb.1 := by
          intro nb hm
          have hnd2 := hwf.2 (cur, nbrd) (PyDict.lookup_mem hlook)
          exact ⟨nbrd, nb.2, hlook, PyDict.lookup_of_mem_nodup hnd2 hm⟩
        have hinv2 : DInv g start (HeapQueue.hdown
            ⟨(HeapQueue.hswap frontier 0 (frontier.entries.length - 1)).entries.dropLast,
             fun x => if x = cur then none
                      else (HeapQueue.hswap frontier 0
                        (frontier.entries.length - 1)).indices x⟩ 0) cf := by
          refine ⟨HeapQueue.idxOk_hdown 0 (HeapQueue.idxOk_popped hIdx hne he0),
            ?_, ?_, hNd, ?_, hReach, hChain⟩
          · intro e he
            exact hNodes e (HeapQueue.popped_mem _ he)
          · intro e he ht
            exact hFin e (HeapQueue.popped_mem _ he) ht
          · intro x y hxy
            obtain ⟨hyk, hyni, hye⟩ := hLink x y hxy
            refine ⟨hyk, ?_, hye⟩
            intro hm
            obtain ⟨e, he, he1⟩ := List.mem_map.1 hm
            exact hyni (he1 ▸ List.mem_map_of_mem Prod.fst (HeapQueue.popped_mem _ he))
          done
        have hcur2 : ∀ e ∈ (HeapQueue.hdown
            ⟨(HeapQueue.hswap frontier 0 (frontier.entries.length - 1)).entries.dropLast,
             fun x => if x = cur then none
                      else (HeapQueue.hswap frontier 0
                        (frontier.entries.length - 1)).indices x⟩ 0).entries,
            e.1 ≠ cur := by
          intro e he
          exact HeapQueue.popped_not_mem hIdx hne he0 _ e he
        have hcurk2 : cc ≠ (⊤ : Cost) → cur ∈ PyDict.keys cf :=
          fun ht => hFin (cur, cc) hmem0 ht
        obtain ⟨fr2, cf2, hrel, hinv3, hlen3, hcur3, hmono3⟩ :=
          relaxAll_ok nbrd _ cf hnb hinv2 hcur2 hcurk2
        rw [hrel]
        simp only [bind, Except.bind]
        have hlen4 : fr2.entries.length ≤ fuel := by
          rw [hlen3, HeapQueue.popped_length]
          omega
        obtain ⟨cf3, hrec3, hnd3, hreach3, hchain3⟩ :=
          ih fr2 (pending.filter (fun t => t ≠ cur)) cf2 hlen4 hinv3
        exact ⟨cf3, hrec3, hnd3, hreach3, hchain3⟩

/-- `_dijkstra` never raises when the start node exists: the initial
frontier (every node at `inf`, the start at `0`) satisfies the loop
invariant, and the heap size is exactly the fuel the loop gets. -/
theorem dijkstra_ok {g : DirectedGraph} (hwf : g.WF) {start : Nat}
    (hs : start ∈ g.nodes) (targets : List Nat) :
    ∃ cf2, g.dijkstra start targets = .ok cf2 ∧
      (PyDict.keys cf2).Nodup ∧
      (∀ x, x ∈ PyDict.keys cf2 → g.ReachableFrom start x) ∧
      (∀ x, x ∈ PyDict.keys cf2 →
        ∃ l, CFChain cf2 x l ∧ l.Nodup ∧ ∀ z ∈ l, z ∈ PyDict.keys cf2) := by
  have hnd_es : ((g.nodes.map (fun n => (n, (⊤ : Cost)))).map Prod.fst).Nodup := by
    simp only [List.map_map]
    rw [show (Prod.fst ∘ fun n : Nat => (n, (⊤ : Cost))) = id from rfl, List.map_id]
    exact hwf.1
  have h0 : HeapQueue.idxOk (HeapQueue.ofEntries
      (g.nodes.map (fun n => (n, (⊤ : Cost))))) := HeapQueue.idxOk_ofEntries hnd_es
  have hmem2 : (start, (⊤ : Cost)) ∈ (HeapQueue.ofEntries
      (g.nodes.map (fun n => (n, (⊤ : Cost))))).entries :=
    HeapQueue.ofEntries_mem_rev (List.mem_map_of_mem _ hs)
  obtain ⟨j, hj⟩ := HeapQueue.exists_getElem?_of_mem hmem2
  have hcont : (HeapQueue.ofEntries
      (g.nodes.map (fun n => (n, (⊤ : Cost))))).hcontains start = true := by
    unfold HeapQueue.hcontains
    rw [h0.2 j _ hj]
    rfl
  have hlookup1 : PyDict.lookup [(start, (none : Option Nat))] start = some none := by
    rw [PyDict.lookup, if_pos rfl]
  have hinvF : DInv g start ((HeapQueue.ofEntries
      (g.nodes.map (fun n => (n, (⊤ : Cost))))).push start 0) [(start, none)] := by
    refine ⟨HeapQueue.idxOk_push start 0 h0, ?_, ?_, by simp [PyDict.keys], ?_, ?_, ?_⟩
    · intro e he
      rcases HeapQueue.push_existing_mem h0 hcont he with h | h
      · obtain ⟨n, hn, hne⟩ := List.mem_map.1 (HeapQueue.heapify_mem h)
        rw [← hne]
        exact hn
      · rw [h]
        exact hs
    · intro e he ht
      rcases HeapQueue.push_existing_mem h0 hcont he with h | h
      · obtain ⟨n, hn, hne⟩ := List.mem_map.1 (HeapQueue.heapify_mem h)
        rw [← hne] at ht
        exact absurd rfl ht
      · rw [h]
        simp [PyDict.keys]
    · intro x y hxy
      have hlk : PyDict.lookup [(start, (none : Option Nat))] x =
          if x = start then some none else none := by
        rw [PyDict.lookup]
        by_cases hx : x = start
        · rw [if_pos hx, if_pos hx]
        · rw [if_neg hx, if_neg hx]
          rfl
      rw [hlk] at hxy
      by_cases hx : x = start
      · rw [if_pos hx] at hxy
        exact Option.noConfusion (Option.some.inj hxy)
      · rw [if_neg hx] at hxy
        exact Option.noConfusion hxy
    · intro x hx
      simp [PyDict.keys] at hx
      rw [hx]
      exact Relation.ReflTransGen.refl
    · intro x hx
      simp [PyDict.keys] at hx
      rw [hx]
      exact ⟨[start], CFChain.start start hlookup1, by simp, by simp [PyDict.keys]⟩
  unfold dijkstra
  exact dijkstraLoop_ok hwf start _ _ targets.dedup [(start, none)] le_rfl hinvF

/-- The result-building fold of `single_source_shortest_paths` never
raises: present came-from keys yield a reconstructed path (the chain
bounds the `_construct_path` fuel), absent ones yield `[]`. -/
theorem buildResult_ok {cf2 : PyDict Nat (Option Nat)}
    (hnd : (PyDict.keys cf2).Nodup)
    (hchain : ∀ x, x ∈ PyDict.keys cf2 →
      ∃ l, CFChain cf2 x l ∧ l.Nodup ∧ ∀ z ∈ l, z ∈ PyDict.keys cf2) :
    ∀ (targets : List Nat) (res : PyDict Nat (List Nat)),
      ∃ m, targets.foldlM
          (fun result target =>
            match cf2.lookup target with
            | none => Except.ok (result.set target [])
            | some _ => do
              let path ← constructPath cf2 target
              Except.ok (result.set target path)) res = .ok m ∧
        (∀ t, t ∈ targets ∨ (res.lookup t).isSome → (m.lookup t).isSome) ∧
        (∀ t, t ∉ PyDict.keys cf2 → (t ∈ targets ∨ res.lookup t = some []) →
          m.lookup t = some []) := by
  intro targets
  induction targets with
  | nil =>
    intro res
    refine ⟨res, rfl, ?_, ?_⟩
    · intro t ht
      rcases ht with ht | ht
      · simp at ht
      · exact ht
    · intro t htk ht
      rcases ht with ht | ht
      · simp at ht
      · exact ht
  | cons t0 rest ih =>
    intro res
    by_cases hk : t0 ∈ PyDict.keys cf2
    · obtain ⟨v, hv⟩ := Option.isSome_iff_exists.1 (PyDict.lookup_isSome_iff.2 hk)
      obtain ⟨l, hl, hlnd, hlk⟩ := hchain t0 hk
      have hfl : l.length ≤ cf2.length := by
        have h1 : l.length ≤ (PyDict.keys cf2).length :=
          Partition.length_le_of_nodup_subset hlnd hlk
        simpa [PyDict.keys] using h1
      obtain ⟨p, hp⟩ := constructPathAux_ok hl cf2.length hfl
      have hcp : constructPath cf2 t0 = .ok p.reverse := by
        unfold constructPath
        rw [hp]
        rfl
      obtain ⟨m, hm, hm1, hm2⟩ := ih (res.set t0 p.reverse)
      refine ⟨m, ?_, ?_, ?_⟩
      · rw [List.foldlM_cons, hv]
        dsimp only
        rw [hcp]
        simp only [bind, Except.bind]
        exact hm
      · intro t ht
        by_cases ht0 : t = t0
        · refine hm1 t (Or.inr ?_)
          rw [ht0, PyDict.lookup_set_self]
          rfl
        · rcases ht with ht | ht
          · rcases List.mem_cons.1 ht with ht | ht
            · exact absurd ht ht0
            · exact hm1 t (Or.inl ht)
          · refine hm1 t (Or.inr ?_)
            rw [PyDict.lookup_set_ne _ _ ht0]
            exact ht
      · intro t htk ht
        have ht0 : t ≠ t0 := fun h => htk (h ▸ hk)
        rcases ht with ht | ht
        · rcases List.mem_cons.1 ht with ht | ht
          · exact absurd ht ht0
          · exact hm2 t htk (Or.inl ht)
        · refine hm2 t htk (Or.inr ?_)
          rw [PyDict.lookup_set_ne _ _ ht0]
          exact ht
    · have hv : cf2.lookup t0 = none := PyDict.lookup_eq_none_iff.2 hk
      obtain ⟨m, hm, hm1, hm2⟩ := ih (res.set t0 [])
      refine ⟨m, ?_, ?_, ?_⟩
      · rw [List.foldlM_cons, hv]
        dsimp only
        simp only [bind, Except.bind]
        exact hm
      · intro t ht
        by_cases ht0 : t = t0
        · refine hm1 t (Or.inr ?_)
          rw [ht0, PyDict.lookup_set_self]
          rfl
        · rcases ht with ht | ht
          · rcases List.mem_cons.1 ht with ht | ht
            · exact absurd ht ht0
            · exact hm1 t (Or.inl ht)
          · refine hm1 t (Or.inr ?_)
            rw [PyDict.lookup_set_ne _ _ ht0]
            exact ht
      · intro t htk ht
        by_cases ht0 : t = t0
        · refine hm2 t htk (Or.inr ?_)
          rw [ht0, PyDict.lookup_set_self]
        · rcases ht with ht | ht
          · rcases List.mem_cons.1 ht with ht | ht
            · exact absurd ht ht0
            · exact hm2 t htk (Or.inl ht)
          · refine hm2 t htk (Or.inr ?_)
            rw [PyDict.lookup_set_ne _ _ ht0]
            exact ht

/-- When the start node and all requested targets exist,
`single_source_shortest_paths` succeeds, maps every requested target,
and maps unreachable targets to `[]`. -/
theorem sssp_ok {g : DirectedGraph} (hwf : g.WF) {start : Nat}
    (hs : start ∈ g.nodes) {targets : List Nat}
    (ht : ∀ t ∈ targets, t ∈ g.nodes) :
    ∃ m, g.singleSourceShortestPaths start targets = .ok m ∧
      (∀ t ∈ targets, ∃ p, m.lookup t = some p) ∧
      (∀ t ∈ targets, ¬ g.ReachableFrom start t → m.lookup t = some []) := by
  obtain ⟨cf2, hdij, hnd, hreach, hchain⟩ := dijkstra_ok hwf hs targets
  obtain ⟨m, hfold, hm1, hm2⟩ := buildResult_ok hnd hchain targets []
  refine ⟨m, ?_, ?_, ?_⟩
  · unfold singleSourceShortestPaths
    have h1 : g.adjacency.contains start = true := PyDict.contains_iff_mem_keys.2 hs
    have h2 : targets.all (fun t => g.adjacency.contains t) = true :=
      List.all_eq_true.2 (fun t htm => PyDict.contains_iff_mem_keys.2 (ht t htm))
    rw [if_neg (fun hc => hc h1), if_neg (fun hc => hc h2), hdij]
    simp only [bind, Except.bind]
    exact hfold
  · intro t htm
    exact Option.isSome_iff_exists.1 (hm1 t (Or.inl htm))
  · intro t htm hnr
    have htk : t ∉ PyDict.keys cf2 := fun h => hnr (hreach t h)
    exact hm2 t htk (Or.inl htm)

end DirectedGraph

/-- C5: `single_source_shortest_paths(start, targets)` fails with the
missing-node `ValueError` exactly when `start` or some requested target
is not a node of the graph — this validation is the first thing the
method body does, before any algorithmic work (and by C9 the graph is
never written).  When every referenced node exists the call never
fails: every requested target is mapped, a target unreachable from
`start` is mapped to the empty path rather than an error, and an empty
target collection yields the empty mapping. -/
theorem C5_sssp_validation (g : DirectedGraph) (hwf : g.WF) (start : Nat)
    (targets : List Nat) :
    (g.singleSourceShortestPaths start targets = .error "ValueError: no node" ↔
      (start ∉ g.nodes ∨ ∃ t ∈ targets, t ∉ g.nodes)) ∧
    (start ∈ g.nodes → (∀ t ∈ targets, t ∈ g.nodes) →
      ∃ m, g.singleSourceShortestPaths start targets = .ok m ∧
        (∀ t ∈ targets, ∃ p, PyDict.lookup m t = some p) ∧
        (∀ t ∈ targets, ¬ g.ReachableFrom start t → PyDict.lookup m t = some [])) ∧
    (start ∈ g.nodes → g.singleSourceShortestPaths start [] = .ok []) := by
  refine ⟨⟨?_, ?_⟩, ?_, ?_⟩
  · intro herr
    by_contra hval
    push_neg at hval
    obtain ⟨hs, ht⟩ := hval
    obtain ⟨m, hok, h1, h2⟩ := DirectedGraph.sssp_ok hwf hs ht
    rw [hok] at herr
    exact Except.noConfusion herr
  · intro hval
    unfold DirectedGraph.singleSourceShortestPaths
    by_cases hs : start ∈ g.nodes
    · have h1 : g.adjacency.contains start = true := PyDict.contains_iff_mem_keys.2 hs
      rcases hval with hval | ⟨t, htm, htn⟩
      · exact absurd hs hval
      · have h2 : ¬(targets.all (fun t => g.adjacency.contains t) = true) :=
          fun hc => htn (PyDict.contains_iff_mem_keys.1 (List.all_eq_true.1 hc t htm))
        rw [if_neg (fun hc => hc h1), if_pos h2]
    · have h1 : ¬(g.adjacency.contains start = true) :=
        fun hc => hs (PyDict.contains_iff_mem_keys.1 hc)
      rw [if_pos h1]
  · intro hs ht
    exact DirectedGraph.sssp_ok hwf hs ht
  · intro hs
    obtain ⟨cf2, hdij, hnd2, hr2, hc2⟩ := DirectedGraph.dijkstra_ok hwf hs ([] : List Nat)
    unfold DirectedGraph.singleSourceShortestPaths
    have h1 : g.adjacency.contains start = true := PyDict.contains_iff_mem_keys.2 hs
    rw [if_neg (fun hc => hc h1), if_neg (fun hc => hc rfl), hdij]
    simp only [bind, Except.bind]
    rfl

/-- C5 witness: the C1 example graph, start `1`, targets `[4]`. -/
theorem C5_sssp_validation_witness :
    (exampleGraphC1.singleSourceShortestPaths 1 [4] = .error "ValueError: no node" ↔
      (1 ∉ exampleGraphC1.nodes ∨ ∃ t ∈ [4], t ∉ exampleGraphC1.nodes)) ∧
    (1 ∈ exampleGraphC1.nodes → (∀ t ∈ [4], t ∈ exampleGraphC1.nodes) →
      ∃ m, exampleGraphC1.singleSourceShortestPaths 1 [4] = .ok m ∧
        (∀ t ∈ [4], ∃ p, PyDict.lookup m t = some p) ∧
        (∀ t ∈ [4], ¬ exampleGraphC1.ReachableFrom 1 t →
          PyDict.lookup m t = some [])) ∧
    (1 ∈ exampleGraphC1.nodes → exampleGraphC1.singleSourceShortestPaths 1 [] = .ok []) :=
  C5_sssp_validation exampleGraphC1 ⟨by decide, by decide⟩ 1 [4]

/-! ### Claim C2: Kruskal correctness.

Counting components of an edge set goes through the repository's own
union-find: `ufAdd` folds `union` over the edges, `rootCountP` counts
the groups.  The abstract side is `EConn`, the closure of edge steps. -/

theorem pairOf_comm (a b : Nat) : pairOf a b = pairOf b a := by
  unfold pairOf
  by_cases hab : a = b
  · rw [if_pos hab, if_pos hab.symm, hab]
  · rw [if_neg hab, if_neg (Ne.symm hab)]
    by_cases hlt : a < b
    · rw [if_pos hlt, if_neg (by omega)]
    · rw [if_neg hlt, if_pos (by omega)]

theorem pairOf_eq_two {x y a b : Nat} (hxy : x ≠ y) (hab : a < b)
    (h : pairOf x y = [a, b]) : (x = a ∧ y = b) ∨ (x = b ∧ y = a) := by
  unfold pairOf at h
  rw [if_neg hxy] at h
  by_cases hlt : x < y
  · rw [if_pos hlt] at h
    injection h with h1 h2
    injection h2 with h2 _
    exact Or.inl ⟨h1, h2⟩
  · rw [if_neg hlt] at h
    injection h with h1 h2
    injection h2 with h2 _
    exact Or.inr ⟨h2, h1⟩

theorem EStep.stepSymm {E : List (List Nat × Int)} {x y : Nat}
    (h : EStep E x y) : EStep E y x := by
  obtain ⟨hne, e, he, hp⟩ := h
  exact ⟨Ne.symm hne, e, he, by rw [hp, pairOf_comm]⟩

theorem EStep.stepMono {E E' : List (List Nat × Int)} (hsub : ∀ e ∈ E, e ∈ E')
    {x y : Nat} (h : EStep E x y) : EStep E' x y := by
  obtain ⟨hne, e, he, hp⟩ := h
  exact ⟨hne, e, hsub e he, hp⟩

theorem EConn.symm {E : List (List Nat × Int)} {x y : Nat}
    (h : EConn E x y) : EConn E y x :=
  (Relation.ReflTransGen.symmetric (fun _ _ hs => EStep.stepSymm hs)) h

theorem EConn.mono {E E' : List (List Nat × Int)} (hsub : ∀ e ∈ E, e ∈ E')
    {x y : Nat} (h : EConn E x y) : EConn E' x y :=
  Relation.ReflTransGen.mono (fun _ _ hs => EStep.stepMono hsub hs) h

/-- Collapse a closure whose base already maps into a closure. -/
theorem rtc_absorb {α : Type} {r s : α → α → Prop}
    (h : ∀ x y, r x y → Relation.ReflTransGen s x y) :
    ∀ {x y}, Relation.ReflTransGen r x y → Relation.ReflTransGen s x y := by
  intro x y hxy
  induction hxy with
  | refl => exact Relation.ReflTransGen.refl
  | tail hab hbc ih => exact Relation.ReflTransGen.trans ih (h _ _ hbc)

theorem EConn_nil {x y : Nat} (h : EConn [] x y) : x = y := by
  induction h with
  | refl => rfl
  | tail hab hbc ih =>
    obtain ⟨_, e, he, _⟩ := hbc
    cases he

namespace Partition

variable {I : Type} [DecidableEq I]

theorem RootOf.mem_keys_left {P : PyDict I I} {x r : I} (h : RootOf P x r) :
    x ∈ PyDict.keys P := by
  obtain ⟨l, hc, _⟩ := h
  cases hc with
  | root _ hx => exact PyDict.mem_keys_of_lookup hx
  | step _ y t hx _ _ => exact PyDict.mem_keys_of_lookup hx

theorem RootOf.root_lookup {P : PyDict I I} {x r : I} (h : RootOf P x r) :
    P.lookup r = some r := by
  obtain ⟨l, hc, hl⟩ := h
  exact hc.getLast_root r hl

theorem RootOf.mem_keys_right {P : PyDict I I} {x r : I} (h : RootOf P x r) :
    r ∈ PyDict.keys P := PyDict.mem_keys_of_lookup h.root_lookup

theorem rootOf_total {p : Partition I} (hw : WFP p) {x : I}
    (hx : x ∈ PyDict.keys p.parents) : ∃ r, RootOf p.parents x r := by
  obtain ⟨l, hc, hnd, hsub⟩ := hw.2.2 x hx
  obtain ⟨r, hr⟩ := Option.isSome_iff_exists.1 (List.getLast?_isSome.2 hc.ne_nil)
  exact ⟨r, l, hc, hr⟩

theorem sameRoot_refl {p : Partition I} (hw : WFP p) {x : I}
    (hx : x ∈ PyDict.keys p.parents) : SameRoot p.parents x x := by
  obtain ⟨r, hr⟩ := rootOf_total hw hx
  exact ⟨r, hr, hr⟩

theorem sameRoot_symm {P : PyDict I I} {x y : I} (h : SameRoot P x y) :
    SameRoot P y x := by
  obtain ⟨r, h1, h2⟩ := h
  exact ⟨r, h2, h1⟩

theorem sameRoot_trans {P : PyDict I I} {x y z : I} (h1 : SameRoot P x y)
    (h2 : SameRoot P y z) : SameRoot P x z := by
  obtain ⟨r, ha, hb⟩ := h1
  obtain ⟨r2, hc, hd⟩ := h2
  rw [hb.unique hc] at ha
  exact ⟨r2, ha, hd⟩

theorem sameRoot_mem_left {P : PyDict I I} {x y : I} (h : SameRoot P x y) :
    x ∈ PyDict.keys P := by
  obtain ⟨r, h1, _⟩ := h
  exact h1.mem_keys_left

theorem sameRoot_mem_right {P : PyDict I I} {x y : I} (h : SameRoot P x y) :
    y ∈ PyDict.keys P := by
  obtain ⟨r, _, h2⟩ := h
  exact h2.mem_keys_left

/-- Under well-formedness, being one's own parent is the same as being
one's own root. -/
theorem root_iff_lookup {p : Partition I} (hw : WFP p) {x : I}
    (hx : x ∈ PyDict.keys p.parents) :
    p.parents.lookup x = some x ↔ RootOf p.parents x x := by
  constructor
  · intro h
    exact ⟨[x], .root x h, rfl⟩
  · intro h
    obtain ⟨c, hc, hnd, _⟩ := hw.2.2 x hx
    obtain ⟨rc, hrc⟩ := Option.isSome_iff_exists.1 (List.getLast?_isSome.2 hc.ne_nil)
    have hx2 : rc = x := (RootOf.unique ⟨c, hc, hrc⟩ h)
    subst hx2
    cases hc with
    | root _ h0 => exact h0
    | step _ y t hlk hne hct =>
      exfalso
      rw [getLast?_cons_ne _ hct.ne_nil] at hrc
      have : rc ∈ t := mem_of_getLast?_eq hrc
      exact (List.nodup_cons.1 hnd).1 this

theorem rootD_of_chain {P : PyDict I I} {x : I} {l : List I}
    (h : PChain P x l) :
    ∀ {f : Nat}, l.length ≤ f → rootD P f x = l.getLast? := by
  induction h with
  | root x1 hx =>
    intro f hf
    cases f with
    | zero => simp at hf
    | succ f2 =>
      rw [rootD, hx]
      dsimp only
      rw [if_pos rfl]
      rfl
  | step x1 y t hx hne hct ih =>
    intro f hf
    cases f with
    | zero => simp at hf
    | succ f2 =>
      rw [rootD, hx]
      dsimp only
      rw [if_neg (Ne.symm hne), ih (by simp at hf; omega),
        getLast?_cons_ne _ hct.ne_nil]

/-- The pure root walk computes the root of every key. -/
theorem rootFn_rootOf {p : Partition I} (hw : WFP p) {x : I}
    (hx : x ∈ PyDict.keys p.parents) : RootOf p.parents x (rootFn p.parents x) := by
  obtain ⟨l, hc, hnd, hsub⟩ := hw.2.2 x hx
  have hlen : l.length ≤ p.parents.length := by
    have := length_le_of_nodup_subset hnd hsub
    simpa [PyDict.keys] using this
  obtain ⟨r, hr⟩ := Option.isSome_iff_exists.1 (List.getLast?_isSome.2 hc.ne_nil)
  have : rootD p.parents p.parents.length x = some r := by
    rw [rootD_of_chain hc hlen, hr]
  unfold rootFn
  rw [this]
  exact ⟨l, hc, hr⟩

theorem rootFn_eq {p : Partition I} (hw : WFP p) {x r : I}
    (hx : x ∈ PyDict.keys p.parents) (h : RootOf p.parents x r) :
    rootFn p.parents x = r := (rootFn_rootOf hw hx).unique h

/-- Flipping exactly one element of a duplicate-free list from the
filter decreases the filtered length by one. -/
theorem filter_length_flip {α : Type} [DecidableEq α] {l : List α} {k : α}
    {p q : α → Bool} (hnd : l.Nodup) (hk : k ∈ l) (hpk : p k = true)
    (hqk : q k = false) (hagree : ∀ x ∈ l, x ≠ k → q x = p x) :
    (l.filter q).length + 1 = (l.filter p).length := by
  induction l with
  | nil => cases hk
  | cons a rest ih =>
    obtain ⟨hna, hnr⟩ := List.nodup_cons.1 hnd
    by_cases hak : a = k
    · subst hak
      have hrest : rest.filter q = rest.filter p := by
        apply List.filter_congr
        intro x hx
        exact hagree x (by simp [hx]) (fun h => hna (h ▸ hx))
      rw [List.filter_cons, List.filter_cons, hpk, hqk]
      simp [hrest]
    · have hkr : k ∈ rest := by
        rcases List.mem_cons.1 hk with h | h
        · exact absurd h.symm hak
        · exact h
      have haq : q a = p a := hagree a (by simp) hak
      have hrec := ih hnr hkr (fun x hx hxk => hagree x (by simp [hx]) hxk)
      rw [List.filter_cons, List.filter_cons, haq]
      cases hpa : p a <;> simp [hpa, hrec] <;> omega

/-- The root count only depends on the key list and the per-key
self-parent status. -/
theorem rootCountP_congr {P Q : PyDict I I}
    (hkeys : PyDict.keys Q = PyDict.keys P)
    (h : ∀ x ∈ PyDict.keys P, (Q.lookup x = some x ↔ P.lookup x = some x)) :
    rootCountP Q = rootCountP P := by
  unfold rootCountP
  rw [hkeys]
  rw [List.filter_congr (fun x hx => decide_eq_decide.2 (h x hx))]

/-- Root status is determined by the root relation, which `find`
preserves. -/
theorem root_status_iff {p p2 : Partition I} (hw : WFP p) (hw2 : WFP p2)
    (hkeys : PyDict.keys p2.parents = PyDict.keys p.parents)
    (hiff : ∀ z r, RootOf p.parents z r ↔ RootOf p2.parents z r)
    {z : I} (hz : z ∈ PyDict.keys p.parents) :
    p2.parents.lookup z = some z ↔ p.parents.lookup z = some z := by
  rw [root_iff_lookup hw2 (hkeys ▸ hz), root_iff_lookup hw hz]
  exact (hiff z z).symm

/-- Re-pointing a root under another root removes exactly one root. -/
theorem rootCountP_set_nonroot {P : PyDict I I} {small big : I}
    (hnd : (PyDict.keys P).Nodup) (hsm : P.lookup small = some small)
    (hbs : small ≠ big) :
    rootCountP (P.set small big) + 1 = rootCountP P := by
  have hk : small ∈ PyDict.keys P := PyDict.mem_keys_of_lookup hsm
  unfold rootCountP
  rw [PyDict.keys_set_of_mem _ hk]
  refine filter_length_flip hnd hk ?_ ?_ ?_
  · simp [hsm]
  · rw [decide_eq_false_iff_not, PyDict.lookup_set_self]
    intro h
    exact hbs (Option.some.inj h).symm
  · intro x hx hxk
    rw [decide_eq_decide, PyDict.lookup_set_ne _ _ hxk]

theorem keys_foldl_set_eq {α β : Type} [DecidableEq α] (f : α → β) :
    ∀ (V : List α) (d : PyDict α β), V.Nodup → (∀ i ∈ V, i ∉ PyDict.keys d) →
    PyDict.keys (V.foldl (fun d i => d.set i (f i)) d) = PyDict.keys d ++ V := by
  intro V
  induction V with
  | nil =>
    intro d _ _
    simp
  | cons v rest ih =>
    intro d hnd hdisj
    obtain ⟨hv, hndr⟩ := List.nodup_cons.1 hnd
    have hvd : v ∉ PyDict.keys d := hdisj v (by simp)
    rw [List.foldl_cons, ih (d.set v (f v)) hndr ?_]
    · rw [PyDict.keys_set, if_neg hvd, List.append_assoc]
      rfl
    · intro i hi
      rw [PyDict.keys_set, if_neg hvd]
      intro hmem
      rcases List.mem_append.1 hmem with h | h
      · exact hdisj i (by simp [hi]) h
      · rw [List.mem_singleton] at h
        exact hv (h ▸ hi)

theorem keys_init (V : List I) (hnd : V.Nodup) :
    PyDict.keys (init V).parents = V := by
  show PyDict.keys (V.foldl (fun d i => d.set i i) []) = V
  rw [keys_foldl_set_eq (fun i => i) V [] hnd (by intro i _ h; simp [PyDict.keys] at h)]
  rfl

theorem rootCountP_init (V : List I) (hnd : V.Nodup) :
    rootCountP (init V).parents = V.length := by
  unfold rootCountP
  rw [keys_init V hnd]
  have hall : ∀ x ∈ V, (fun k =>
      decide (PyDict.lookup (init V).parents k = some k)) x = true := by
    intro x hx
    have h1 : PyDict.lookup (init V).parents x =
        if x ∈ V then some x else PyDict.lookup ([] : PyDict I I) x :=
      PyDict.lookup_foldl_set_fn (fun i => i) V [] x
    rw [if_pos hx] at h1
    simp [h1]
  rw [List.filter_eq_self.2 hall]

/-- Attaching the root `small` under the root `big` maps every root
through `if r = small then big else r`. -/
theorem rootOf_link {p : Partition I} (hw : WFP p) {small big : I}
    (hbig : p.parents.lookup big = some big)
    (hsmall : p.parents.lookup small = some small)
    (hne : small ≠ big) {z r0 : I} (hz : z ∈ PyDict.keys p.parents)
    (h : RootOf p.parents z r0) :
    RootOf (p.parents.set small big) z (if r0 = small then big else r0) := by
  obtain ⟨c, hc, hcnd, _⟩ := hw.2.2 z hz
  have hlast : c.getLast? = some r0 := by
    obtain ⟨rc, hrc⟩ := Option.isSome_iff_exists.1 (List.getLast?_isSome.2 hc.ne_nil)
    have h2 : RootOf p.parents z rc := ⟨c, hc, hrc⟩
    rw [h2.unique h] at hrc
    exact hrc
  obtain ⟨c3, hc3, _, _, hmap⟩ := chain_link hbig hsmall hne hc hcnd
  exact ⟨c3, hc3, hmap r0 hlast⟩

/-- The fine-grained contract of `union`: the two groups are merged and
nothing else changes — the same-root relation grows by exactly the
(a,b)-bridge, and the group count drops by one exactly when the groups
were distinct. -/
theorem union_ok2 {p : Partition I} {a b : I} (hw : WFP p)
    (ha : a ∈ PyDict.keys p.parents) (hb : b ∈ PyDict.keys p.parents) :
    ∃ p3, p.union a b = .ok p3 ∧ WFP p3 ∧
      PyDict.keys p3.parents = PyDict.keys p.parents ∧
      (∀ x y, SameRoot p3.parents x y ↔ (SameRoot p.parents x y ∨
        (SameRoot p.parents x a ∧ SameRoot p.parents b y) ∨
        (SameRoot p.parents x b ∧ SameRoot p.parents a y))) ∧
      (SameRoot p.parents a b → rootCountP p3.parents = rootCountP p.parents) ∧
      (¬ SameRoot p.parents a b → rootCountP p3.parents + 1 = rootCountP p.parents) := by
  obtain ⟨r1, p1, hf1, hws1, hkeys1, hroot1, hlk1, hstab1, hiff1, hwf1⟩ := find_ok hw ha
  have hb1 : b ∈ PyDict.keys p1.parents := hkeys1 ▸ hb
  obtain ⟨r2, p2, hf2, hws2, hkeys2, hroot2, hlk2, hstab2, hiff2, hwf2⟩ := find_ok hwf1 hb1
  have hlk1' : p2.parents.lookup r1 = some r1 := hstab2 r1 hlk1
  have hkeys12 : PyDict.keys p2.parents = PyDict.keys p.parents := by
    rw [hkeys2, hkeys1]
  have hiff12 : ∀ z r, RootOf p.parents z r ↔ RootOf p2.parents z r :=
    fun z r => (hiff1 z r).trans (hiff2 z r)
  have hsr12 : ∀ x y, SameRoot p2.parents x y ↔ SameRoot p.parents x y := by
    intro x y
    constructor
    · intro ⟨r, h1, h2⟩
      exact ⟨r, (hiff12 x r).2 h1, (hiff12 y r).2 h2⟩
    · intro ⟨r, h1, h2⟩
      exact ⟨r, (hiff12 x r).1 h1, (hiff12 y r).1 h2⟩
  have hcount12 : rootCountP p2.parents = rootCountP p.parents :=
    rootCountP_congr hkeys12 (fun z hz => root_status_iff hw hwf2 hkeys12 hiff12 hz)
  have hrootA : RootOf p.parents a r1 := hroot1
  have hrootB : RootOf p.parents b r2 := (hiff1 b r2).2 hroot2
  have hrootA2 : RootOf p2.parents a r1 := (hiff12 a r1).1 hrootA
  have hrootB2 : RootOf p2.parents b r2 := (hiff12 b r2).1 hrootB
  by_cases hr : r1 = r2
  · subst hr
    have hsab : SameRoot p.parents a b := ⟨r1, hrootA, hrootB⟩
    refine ⟨p2, ?_, hwf2, hkeys12, ?_, fun _ => hcount12, fun hn => absurd hsab hn⟩
    · unfold union
      rw [hf1]
      simp only [bind, Except.bind]
      rw [hf2]
      simp
    · intro x y
      rw [hsr12]
      constructor
      · exact Or.inl
      · intro h
        rcases h with h | ⟨h1, h2⟩ | ⟨h1, h2⟩
        · exact h
        · exact sameRoot_trans (sameRoot_trans h1 hsab) h2
        · exact sameRoot_trans (sameRoot_trans h1 (sameRoot_symm hsab)) h2
  · have hr1k : r1 ∈ PyDict.keys p2.parents := PyDict.mem_keys_of_lookup hlk1'
    have hr2k : r2 ∈ PyDict.keys p2.parents := PyDict.mem_keys_of_lookup hlk2
    obtain ⟨w1, hw1⟩ : ∃ w1, p2.weights.lookup r1 = some w1 := by
      have := hwf2.2.1 r1 hr1k
      rw [← PyDict.lookup_isSome_iff] at this
      exact Option.isSome_iff_exists.1 this
    obtain ⟨w2, hw2⟩ : ∃ w2, p2.weights.lookup r2 = some w2 := by
      have := hwf2.2.1 r2 hr2k
      rw [← PyDict.lookup_isSome_iff] at this
      exact Option.isSome_iff_exists.1 this
    have hstep : p.union a b = .ok
        { parents := p2.parents.set (if w1 < w2 then r1 else r2) (if w1 < w2 then r2 else r1)
          weights := p2.weights.set (if w1 < w2 then r2 else r1) (w1 + w2) } := by
      unfold union
      rw [hf1]
      simp only [bind, Except.bind]
      rw [hf2]
      simp only [hw1, hw2]
      simp [hr]
    set big := if w1 < w2 then r2 else r1 with hbigdef
    set small := if w1 < w2 then r1 else r2 with hsmalldef
    have hbigr : p2.parents.lookup big = some big := by
      by_cases hlt : w1 < w2 <;> simp [hbigdef, hlt, hlk1', hlk2]
    have hsmallr : p2.parents.lookup small = some small := by
      by_cases hlt : w1 < w2 <;> simp [hsmalldef, hlt, hlk1', hlk2]
    have hbs : small ≠ big := by
      by_cases hlt : w1 < w2 <;> simp [hbigdef, hsmalldef, hlt, hr, Ne.symm hr]
    have hsb : (small = r1 ∧ big = r2) ∨ (small = r2 ∧ big = r1) := by
      by_cases hlt : w1 < w2 <;> simp [hbigdef, hsmalldef, hlt]
    have hsk : small ∈ PyDict.keys p2.parents := PyDict.mem_keys_of_lookup hsmallr
    have hbk : big ∈ PyDict.keys p2.parents := PyDict.mem_keys_of_lookup hbigr
    have hkeys3 : PyDict.keys (p2.parents.set small big) = PyDict.keys p2.parents :=
      PyDict.keys_set_of_mem _ hsk
    have hnsab : ¬ SameRoot p.parents a b := by
      intro ⟨r, h1, h2⟩
      rw [h1.unique hrootA] at h2
      exact hr (h2.unique hrootB)
    have hwf3 : WFP (⟨p2.parents.set small big,
        p2.weights.set big (w1 + w2)⟩ : Partition I) := by
      refine ⟨?_, ?_, ?_⟩
      · show (PyDict.keys (p2.parents.set small big)).Nodup
        rw [hkeys3]
        exact hwf2.1
      · intro x hx
        show x ∈ PyDict.keys (p2.weights.set big (w1 + w2))
        have hbw : big ∈ PyDict.keys p2.weights := hwf2.2.1 big hbk
        rw [PyDict.keys_set_of_mem _ hbw]
        apply hwf2.2.1
        rw [hkeys3] at hx
        exact hx
      · intro x hx
        rw [hkeys3] at hx
        obtain ⟨c, hc, hcnd, hcsub⟩ := hwf2.2.2 x hx
        obtain ⟨c3, hc3, hnd3, hsub3, _⟩ := chain_link hbigr hsmallr hbs hc hcnd
        refine ⟨c3, hc3, hnd3, ?_⟩
        intro u hu
        show u ∈ PyDict.keys (p2.parents.set small big)
        rw [hkeys3]
        rcases hsub3 u hu with h1 | h1
        · exact hcsub u h1
        · exact h1 ▸ hbk
    refine ⟨_, hstep, hwf3, ?_, ?_, fun hsab => absurd hsab hnsab, fun _ => ?_⟩
    · show PyDict.keys (p2.parents.set small big) = PyDict.keys p.parents
      rw [hkeys3, hkeys12]
    · intro x y
      constructor
      · intro ⟨rr, h1, h2⟩
        have hxk : x ∈ PyDict.keys p2.parents := by
          have := h1.mem_keys_left
          rw [hkeys3] at this
          exact this
        have hyk : y ∈ PyDict.keys p2.parents := by
          have := h2.mem_keys_left
          rw [hkeys3] at this
          exact this
        obtain ⟨rx, hrx⟩ := rootOf_total hwf2 hxk
        obtain ⟨ry, hry⟩ := rootOf_total hwf2 hyk
        have hx3 := rootOf_link hwf2 hbigr hsmallr hbs hxk hrx
        have hy3 := rootOf_link hwf2 hbigr hsmallr hbs hyk hry
        have he1 : rr = if rx = small then big else rx := h1.unique hx3
        have he2 : rr = if ry = small then big else ry := h2.unique hy3
        have hsubst : (if rx = small then big else rx) =
            (if ry = small then big else ry) := by rw [← he1, ← he2]
        have hxa : rx = r1 → SameRoot p.parents x a :=
          fun h => (hsr12 x a).1 ⟨r1, h ▸ hrx, hrootA2⟩
        have hxb : rx = r2 → SameRoot p.parents x b :=
          fun h => (hsr12 x b).1 ⟨r2, h ▸ hrx, hrootB2⟩
        have hya : ry = r1 → SameRoot p.parents a y :=
          fun h => (hsr12 a y).1 ⟨r1, hrootA2, h ▸ hry⟩
        have hyb : ry = r2 → SameRoot p.parents b y :=
          fun h => (hsr12 b y).1 ⟨r2, hrootB2, h ▸ hry⟩
        by_cases hxs : rx = small
        · by_cases hys : ry = small
          · exact Or.inl ((hsr12 x y).1 ⟨rx, hrx, (hys.trans hxs.symm) ▸ hry⟩)
          · rw [if_pos hxs, if_neg hys] at hsubst
            rcases hsb with ⟨hs1, hb2⟩ | ⟨hs2, hb1⟩
            · exact Or.inr (Or.inl ⟨hxa (hxs.trans hs1),
                hyb (by rw [← hsubst, hb2])⟩)
            · exact Or.inr (Or.inr ⟨hxb (hxs.trans hs2),
                hya (by rw [← hsubst, hb1])⟩)
        · by_cases hys : ry = small
          · rw [if_neg hxs, if_pos hys] at hsubst
            rcases hsb with ⟨hs1, hb2⟩ | ⟨hs2, hb1⟩
            · exact Or.inr (Or.inr ⟨hxb (by rw [hsubst, hb2]),
                hya (hys.trans hs1)⟩)
            · exact Or.inr (Or.inl ⟨hxa (by rw [hsubst, hb1]),
                hyb (hys.trans hs2)⟩)
          · rw [if_neg hxs, if_neg hys] at hsubst
            exact Or.inl ((hsr12 x y).1 ⟨rx, hrx, hsubst ▸ hry⟩)
      · intro h
        have hcore : ∀ u v, SameRoot p2.parents u v →
            SameRoot (p2.parents.set small big) u v := by
          intro u v ⟨r, h1, h2⟩
          have huk : u ∈ PyDict.keys p2.parents := h1.mem_keys_left
          have hvk : v ∈ PyDict.keys p2.parents := h2.mem_keys_left
          exact ⟨if r = small then big else r,
            rootOf_link hwf2 hbigr hsmallr hbs huk h1,
            rootOf_link hwf2 hbigr hsmallr hbs hvk h2⟩
        have hab3 : SameRoot (p2.parents.set small big) a b := by
          have ha3 := rootOf_link hwf2 hbigr hsmallr hbs
            (hkeys12 ▸ ha) hrootA2
          have hb3 := rootOf_link hwf2 hbigr hsmallr hbs
            (hkeys12 ▸ hb) hrootB2
          refine ⟨big, ?_, ?_⟩
          · rcases hsb with ⟨hs1, hb2⟩ | ⟨hs2, hb1⟩
            · rwa [if_pos hs1.symm] at ha3
            · rw [if_neg, ← hb1] at ha3
              · exact ha3
              · rw [← hs2] at hr
                exact hr
          · rcases hsb with ⟨hs1, hb2⟩ | ⟨hs2, hb1⟩
            · rw [if_neg, ← hb2] at hb3
              · exact hb3
              · rw [← hs1] at hr
                exact fun hh => hr hh.symm
            · rwa [if_pos hs2.symm] at hb3
        rcases h with h | ⟨h1, h2⟩ | ⟨h1, h2⟩
        · exact hcore x y ((hsr12 x y).2 h)
        · exact sameRoot_trans (sameRoot_trans (hcore x a ((hsr12 x a).2 h1)) hab3)
            (hcore b y ((hsr12 b y).2 h2))
        · exact sameRoot_trans (sameRoot_trans (hcore x b ((hsr12 x b).2 h1))
            (sameRoot_symm hab3)) (hcore a y ((hsr12 a y).2 h2))
    · show rootCountP (p2.parents.set small big) + 1 = rootCountP p.parents
      rw [rootCountP_set_nonroot hwf2.1 hsmallr hbs]
      exact hcount12

end Partition

/-- Injective images of duplicate-free lists are duplicate-free. -/
theorem nodup_map_on {α β : Type} {l : List α} {f : α → β} (hl : l.Nodup)
    (hinj : ∀ x ∈ l, ∀ y ∈ l, f x = f y → x = y) : (l.map f).Nodup := by
  induction l with
  | nil => exact List.nodup_nil
  | cons a rest ih =>
    obtain ⟨hna, hnr⟩ := List.nodup_cons.1 hl
    rw [List.map_cons, List.nodup_cons]
    constructor
    · intro hmem
      obtain ⟨x, hx, hfx⟩ := List.mem_map.1 hmem
      rw [hinj x (by simp [hx]) a (by simp) hfx] at hx
      exact hna hx
    · exact ih hnr (fun x hx y hy => hinj x (by simp [hx]) y (by simp [hy]))

theorem two_distinct_of_length {α : Type} {l : List α} (hnd : l.Nodup)
    (hlen : 2 ≤ l.length) : ∃ x ∈ l, ∃ y ∈ l, x ≠ y := by
  cases l with
  | nil => simp at hlen
  | cons a rest =>
    cases rest with
    | nil => simp at hlen
    | cons b rest2 =>
      refine ⟨a, by simp, b, by simp, ?_⟩
      intro h
      rw [h] at hnd
      exact (List.nodup_cons.1 hnd).1 (by simp)

namespace Partition

variable {I : Type} [DecidableEq I]

/-- A partition whose same-root relation is contained in another's has
at least as many groups. -/
theorem rootCount_le_of_sub {p q : Partition I} (hwp : WFP p) (hwq : WFP q)
    (hkeys : PyDict.keys q.parents = PyDict.keys p.parents)
    (hsub : ∀ x y, SameRoot p.parents x y → SameRoot q.parents x y) :
    rootCountP q.parents ≤ rootCountP p.parents := by
  unfold rootCountP
  rw [hkeys]
  have hmap : ∀ z ∈ (PyDict.keys p.parents).filter
      (fun k => decide (PyDict.lookup q.parents k = some k)),
      rootFn p.parents z ∈ (PyDict.keys p.parents).filter
        (fun k => decide (PyDict.lookup p.parents k = some k)) := by
    intro z hz
    obtain ⟨hzk, _⟩ := List.mem_filter.1 hz
    have hroot := rootFn_rootOf hwp hzk
    rw [List.mem_filter]
    exact ⟨hroot.mem_keys_right, by simp [hroot.root_lookup]⟩
  have hinj : ∀ x ∈ (PyDict.keys p.parents).filter
      (fun k => decide (PyDict.lookup q.parents k = some k)),
      ∀ y ∈ (PyDict.keys p.parents).filter
        (fun k => decide (PyDict.lookup q.parents k = some k)),
      rootFn p.parents x = rootFn p.parents y → x = y := by
    intro x hx y hy hf
    obtain ⟨hxk, hxr⟩ := List.mem_filter.1 hx
    obtain ⟨hyk, hyr⟩ := List.mem_filter.1 hy
    have hsx : SameRoot p.parents x y :=
      ⟨rootFn p.parents x, rootFn_rootOf hwp hxk, hf ▸ rootFn_rootOf hwp hyk⟩
    obtain ⟨rr, h1, h2⟩ := hsub x y hsx
    have hx1 : RootOf q.parents x x := ⟨[x], .root x (by simpa using hxr), rfl⟩
    have hy1 : RootOf q.parents y y := ⟨[y], .root y (by simpa using hyr), rfl⟩
    rw [← h1.unique hx1, ← h2.unique hy1]
  calc ((PyDict.keys p.parents).filter
      (fun k => decide (PyDict.lookup q.parents k = some k))).length
      = (((PyDict.keys p.parents).filter
          (fun k => decide (PyDict.lookup q.parents k = some k))).map
          (rootFn p.parents)).length := (List.length_map _ _).symm
    _ ≤ _ := length_le_of_nodup_subset
        (nodup_map_on (hwp.1.filter _) hinj)
        (by
          intro y hy
          obtain ⟨z, hz, hfz⟩ := List.mem_map.1 hy
          exact hfz ▸ hmap z hz)

theorem rootCount_pos {p : Partition I} (hw : WFP p)
    (hne : PyDict.keys p.parents ≠ []) : 1 ≤ rootCountP p.parents := by
  obtain ⟨x, hx⟩ := List.exists_mem_of_ne_nil _ hne
  obtain ⟨r, hr⟩ := rootOf_total hw hx
  have : r ∈ (PyDict.keys p.parents).filter
      (fun k => decide (PyDict.lookup p.parents k = some k)) :=
    List.mem_filter.2 ⟨hr.mem_keys_right, by simp [hr.root_lookup]⟩
  unfold rootCountP
  exact List.length_pos.2 (fun hnil => by rw [hnil] at this; cases this)

theorem rootCount_le_one {p : Partition I} (hw : WFP p)
    (hall : ∀ x ∈ PyDict.keys p.parents, ∀ y ∈ PyDict.keys p.parents,
      SameRoot p.parents x y) : rootCountP p.parents ≤ 1 := by
  by_contra hgt
  have h2 : 2 ≤ rootCountP p.parents := by omega
  obtain ⟨r1, h1, r2, h2', hne⟩ := two_distinct_of_length (hw.1.filter _) h2
  obtain ⟨h1k, h1r⟩ := List.mem_filter.1 h1
  obtain ⟨h2k, h2r⟩ := List.mem_filter.1 h2'
  obtain ⟨rr, hh1, hh2⟩ := hall r1 h1k r2 h2k
  have hx1 : RootOf p.parents r1 r1 := ⟨[r1], .root r1 (by simpa using h1r), rfl⟩
  have hx2 : RootOf p.parents r2 r2 := ⟨[r2], .root r2 (by simpa using h2r), rfl⟩
  exact hne ((hh1.unique hx1).symm.trans (hh2.unique hx2))

theorem sameRoot_of_rootCount_one {p : Partition I} (hw : WFP p)
    (hone : rootCountP p.parents = 1) {x y : I}
    (hx : x ∈ PyDict.keys p.parents) (hy : y ∈ PyDict.keys p.parents) :
    SameRoot p.parents x y := by
  obtain ⟨rx, hrx⟩ := rootOf_total hw hx
  obtain ⟨ry, hry⟩ := rootOf_total hw hy
  obtain ⟨z, hz⟩ := List.length_eq_one.1 hone
  have hmx : rx ∈ (PyDict.keys p.parents).filter
      (fun k => decide (PyDict.lookup p.parents k = some k)) :=
    List.mem_filter.2 ⟨hrx.mem_keys_right, by simp [hrx.root_lookup]⟩
  have hmy : ry ∈ (PyDict.keys p.parents).filter
      (fun k => decide (PyDict.lookup p.parents k = some k)) :=
    List.mem_filter.2 ⟨hry.mem_keys_right, by simp [hry.root_lookup]⟩
  rw [hz, List.mem_singleton] at hmx hmy
  rw [hmx] at hrx
  rw [hmy] at hry
  exact ⟨z, hrx, hry⟩

/-- The initial partition relates an item only to itself. -/
theorem sameRoot_init {V : List I} (hnd : V.Nodup) {x y : I} :
    SameRoot (init V).parents x y ↔ (x = y ∧ x ∈ V) := by
  have hflat : ∀ z, PyDict.lookup (init V).parents z =
      if z ∈ V then some z else none := by
    intro z
    show PyDict.lookup (V.foldl (fun d i => d.set i i) []) z = _
    have := PyDict.lookup_foldl_set_fn (fun i => i) V [] z
    simpa [PyDict.lookup] using this
  have hroot : ∀ z r, RootOf (init V).parents z r → r = z ∧ z ∈ V := by
    intro z r h
    obtain ⟨l, hc, hl⟩ := h
    cases hc with
    | root _ h0 =>
      have hz : z ∈ V := by
        by_cases hzv : z ∈ V
        · exact hzv
        · rw [hflat z, if_neg hzv] at h0
          exact Option.noConfusion h0
      have hrz : z = r := by simpa using hl
      exact ⟨hrz.symm, hz⟩
    | step _ y2 t h0 hne hct =>
      exfalso
      by_cases hzv : z ∈ V
      · rw [hflat z, if_pos hzv] at h0
        exact hne (Option.some.inj h0)
      · rw [hflat z, if_neg hzv] at h0
        exact Option.noConfusion h0
  constructor
  · intro ⟨r, h1, h2⟩
    obtain ⟨he1, hm1⟩ := hroot x r h1
    obtain ⟨he2, _⟩ := hroot y r h2
    exact ⟨he1.symm.trans he2, hm1⟩
  · intro ⟨heq, hmem⟩
    subst heq
    exact sameRoot_refl (WFP_init V) ((keys_init V hnd).symm ▸ hmem)

end Partition

theorem pairOf_of_lt {a b : Nat} (h : a < b) : pairOf a b = [a, b] := by
  unfold pairOf
  rw [if_neg (by omega), if_pos h]

/-- Folding `union` over an edge list succeeds and computes exactly the
connectivity closure of the edges on top of the starting partition; the
group count drops by at most one per edge, and by exactly one per edge
unless some edge was already internal to one group when its turn
came. -/
theorem ufAdd_ok :
    ∀ (E : List (List Nat × Int)) (p : Partition Nat),
      Partition.WFP p →
      (∀ f ∈ E, ∃ a b, a < b ∧ f.1 = [a, b] ∧
        a ∈ PyDict.keys p.parents ∧ b ∈ PyDict.keys p.parents) →
      ∃ q, ufAdd p E = .ok q ∧ Partition.WFP q ∧
        PyDict.keys q.parents = PyDict.keys p.parents ∧
        Partition.rootCountP p.parents ≤ Partition.rootCountP q.parents + E.length ∧
        (∀ x y, x ∈ PyDict.keys p.parents →
          (Partition.SameRoot q.parents x y ↔
            Relation.ReflTransGen
              (fun u v => Partition.SameRoot p.parents u v ∨ EStep E u v) x y)) ∧
        (Partition.rootCountP q.parents + E.length = Partition.rootCountP p.parents ∨
          ∃ E1 f E2, E = E1 ++ f :: E2 ∧
            ∃ q1, ufAdd p E1 = .ok q1 ∧
              ∀ a b, f.1 = [a, b] → Partition.SameRoot q1.parents a b) := by
  intro E
  induction E with
  | nil =>
    intro p hw hedges
    refine ⟨p, rfl, hw, rfl, by simp, ?_, Or.inl (by simp)⟩
    intro x y hx
    constructor
    · intro h
      exact Relation.ReflTransGen.single (Or.inl h)
    · intro h
      induction h with
      | refl => exact Partition.sameRoot_refl hw hx
      | tail hab hbc ih =>
        rcases hbc with hbc | hbc
        · exact Partition.sameRoot_trans ih hbc
        · obtain ⟨_, e, he, _⟩ := hbc
          cases he
  | cons f rest ih =>
    intro p hw hedges
    obtain ⟨a, b, hab, hf1, hak, hbk⟩ := hedges f (by simp)
    obtain ⟨p3, hu, hwf3, hkeys3, hchar, hcnt_eq, hcnt_dec⟩ :=
      Partition.union_ok2 hw hak hbk
    have hedges3 : ∀ f2 ∈ rest, ∃ a2 b2, a2 < b2 ∧ f2.1 = [a2, b2] ∧
        a2 ∈ PyDict.keys p3.parents ∧ b2 ∈ PyDict.keys p3.parents := by
      intro f2 h2
      obtain ⟨a2, b2, h1, h2', h3, h4⟩ := hedges f2 (by simp [h2])
      exact ⟨a2, b2, h1, h2', hkeys3 ▸ h3, hkeys3 ▸ h4⟩
    obtain ⟨q, hrec, hwq, hkeysq, hcntq, hiffq, hdisq⟩ := ih p3 hwf3 hedges3
    have hstep : ufAdd p (f :: rest) = ufAdd p3 rest := by
      unfold ufAdd
      rw [List.foldlM_cons, hf1]
      dsimp only
      rw [hu]
      simp only [bind, Except.bind]
    have hpair : f.1 = pairOf a b := by rw [pairOf_of_lt hab, hf1]
    have hestep : EStep (f :: rest) a b :=
      ⟨by omega, f, by simp, hpair⟩
    refine ⟨q, hstep.trans hrec, hwq, hkeysq.trans hkeys3, ?_, ?_, ?_⟩
    · have h1 : Partition.rootCountP p.parents ≤ Partition.rootCountP p3.parents + 1 := by
        by_cases hsab : Partition.SameRoot p.parents a b
        · rw [hcnt_eq hsab]
          omega
        · rw [← hcnt_dec hsab]
      calc Partition.rootCountP p.parents ≤ Partition.rootCountP p3.parents + 1 := h1
        _ ≤ (Partition.rootCountP q.parents + rest.length) + 1 := by
            have := hcntq
            omega
        _ = Partition.rootCountP q.parents + (f :: rest).length := by simp; omega
    · intro x y hx
      rw [hiffq x y (hkeys3 ▸ hx)]
      constructor
      · intro h
        refine rtc_absorb ?_ h
        intro u v huv
        rcases huv with huv | huv
        · rcases (hchar u v).1 huv with h1 | ⟨h1, h2⟩ | ⟨h1, h2⟩
          · exact Relation.ReflTransGen.single (Or.inl h1)
          · exact Relation.ReflTransGen.trans
              (Relation.ReflTransGen.single (Or.inl h1))
              (Relation.ReflTransGen.trans
                (Relation.ReflTransGen.single (Or.inr hestep))
                (Relation.ReflTransGen.single (Or.inl h2)))
          · exact Relation.ReflTransGen.trans
              (Relation.ReflTransGen.single (Or.inl h1))
              (Relation.ReflTransGen.trans
                (Relation.ReflTransGen.single (Or.inr (EStep.stepSymm hestep)))
                (Relation.ReflTransGen.single (Or.inl h2)))
        · exact Relation.ReflTransGen.single
            (Or.inr (EStep.stepMono (by intro e he; simp [he]) huv))
      · intro h
        refine rtc_absorb ?_ h
        intro u v huv
        rcases huv with huv | huv
        · exact Relation.ReflTransGen.single (Or.inl ((hchar u v).2 (Or.inl huv)))
        · obtain ⟨hne, e, he, hp⟩ := huv
          rcases List.mem_cons.1 he with he | he
          · subst he
            rw [hf1] at hp
            rcases pairOf_eq_two hne hab hp.symm with ⟨h1, h2⟩ | ⟨h1, h2⟩
            · subst h1
              subst h2
              refine Relation.ReflTransGen.single (Or.inl ((hchar u v).2
                (Or.inr (Or.inl ⟨Partition.sameRoot_refl hw hak,
                  Partition.sameRoot_refl hw hbk⟩))))
            · subst h1
              subst h2
              refine Relation.ReflTransGen.single (Or.inl ((hchar u v).2
                (Or.inr (Or.inr ⟨Partition.sameRoot_refl hw hbk,
                  Partition.sameRoot_refl hw hak⟩))))
          · exact Relation.ReflTransGen.single (Or.inr ⟨hne, e, he, hp⟩)
    · by_cases hsab : Partition.SameRoot p.parents a b
      · refine Or.inr ⟨[], f, rest, rfl, p, rfl, ?_⟩
        intro a2 b2 h2
        rw [hf1] at h2
        injection h2 with h3 h4
        injection h4 with h4 _
        rw [← h3, ← h4]
        exact hsab
      · rcases hdisq with hq | ⟨E1, f2, E2, heq, q1, hq1, hsr⟩
        · refine Or.inl ?_
          have := hcnt_dec hsab
          simp only [List.length_cons]
          omega
        · refine Or.inr ⟨f :: E1, f2, E2, by rw [heq]; rfl, q1, ?_, hsr⟩
          have hstep1 : ufAdd p (f :: E1) = ufAdd p3 E1 := by
            unfold ufAdd
            rw [List.foldlM_cons, hf1]
            dsimp only
            rw [hu]
            simp only [bind, Except.bind]
          rw [hstep1]
          exact hq1

theorem rtc_init_collapse {V : List Nat} (hnd : V.Nodup) (E : List (List Nat × Int)) :
    ∀ {x y}, Relation.ReflTransGen (fun u v =>
      Partition.SameRoot (Partition.init V).parents u v ∨ EStep E u v) x y ↔
      EConn E x y := by
  intro x y
  constructor
  · apply rtc_absorb
    intro u v huv
    rcases huv with huv | huv
    · obtain ⟨heq, _⟩ := (Partition.sameRoot_init hnd).1 huv
      rw [heq]
    · exact Relation.ReflTransGen.single huv
  · exact Relation.ReflTransGen.mono (fun u v h => Or.inr h)

/-- The union-find closure of an edge list over the discrete partition
of `V`: it computes edge connectivity, and the group count drops from
`|V|` by at most one per edge — exactly one per edge unless some edge
was already spanned by its predecessors. -/
theorem ufInit_ok {V : List Nat} (hnd : V.Nodup) (E : List (List Nat × Int))
    (hedges : ∀ f ∈ E, ∃ a b, a < b ∧ f.1 = [a, b] ∧ a ∈ V ∧ b ∈ V) :
    ∃ q, ufAdd (Partition.init V) E = .ok q ∧ Partition.WFP q ∧
      PyDict.keys q.parents = V ∧
      V.length ≤ Partition.rootCountP q.parents + E.length ∧
      (∀ x y, x ∈ V → (Partition.SameRoot q.parents x y ↔ EConn E x y)) ∧
      (Partition.rootCountP q.parents + E.length = V.length ∨
        ∃ E1 f E2, E = E1 ++ f :: E2 ∧ ∀ a b, f.1 = [a, b] → EConn E1 a b) := by
  have hkinit := Partition.keys_init V hnd
  have hedges' : ∀ f ∈ E, ∃ a b, a < b ∧ f.1 = [a, b] ∧
      a ∈ PyDict.keys (Partition.init V).parents ∧
      b ∈ PyDict.keys (Partition.init V).parents := by
    intro f hf
    obtain ⟨a, b, h1, h2, h3, h4⟩ := hedges f hf
    refine ⟨a, b, h1, h2, ?_, ?_⟩ <;> rw [hkinit]
    · exact h3
    · exact h4
  obtain ⟨q, hok, hwq, hkeys, hcnt, hiff, hdis⟩ :=
    ufAdd_ok E (Partition.init V) (Partition.WFP_init V) hedges'
  have hcntinit := Partition.rootCountP_init V hnd
  refine ⟨q, hok, hwq, hkeys.trans hkinit, by rw [← hcntinit]; exact hcnt, ?_, ?_⟩
  · intro x y hx
    rw [hiff x y (by rw [hkinit]; exact hx)]
    exact rtc_init_collapse hnd E
  · rcases hdis with h | ⟨E1, f, E2, heq, q1, hq1, hsr⟩
    · exact Or.inl (by rw [← hcntinit]; exact h)
    · refine Or.inr ⟨E1, f, E2, heq, ?_⟩
      intro a b hab
      have hE1sub : ∀ f2 ∈ E1, f2 ∈ E := by
        intro f2 h2
        rw [heq]
        simp [h2]
      have hedges1 : ∀ f2 ∈ E1, ∃ a2 b2, a2 < b2 ∧ f2.1 = [a2, b2] ∧
          a2 ∈ PyDict.keys (Partition.init V).parents ∧
          b2 ∈ PyDict.keys (Partition.init V).parents :=
        fun f2 h2 => hedges' f2 (hE1sub f2 h2)
      obtain ⟨q1', hok1, hwq1, hkeys1, _, hiff1, _⟩ :=
        ufAdd_ok E1 (Partition.init V) (Partition.WFP_init V) hedges1
      have hqq : q1' = q1 := by
        rw [hq1] at hok1
        exact (Except.ok.inj hok1).symm
      subst hqq
      obtain ⟨a0, b0, hlt0, hf0, ha0, hb0⟩ := hedges f (by rw [heq]; simp)
      have hab0 : a = a0 ∧ b = b0 := by
        rw [hf0] at hab
        injection hab with h1 h2
        injection h2 with h2 _
        exact ⟨h1.symm, h2.symm⟩
      have haV : a ∈ V := hab0.1 ▸ ha0
      have h1 := (hiff1 a b (by rw [hkinit]; exact haV)).1 (hsr a b hab)
      exact (rtc_init_collapse hnd E1).1 h1

namespace EdgeMapGraph

theorem insertEdge_perm (e : List Nat × Int) :
    ∀ l : List (List Nat × Int), (insertEdge e l).Perm (e :: l) := by
  intro l
  induction l with
  | nil => exact List.Perm.refl _
  | cons f rest ih =>
    rw [insertEdge]
    by_cases h : f.2 ≤ e.2
    · rw [if_pos h]
      exact (ih.cons f).trans (List.Perm.swap e f rest)
    · rw [if_neg h]

theorem insertEdge_mem {e : List Nat × Int} {l : List (List Nat × Int)}
    {x : List Nat × Int} (h : x ∈ insertEdge e l) : x = e ∨ x ∈ l := by
  have := (insertEdge_perm e l).mem_iff.1 h
  simpa using this

theorem insertEdge_sorted {e : List Nat × Int} {l : List (List Nat × Int)}
    (h : List.Pairwise (fun a b => a.2 ≤ b.2) l) :
    List.Pairwise (fun a b => a.2 ≤ b.2) (insertEdge e l) := by
  induction l with
  | nil => simp [insertEdge]
  | cons f rest ih =>
    obtain ⟨hf, hrest⟩ := List.pairwise_cons.1 h
    rw [insertEdge]
    by_cases hle : f.2 ≤ e.2
    · rw [if_pos hle]
      rw [List.pairwise_cons]
      refine ⟨?_, ih hrest⟩
      intro x hx
      rcases insertEdge_mem hx with hx | hx
      · rw [hx]
        exact hle
      · exact hf x hx
    · rw [if_neg hle]
      rw [List.pairwise_cons]
      refine ⟨?_, h⟩
      intro x hx
      rcases List.mem_cons.1 hx with hx | hx
      · rw [hx]
        omega
      · calc e.2 ≤ f.2 := by omega
          _ ≤ x.2 := hf x hx

theorem sortEdges_foldl_perm :
    ∀ (l acc : List (List Nat × Int)),
      (l.foldl (fun a e => insertEdge e a) acc).Perm (acc ++ l) := by
  intro l
  induction l with
  | nil =>
    intro acc
    simp
  | cons e rest ih =>
    intro acc
    rw [List.foldl_cons]
    refine (ih (insertEdge e acc)).trans ?_
    have h1 : (insertEdge e acc ++ rest).Perm ((e :: acc) ++ rest) :=
      (insertEdge_perm e acc).append_right rest
    refine h1.trans ?_
    show (e :: (acc ++ rest)).Perm (acc ++ e :: rest)
    exact List.perm_middle.symm

theorem sortEdges_perm (l : List (List Nat × Int)) : (sortEdges l).Perm l := by
  have := sortEdges_foldl_perm l []
  simpa [sortEdges] using this

theorem sortEdges_sorted (l : List (List Nat × Int)) :
    List.Pairwise (fun a b => a.2 ≤ b.2) (sortEdges l) := by
  have haux : ∀ (l acc : List (List Nat × Int)),
      List.Pairwise (fun a b => a.2 ≤ b.2) acc →
      List.Pairwise (fun a b => a.2 ≤ b.2)
        (l.foldl (fun a e => insertEdge e a) acc) := by
    intro l
    induction l with
    | nil => intro acc h; exact h
    | cons e rest ih =>
      intro acc h
      rw [List.foldl_cons]
      exact ih _ (insertEdge_sorted h)
  exact haux l [] (by simp)

end EdgeMapGraph

/-- In an ascending list, at most `i` elements weigh strictly less than
the element at position `i`. -/
theorem filter_lt_length_le {res : List (List Nat × Int)}
    (hs : List.Pairwise (fun a b => a.2 ≤ b.2) res) {i : Nat}
    (hi : i < res.length) :
    (res.filter (fun e => decide (e.2 < (res.get ⟨i, hi⟩).2))).length ≤ i := by
  have hget : ∀ j (hj : j < res.length), i ≤ j →
      (res.get ⟨i, hi⟩).2 ≤ (res.get ⟨j, hj⟩).2 := by
    intro j hj hij
    rcases Nat.eq_or_lt_of_le hij with h | h
    · subst h
      exact le_refl _
    · have := (List.pairwise_iff_getElem.1 hs) i j hi hj h
      simpa using this
  set c := (res.get ⟨i, hi⟩).2 with hc
  have hdropnil : (res.drop i).filter (fun e => decide (e.2 < c)) = [] := by
    rw [List.filter_eq_nil]
    intro a ha
    obtain ⟨k, hk, hek⟩ := List.mem_iff_getElem.1 ha
    have hk2 : i + k < res.length := by
      rw [List.length_drop] at hk
      omega
    have ha2 : a = res.get ⟨i + k, hk2⟩ := by
      rw [← hek]
      simp [List.getElem_drop]
    rw [ha2]
    simp only [decide_eq_true_eq, not_lt]
    exact hget (i + k) hk2 (by omega)
  have hsplit : res.filter (fun e => decide (e.2 < c)) =
      (res.take i).filter (fun e => decide (e.2 < c)) ++
      (res.drop i).filter (fun e => decide (e.2 < c)) := by
    conv_lhs => rw [← List.take_append_drop i res]
    rw [List.filter_append]
  rw [hsplit, hdropnil, List.append_nil]
  calc ((res.take i).filter (fun e => decide (e.2 < c))).length
      ≤ (res.take i).length := List.length_filter_le _ _
    _ ≤ i := by
        rw [List.length_take]
        omega

theorem pairOf_cases {z w a b : Nat} (hzw : z ≠ w) (hab : a ≠ b)
    (h : pairOf z w = pairOf a b) : (z = a ∧ w = b) ∨ (z = b ∧ w = a) := by
  rcases Nat.lt_or_ge a b with hlt | hge
  · rw [pairOf_of_lt hlt] at h
    exact pairOf_eq_two hzw hlt h
  · have hlt : b < a := by omega
    rw [pairOf_comm a b, pairOf_of_lt hlt] at h
    rcases pairOf_eq_two hzw hlt h with ⟨h1, h2⟩ | ⟨h1, h2⟩
    · exact Or.inr ⟨h1, h2⟩
    · exact Or.inl ⟨h1, h2⟩

/-- Connectivity through one extra edge `{a, b}` decomposes into paths
that avoid it or cross it once. -/
theorem econn_append_iff {result : List (List Nat × Int)} {f : List Nat × Int}
    {a b : Nat} (hab : a ≠ b) (hf : f.1 = pairOf a b) {x y : Nat} :
    EConn (result ++ [f]) x y ↔ (EConn result x y ∨
      (EConn result x a ∧ EConn result b y) ∨
      (EConn result x b ∧ EConn result a y)) := by
  have hsub : ∀ e ∈ result, e ∈ result ++ [f] := by
    intro e he
    simp [he]
  constructor
  · intro h
    induction h with
    | refl => exact Or.inl Relation.ReflTransGen.refl
    | @tail z w hxz hstep ih =>
      obtain ⟨hne, e, he, hp⟩ := hstep
      rcases List.mem_append.1 he with he | he
      · have hstep' : EStep result z w := ⟨hne, e, he, hp⟩
        rcases ih with ih | ⟨ih1, ih2⟩ | ⟨ih1, ih2⟩
        · exact Or.inl (ih.tail hstep')
        · exact Or.inr (Or.inl ⟨ih1, ih2.tail hstep'⟩)
        · exact Or.inr (Or.inr ⟨ih1, ih2.tail hstep'⟩)
      · rw [List.mem_singleton] at he
        subst he
        rw [hf] at hp
        rcases pairOf_cases hne hab hp.symm with ⟨h1, h2⟩ | ⟨h1, h2⟩
        · subst h1
          subst h2
          rcases ih with ih | ⟨ih1, ih2⟩ | ⟨ih1, ih2⟩
          · exact Or.inr (Or.inl ⟨ih, Relation.ReflTransGen.refl⟩)
          · exact Or.inl (Relation.ReflTransGen.trans ih1 (EConn.symm ih2))
          · exact Or.inl ih1
        · subst h1
          subst h2
          rcases ih with ih | ⟨ih1, ih2⟩ | ⟨ih1, ih2⟩
          · exact Or.inr (Or.inr ⟨ih, Relation.ReflTransGen.refl⟩)
          · exact Or.inl ih1
          · exact Or.inl (Relation.ReflTransGen.trans ih1 (EConn.symm ih2))
  · intro h
    have hstepab : EStep (result ++ [f]) a b := ⟨hab, f, by simp, hf⟩
    rcases h with h | ⟨h1, h2⟩ | ⟨h1, h2⟩
    · exact EConn.mono hsub h
    · exact Relation.ReflTransGen.trans
        ((EConn.mono hsub h1).tail hstepab) (EConn.mono hsub h2)
    · exact Relation.ReflTransGen.trans
        ((EConn.mono hsub h1).tail (EStep.stepSymm hstepab)) (EConn.mono hsub h2)

namespace EdgeMapGraph

/-- The invariant-carrying contract of the Kruskal scan: it never
raises on well-formed two-element edges, extends the chosen list in
weight order, keeps the forest's groups in bijection with the chosen
edges' connectivity, and for every processed edge records either its
selection, a connection among strictly earlier-or-equal-weight chosen
edges, or that the scan had already stopped with a full tree of
lighter edges. -/
theorem kruskalLoop_ok (V : List Nat) :
    ∀ (edges result : List (List Nat × Int)) (forest : Partition Nat),
      Partition.WFP forest →
      PyDict.keys forest.parents = V →
      (∀ f ∈ edges, ∃ a b, a < b ∧ a ∈ V ∧ b ∈ V ∧ f.1 = [a, b]) →
      Partition.rootCountP forest.parents + result.length = V.length →
      (∀ x y, Partition.SameRoot forest.parents x y ↔ (x ∈ V ∧ EConn result x y)) →
      (∀ e ∈ result, ∀ f ∈ edges, e.2 ≤ f.2) →
      List.Pairwise (fun a b => a.2 ≤ b.2) result →
      List.Pairwise (fun a b => a.2 ≤ b.2) edges →
      ∃ res pf, kruskalLoop V.length edges result forest = .ok res ∧
        (∃ res2, res = result ++ res2) ∧
        (∀ e ∈ res, e ∈ result ∨ e ∈ edges) ∧
        List.Pairwise (fun a b => a.2 ≤ b.2) res ∧
        Partition.WFP pf ∧ PyDict.keys pf.parents = V ∧
        Partition.rootCountP pf.parents + res.length = V.length ∧
        (∀ x y, Partition.SameRoot pf.parents x y ↔ (x ∈ V ∧ EConn res x y)) ∧
        (∀ f ∈ edges, f ∈ res ∨
          (∀ a b, f.1 = [a, b] →
            EConn (res.filter (fun e2 => decide (e2.2 ≤ f.2))) a b) ∨
          (∀ e2 ∈ res, e2.2 ≤ f.2)) ∧
        (res.length = V.length - 1 ∨
          ∀ f ∈ edges, f ∈ res ∨
            (∀ a b, f.1 = [a, b] →
              EConn (res.filter (fun e2 => decide (e2.2 ≤ f.2))) a b)) := by
  intro edges
  induction edges with
  | nil =>
    intro result forest hw hkeys hedges hcnt hinv4 hI5 hI6 hI7
    refine ⟨result, forest, ?_, ⟨[], by simp⟩, fun e he => Or.inl he, hI6,
      hw, hkeys, hcnt, hinv4, by simp, Or.inr (by simp)⟩
    rw [kruskalLoop]
  | cons f rest ih =>
    intro result forest hw hkeys hedges hcnt hinv4 hI5 hI6 hI7
    obtain ⟨a, b, hab, haV, hbV, hf1⟩ := hedges f (by simp)
    have habne : a ≠ b := by omega
    have hpair : f.1 = pairOf a b := by rw [pairOf_of_lt hab, hf1]
    have haK : a ∈ PyDict.keys forest.parents := by rw [hkeys]; exact haV
    have hbK : b ∈ PyDict.keys forest.parents := by rw [hkeys]; exact hbV
    obtain ⟨r1, p1, hfind1, hws1, hkeys1, hroot1, hlk1, hstab1, hiff1, hwf1⟩ :=
      Partition.find_ok hw haK
    have hbK1 : b ∈ PyDict.keys p1.parents := by rw [hkeys1]; exact hbK
    obtain ⟨r2, p2, hfind2, hws2, hkeys2, hroot2, hlk2, hstab2, hiff2, hwf2⟩ :=
      Partition.find_ok hwf1 hbK1
    have hkeys12 : PyDict.keys p2.parents = PyDict.keys forest.parents := by
      rw [hkeys2, hkeys1]
    have hkeysV2 : PyDict.keys p2.parents = V := by rw [hkeys12, hkeys]
    have hiff12 : ∀ z r, Partition.RootOf forest.parents z r ↔
        Partition.RootOf p2.parents z r := fun z r => (hiff1 z r).trans (hiff2 z r)
    have hsr12 : ∀ x y, Partition.SameRoot p2.parents x y ↔
        Partition.SameRoot forest.parents x y := by
      intro x y
      constructor
      · intro ⟨r, h1, h2⟩
        exact ⟨r, (hiff12 x r).2 h1, (hiff12 y r).2 h2⟩
      · intro ⟨r, h1, h2⟩
        exact ⟨r, (hiff12 x r).1 h1, (hiff12 y r).1 h2⟩
    have hcnt12 : Partition.rootCountP p2.parents =
        Partition.rootCountP forest.parents :=
      Partition.rootCountP_congr hkeys12
        (fun z hz => Partition.root_status_iff hw hwf2 hkeys12 hiff12 hz)
    have hinv4' : ∀ x y, Partition.SameRoot p2.parents x y ↔
        (x ∈ V ∧ EConn result x y) := fun x y => (hsr12 x y).trans (hinv4 x y)
    have hrootA2 : Partition.RootOf p2.parents a r1 := (hiff12 a r1).1 hroot1
    have hrootB2 : Partition.RootOf p2.parents b r2 := (hiff2 b r2).1 hroot2
    have hedges' : ∀ f2 ∈ rest, ∃ a2 b2, a2 < b2 ∧ a2 ∈ V ∧ b2 ∈ V ∧ f2.1 = [a2, b2] :=
      fun f2 h2 => hedges f2 (by simp [h2])
    have hredux : kruskalLoop V.length (f :: rest) result forest =
        (do
          let (rootS, forest1) ← forest.find a
          let (rootE, forest2) ← forest1.find b
          let (result3, forest3) ←
            if rootS ≠ rootE then do
              let forest3 ← forest2.union a b
              Except.ok (result ++ [f], forest3)
            else Except.ok (result, forest2)
          if result3.length = V.length - 1 then Except.ok result3
          else kruskalLoop V.length rest result3 forest3) := by
      rw [kruskalLoop, hf1]
    rw [hredux, hfind1]
    simp only [bind, Except.bind]
    rw [hfind2]
    simp only [bind, Except.bind]
    by_cases hr : r1 = r2
    · rw [if_neg (fun hc => hc hr)]
      have hsabF : Partition.SameRoot forest.parents a b :=
        ⟨r1, hroot1, hr ▸ (hiff1 b r2).2 hroot2⟩
      have hconn_ab : EConn result a b := ((hinv4 a b).1 hsabF).2
      by_cases hlen : result.length = V.length - 1
      · rw [if_pos hlen]
        refine ⟨result, p2, rfl, ⟨[], by simp⟩, fun e he => Or.inl he, hI6,
          hwf2, hkeysV2, by rw [hcnt12]; exact hcnt, hinv4', ?_, Or.inl hlen⟩
        intro f' hf'
        rcases List.mem_cons.1 hf' with hf' | hf'
        · rw [hf']
          refine Or.inr (Or.inl ?_)
          intro a' b' hab'
          rw [hf1] at hab'
          injection hab' with h1 h2
          injection h2 with h2 _
          subst h1
          subst h2
          have hfilter : result.filter (fun e2 => decide (e2.2 ≤ f.2)) = result :=
            List.filter_eq_self.2 (fun e he => by
              simpa using hI5 e he f (by simp))
          rw [hfilter]
          exact hconn_ab
        · exact Or.inr (Or.inr (fun e2 he2 => hI5 e2 he2 f' (by simp [hf'])))
      · rw [if_neg hlen]
        obtain ⟨res, pf, hrec, ⟨res2, hres2⟩, hmem, hsort, hwpf, hkpf, hcntpf,
            hinvpf, hR6, hdis⟩ :=
          ih result p2 hwf2 hkeysV2 hedges' (by rw [hcnt12]; exact hcnt) hinv4'
            (fun e he f2 h2 => hI5 e he f2 (by simp [h2])) hI6
            (List.pairwise_cons.1 hI7).2
        have hresmem : ∀ e ∈ result, e ∈ res := by
          intro e he
          rw [hres2]
          simp [he]
        have hlift : EConn (res.filter (fun e2 => decide (e2.2 ≤ f.2))) a b := by
          refine EConn.mono ?_ hconn_ab
          intro e he
          exact List.mem_filter.2 ⟨hresmem e he, by
            simpa using hI5 e he f (by simp)⟩
        refine ⟨res, pf, hrec, ⟨res2, hres2⟩, ?_, hsort, hwpf, hkpf, hcntpf,
          hinvpf, ?_, ?_⟩
        · intro e he
          rcases hmem e he with h | h
          · exact Or.inl h
          · exact Or.inr (by simp [h])
        · intro f' hf'
          rcases List.mem_cons.1 hf' with hf' | hf'
          · rw [hf']
            refine Or.inr (Or.inl ?_)
            intro a' b' hab'
            rw [hf1] at hab'
            injection hab' with h1 h2
            injection h2 with h2 _
            subst h1
            subst h2
            exact hlift
          · exact hR6 f' hf'
        · rcases hdis with h | h
          · exact Or.inl h
          · refine Or.inr ?_
            intro f' hf'
            rcases List.mem_cons.1 hf' with hf' | hf'
            · rw [hf']
              refine Or.inr ?_
              intro a' b' hab'
              rw [hf1] at hab'
              injection hab' with h1 h2
              injection h2 with h2 _
              subst h1
              subst h2
              exact hlift
            · exact h f' hf'
    · rw [if_pos hr]
      obtain ⟨p3, hu, hwf3, hkeys3, hchar3, hcnt_eq3, hcnt_dec3⟩ :=
        Partition.union_ok2 hwf2 (hkeysV2 ▸ haV) (hkeysV2 ▸ hbV)
      rw [hu]
      simp only [bind, Except.bind]
      have hnsab2 : ¬ Partition.SameRoot p2.parents a b := by
        intro ⟨r, h1, h2⟩
        rw [h1.unique hrootA2] at h2
        exact hr (h2.unique hrootB2)
      have hcnt3 : Partition.rootCountP p3.parents + 1 =
          Partition.rootCountP p2.parents := hcnt_dec3 hnsab2
      have hinv4'' : ∀ x y, Partition.SameRoot p3.parents x y ↔
          (x ∈ V ∧ EConn (result ++ [f]) x y) := by
        intro x y
        constructor
        · intro h
          rcases (hchar3 x y).1 h with h | ⟨h1, h2⟩ | ⟨h1, h2⟩
          · obtain ⟨hxV, hc⟩ := (hinv4' x y).1 h
            exact ⟨hxV, (econn_append_iff habne hpair).2 (Or.inl hc)⟩
          · obtain ⟨hxV, hc1⟩ := (hinv4' x a).1 h1
            obtain ⟨_, hc2⟩ := (hinv4' b y).1 h2
            exact ⟨hxV, (econn_append_iff habne hpair).2 (Or.inr (Or.inl ⟨hc1, hc2⟩))⟩
          · obtain ⟨hxV, hc1⟩ := (hinv4' x b).1 h1
            obtain ⟨_, hc2⟩ := (hinv4' a y).1 h2
            exact ⟨hxV, (econn_append_iff habne hpair).2 (Or.inr (Or.inr ⟨hc1, hc2⟩))⟩
        · intro ⟨hxV, hc⟩
          rcases (econn_append_iff habne hpair).1 hc with h | ⟨h1, h2⟩ | ⟨h1, h2⟩
          · exact (hchar3 x y).2 (Or.inl ((hinv4' x y).2 ⟨hxV, h⟩))
          · exact (hchar3 x y).2 (Or.inr (Or.inl ⟨(hinv4' x a).2 ⟨hxV, h1⟩,
              (hinv4' b y).2 ⟨hbV, h2⟩⟩))
          · exact (hchar3 x y).2 (Or.inr (Or.inr ⟨(hinv4' x b).2 ⟨hxV, h1⟩,
              (hinv4' a y).2 ⟨haV, h2⟩⟩))
      have hcnt'' : Partition.rootCountP p3.parents + (result ++ [f]).length =
          V.length := by
        rw [List.length_append]
        simp only [List.length_cons, List.length_nil]
        omega
      have hI5'' : ∀ e ∈ result ++ [f], ∀ f2 ∈ rest, e.2 ≤ f2.2 := by
        intro e he f2 h2
        rcases List.mem_append.1 he with he | he
        · exact hI5 e he f2 (by simp [h2])
        · rw [List.mem_singleton] at he
          subst he
          exact (List.pairwise_cons.1 hI7).1 f2 h2
      have hI6'' : List.Pairwise (fun a2 b2 => a2.2 ≤ b2.2) (result ++ [f]) := by
        rw [List.pairwise_append]
        refine ⟨hI6, by simp, ?_⟩
        intro e he f2 hf2
        rw [List.mem_singleton] at hf2
        subst hf2
        exact hI5 e he f2 (by simp)
      by_cases hlen : (result ++ [f]).length = V.length - 1
      · rw [if_pos hlen]
        refine ⟨result ++ [f], p3, rfl, ⟨[f], rfl⟩, ?_, hI6'', hwf3,
          by rw [hkeys3, hkeysV2], hcnt'', hinv4'', ?_, Or.inl hlen⟩
        · intro e he
          rcases List.mem_append.1 he with he | he
          · exact Or.inl he
          · rw [List.mem_singleton] at he
            exact Or.inr (by simp [he])
        · intro f' hf'
          rcases List.mem_cons.1 hf' with hf' | hf'
          · rw [hf']
            exact Or.inl (by simp)
          · exact Or.inr (Or.inr (fun e2 he2 => hI5'' e2 he2 f' hf'))
      · rw [if_neg hlen]
        obtain ⟨res, pf, hrec, ⟨res2, hres2⟩, hmem, hsort, hwpf, hkpf, hcntpf,
            hinvpf, hR6, hdis⟩ :=
          ih (result ++ [f]) p3 hwf3 (by rw [hkeys3, hkeysV2]) hedges' hcnt''
            hinv4'' hI5'' hI6'' (List.pairwise_cons.1 hI7).2
        have hfres : f ∈ res := by
          rw [hres2]
          simp
        refine ⟨res, pf, hrec, ⟨[f] ++ res2, by rw [hres2, List.append_assoc]⟩,
          ?_, hsort, hwpf, hkpf, hcntpf, hinvpf, ?_, ?_⟩
        · intro e he
          rcases hmem e he with h | h
          · rcases List.mem_append.1 h with h | h
            · exact Or.inl h
            · rw [List.mem_singleton] at h
              exact Or.inr (by simp [h])
          · exact Or.inr (by simp [h])
        · intro f' hf'
          rcases List.mem_cons.1 hf' with hf' | hf'
          · rw [hf']
            exact Or.inl hfres
          · exact hR6 f' hf'
        · rcases hdis with h | h
          · exact Or.inl h
          · refine Or.inr ?_
            intro f' hf'
            rcases List.mem_cons.1 hf' with hf' | hf'
            · rw [hf']
              exact Or.inl hfres
            · exact h f' hf'

/-- `min_span_tree` on a well-formed self-loop-free graph: success and
the full loop contract, with the edge list sorted ascending. -/
theorem minSpanTree_ok {g : EdgeMapGraph} (hwe : WFE g) :
    ∃ res pf, g.minSpanTree = .ok res ∧
      (∀ e ∈ res, e ∈ g.edgeMap) ∧
      List.Pairwise (fun a b => a.2 ≤ b.2) res ∧
      Partition.WFP pf ∧ PyDict.keys pf.parents = g.nodeSet ∧
      Partition.rootCountP pf.parents + res.length = g.nodeSet.length ∧
      (∀ x y, Partition.SameRoot pf.parents x y ↔
        (x ∈ g.nodeSet ∧ EConn res x y)) ∧
      (∀ f ∈ g.edgeMap, f ∈ res ∨
        (∀ a b, f.1 = [a, b] →
          EConn (res.filter (fun e2 => decide (e2.2 ≤ f.2))) a b) ∨
        (∀ e2 ∈ res, e2.2 ≤ f.2)) ∧
      (res.length = g.nodeSet.length - 1 ∨
        ∀ f ∈ g.edgeMap, f ∈ res ∨
          (∀ a b, f.1 = [a, b] →
            EConn (res.filter (fun e2 => decide (e2.2 ≤ f.2))) a b)) := by
  obtain ⟨hndV, hndE, hedgewf⟩ := hwe
  have hsortmem : ∀ f, f ∈ sortEdges g.edgeMap ↔ f ∈ g.edgeMap :=
    fun f => (sortEdges_perm g.edgeMap).mem_iff
  have hedges : ∀ f ∈ sortEdges g.edgeMap,
      ∃ a b, a < b ∧ a ∈ g.nodeSet ∧ b ∈ g.nodeSet ∧ f.1 = [a, b] := by
    intro f hf
    obtain ⟨a, b, h1, h2, h3, h4⟩ := hedgewf f ((hsortmem f).1 hf)
    exact ⟨a, b, h1, h2, h3, h4⟩
  have hinv4 : ∀ x y, Partition.SameRoot (Partition.init g.nodeSet).parents x y ↔
      (x ∈ g.nodeSet ∧ EConn ([] : List (List Nat × Int)) x y) := by
    intro x y
    rw [Partition.sameRoot_init hndV]
    constructor
    · intro ⟨heq, hm⟩
      exact ⟨hm, heq ▸ Relation.ReflTransGen.refl⟩
    · intro ⟨hm, hc⟩
      exact ⟨EConn_nil hc, hm⟩
  obtain ⟨res, pf, hrun, _, hmem, hsort, hwpf, hkpf, hcntpf, hinvpf, hR6, hdis⟩ :=
    kruskalLoop_ok g.nodeSet (sortEdges g.edgeMap) [] (Partition.init g.nodeSet)
      (Partition.WFP_init g.nodeSet) (Partition.keys_init g.nodeSet hndV) hedges
      (by rw [Partition.rootCountP_init g.nodeSet hndV]; simp) hinv4
      (by simp) (by simp) (sortEdges_sorted g.edgeMap)
  refine ⟨res, pf, hrun, ?_, hsort, hwpf, hkpf, hcntpf, hinvpf, ?_, ?_⟩
  · intro e he
    rcases hmem e he with h | h
    · cases h
    · exact (hsortmem e).1 h
  · intro f hf
    exact hR6 f ((hsortmem f).2 hf)
  · rcases hdis with h | h
    · exact Or.inl h
    · exact Or.inr (fun f hf => h f ((hsortmem f).2 hf))

/-- If every graph edge is either chosen or spanned by chosen edges,
whole-graph connectivity collapses onto the chosen edges. -/
theorem econn_absorb_res {g : EdgeMapGraph} (hwe : WFE g)
    {res : List (List Nat × Int)}
    (hall : ∀ f ∈ g.edgeMap, f ∈ res ∨
      (∀ a b, f.1 = [a, b] →
        EConn (res.filter (fun e2 => decide (e2.2 ≤ f.2))) a b)) :
    ∀ {x y}, EConn g.edgeMap x y → EConn res x y := by
  intro x y h
  refine rtc_absorb ?_ h
  intro u v huv
  obtain ⟨hne, e, he, hp⟩ := huv
  obtain ⟨a0, b0, hlt, _, _, hf0⟩ := hwe.2.2 e he
  rcases hall e he with hm | hconn
  · exact Relation.ReflTransGen.single ⟨hne, e, hm, hp⟩
  · have hc0 : EConn res a0 b0 :=
      EConn.mono (fun e2 he2 => (List.mem_filter.1 he2).1) (hconn a0 b0 hf0)
    have hp2 : pairOf u v = pairOf a0 b0 := by
      rw [← hp, hf0, pairOf_of_lt hlt]
    rcases pairOf_cases hne (by omega) hp2 with ⟨h1, h2⟩ | ⟨h1, h2⟩
    · subst h1
      subst h2
      exact hc0
    · subst h1
      subst h2
      exact EConn.symm hc0

/-- Any duplicate-free subset of an acyclic edge set merges one group
per edge: its union-find closure has exactly `|V| - |S|` groups. -/
theorem acyclic_subset_count {g : EdgeMapGraph} (hwe : WFE g)
    {T : List (List Nat × Int)} (hTn : T.Nodup)
    (hTsub : ∀ e ∈ T, e ∈ g.edgeMap) (hTacyc : AcyclicE T)
    {S : List (List Nat × Int)} (hSn : S.Nodup) (hSsub : ∀ e ∈ S, e ∈ T) :
    ∃ q, ufAdd (Partition.init g.nodeSet) S = .ok q ∧ Partition.WFP q ∧
      PyDict.keys q.parents = g.nodeSet ∧
      Partition.rootCountP q.parents + S.length = g.nodeSet.length ∧
      (∀ x y, x ∈ g.nodeSet →
        (Partition.SameRoot q.parents x y ↔ EConn S x y)) := by
  have hSedges : ∀ f ∈ S, ∃ a b, a < b ∧ f.1 = [a, b] ∧
      a ∈ g.nodeSet ∧ b ∈ g.nodeSet := by
    intro f hf
    obtain ⟨a, b, h1, h2, h3, h4⟩ := hwe.2.2 f (hTsub f (hSsub f hf))
    exact ⟨a, b, h1, h4, h2, h3⟩
  obtain ⟨q, hok, hwq, hkq, hge, hiffq, hdisq⟩ := ufInit_ok hwe.1 S hSedges
  refine ⟨q, hok, hwq, hkq, ?_, hiffq⟩
  rcases hdisq with h | ⟨E1, fw, E2, heq, hconn⟩
  · exact h
  · exfalso
    have hfwS : fw ∈ S := by rw [heq]; simp
    have hfwT : fw ∈ T := hSsub fw hfwS
    obtain ⟨a0, b0, hlt, haN, hbN, hf0⟩ := hwe.2.2 fw (hTsub fw hfwT)
    have hE1 : ∀ e2 ∈ E1, e2 ∈ T.erase fw := by
      intro e2 h2
      have h2S : e2 ∈ S := by rw [heq]; simp [h2]
      have hne2 : e2 ≠ fw := by
        intro hh
        rw [heq] at hSn
        have hdisj := (List.nodup_append.1 hSn).2.2
        exact hdisj (hh ▸ h2) (by simp)
      exact (List.mem_erase_of_ne hne2).2 (hSsub e2 h2S)
    have hcc : EConn (T.erase fw) a0 b0 := EConn.mono hE1 (hconn a0 b0 hf0)
    exact hTacyc fw hfwT a0 b0 (by omega)
      (by rw [pairOf_of_lt hlt]; exact hf0) hcc

/-- Every acyclic spanning edge set of a graph has exactly
`|V| - 1` edges. -/
theorem spanning_tree_size {g : EdgeMapGraph} (hwe : WFE g)
    (hVne : g.nodeSet ≠ []) {T : List (List Nat × Int)} (hTn : T.Nodup)
    (hTsub : ∀ e ∈ T, e ∈ g.edgeMap) (hTspan : SpanningOf g T)
    (hTacyc : AcyclicE T) : T.length = g.nodeSet.length - 1 := by
  obtain ⟨q, hok, hwq, hkq, hcnt, hiff⟩ :=
    acyclic_subset_count hwe hTn hTsub hTacyc hTn (fun e he => he)
  have h1 : Partition.rootCountP q.parents ≤ 1 := by
    refine Partition.rootCount_le_one hwq ?_
    intro x hx y hy
    rw [hkq] at hx hy
    exact (hiff x y hx).2 (hTspan x hx y hy)
  have h2 : 1 ≤ Partition.rootCountP q.parents :=
    Partition.rootCount_pos hwq (by rw [hkq]; exact hVne)
  omega

/-- The matroid exchange property, through the union-find counts: a
smaller edge set cannot span every edge of a larger acyclic one. -/
theorem kruskal_exchange {g : EdgeMapGraph} (hwe : WFE g)
    {T S K : List (List Nat × Int)} (hTn : T.Nodup)
    (hTsub : ∀ e ∈ T, e ∈ g.edgeMap) (hTacyc : AcyclicE T)
    (hSn : S.Nodup) (hSsub : ∀ e ∈ S, e ∈ T)
    (hKsub : ∀ e ∈ K, e ∈ g.edgeMap) (hlen : K.length < S.length) :
    ∃ f ∈ S, ∃ a b, f.1 = [a, b] ∧ ¬ EConn K a b := by
  by_contra hcon
  push_neg at hcon
  obtain ⟨qS, hokS, hwqS, hkqS, hcntS, hiffS⟩ :=
    acyclic_subset_count hwe hTn hTsub hTacyc hSn hSsub
  have hKedges : ∀ f ∈ K, ∃ a b, a < b ∧ f.1 = [a, b] ∧
      a ∈ g.nodeSet ∧ b ∈ g.nodeSet := by
    intro f hf
    obtain ⟨a, b, h1, h2, h3, h4⟩ := hwe.2.2 f (hKsub f hf)
    exact ⟨a, b, h1, h4, h2, h3⟩
  obtain ⟨qK, hokK, hwqK, hkqK, hgeK, hiffK, _⟩ := ufInit_ok hwe.1 K hKedges
  have hsub : ∀ x y, Partition.SameRoot qS.parents x y →
      Partition.SameRoot qK.parents x y := by
    intro x y h
    have hx : x ∈ g.nodeSet := by
      rw [← hkqS]
      exact Partition.sameRoot_mem_left h
    have hc : EConn S x y := (hiffS x y hx).1 h
    clear h
    induction hc with
    | refl => exact Partition.sameRoot_refl hwqK (by rw [hkqK]; exact hx)
    | @tail u v hxu hstep ih =>
      refine Partition.sameRoot_trans ih ?_
      obtain ⟨hne, e, he, hp⟩ := hstep
      obtain ⟨a0, b0, hlt, haN, hbN, hf0⟩ := hwe.2.2 e (hTsub e (hSsub e he))
      have hcK : EConn K a0 b0 := hcon e he a0 b0 hf0
      have hsrK : Partition.SameRoot qK.parents a0 b0 := (hiffK a0 b0 haN).2 hcK
      have hp2 : pairOf u v = pairOf a0 b0 := by
        rw [← hp, hf0, pairOf_of_lt hlt]
      rcases pairOf_cases hne (by omega) hp2 with ⟨h1, h2⟩ | ⟨h1, h2⟩
      · subst h1
        subst h2
        exact hsrK
      · subst h1
        subst h2
        exact Partition.sameRoot_symm hsrK
  have hle : Partition.rootCountP qK.parents ≤ Partition.rootCountP qS.parents :=
    Partition.rootCount_le_of_sub hwqS hwqK (hkqK.trans hkqS.symm) hsub
  omega

/-- In an ascending list, every element of `take (i+1)` is bounded by
the element at position `i`. -/
theorem sorted_take_le {l : List (List Nat × Int)}
    (hs : List.Pairwise (fun a b => a.2 ≤ b.2) l) {i : Nat} (hi : i < l.length)
    {e : List Nat × Int} (he : e ∈ l.take (i + 1)) :
    e.2 ≤ (l.get ⟨i, hi⟩).2 := by
  obtain ⟨j, hj, hej⟩ := List.mem_iff_getElem.1 he
  rw [List.getElem_take] at hej
  have hjlen : j < l.length := by
    rw [List.length_take] at hj
    omega
  have hji : j ≤ i := by
    rw [List.length_take] at hj
    omega
  rcases Nat.eq_or_lt_of_le hji with h | h
  · subst h
    rw [← hej]
    exact le_refl _
  · have := (List.pairwise_iff_getElem.1 hs) j i hjlen hi h
    rw [← hej]
    simpa using this

end EdgeMapGraph

/-- Pointwise bounded lists of equal length have bounded sums (moved
before the Kruskal assembly, which uses it). -/
theorem sum_le_pointwise :
    ∀ (l1 l2 : List Int), l1.length = l2.length →
      (∀ i (h1 : i < l1.length) (h2 : i < l2.length),
        l1.get ⟨i, h1⟩ ≤ l2.get ⟨i, h2⟩) →
      l1.sum ≤ l2.sum := by
  intro l1
  induction l1 with
  | nil =>
    intro l2 hlen _
    rw [(List.length_eq_zero.1 hlen.symm : l2 = [])]
  | cons a rest ih =>
    intro l2 hlen hle
    cases l2 with
    | nil => simp at hlen
    | cons b rest2 =>
      have h0 : a ≤ b := hle 0 (by simp) (by simp)
      have hrest : rest.sum ≤ rest2.sum := by
        refine ih rest2 (by simpa using hlen) ?_
        intro i h1 h2
        exact hle (i + 1) (by simpa using h1) (by simpa using h2)
      rw [List.sum_cons, List.sum_cons]
      omega

namespace EdgeMapGraph

/-- The full Kruskal correctness bundle for a connected, well-formed,
self-loop-free graph: success, `|V| - 1` chosen edges in ascending
weight order, a spanning acyclic subset of the graph's edges, of
minimum total weight among all spanning trees. -/
theorem kruskal_main {g : EdgeMapGraph} (hwe : WFE g) (hVne : g.nodeSet ≠ [])
    (hconn : SpanningOf g g.edgeMap) :
    ∃ res, g.minSpanTree = .ok res ∧
      res.length = g.nodeSet.length - 1 ∧
      (∀ e ∈ res, e ∈ g.edgeMap) ∧
      List.Pairwise (fun a b => a.2 ≤ b.2) res ∧
      SpanningOf g res ∧
      AcyclicE res ∧
      (∀ T, T.Nodup → (∀ e ∈ T, e ∈ g.edgeMap) → SpanningOf g T → AcyclicE T →
        totalWeight res ≤ totalWeight T) := by
  have hn1 : 1 ≤ g.nodeSet.length := List.length_pos.2 hVne
  obtain ⟨res, pf, hrun, hmemE, hsort, hwpf, hkpf, hcntpf, hinvpf, hR6, hdis⟩ :=
    minSpanTree_ok hwe
  have hcount1 : Partition.rootCountP pf.parents = 1 := by
    rcases hdis with hlen | hall
    · omega
    · have habs : ∀ {x y : Nat}, EConn g.edgeMap x y → EConn res x y :=
        econn_absorb_res hwe hall
      have h1 : Partition.rootCountP pf.parents ≤ 1 := by
        refine Partition.rootCount_le_one hwpf ?_
        intro x hx y hy
        rw [hkpf] at hx hy
        exact (hinvpf x y).2 ⟨hx, habs (hconn x hx y hy)⟩
      have h2 : 1 ≤ Partition.rootCountP pf.parents :=
        Partition.rootCount_pos hwpf (by rw [hkpf]; exact hVne)
      omega
  have hlen : res.length = g.nodeSet.length - 1 := by omega
  have hconnres : ∀ x ∈ g.nodeSet, ∀ y ∈ g.nodeSet, EConn res x y := by
    intro x hx y hy
    exact ((hinvpf x y).1 (Partition.sameRoot_of_rootCount_one hwpf hcount1
      (by rw [hkpf]; exact hx) (by rw [hkpf]; exact hy))).2
  refine ⟨res, hrun, hlen, hmemE, hsort, hconnres, ?_, ?_⟩
  · -- acyclicity: every chosen edge is a bridge of the chosen set
    intro e he x y hxy hpair hEC
    have hcollapse : ∀ u v, EStep res u v → EConn (res.erase e) u v := by
      intro u v huv
      obtain ⟨hne, e', he', hp⟩ := huv
      by_cases hee : e' = e
      · subst hee
        have hp2 : pairOf u v = pairOf x y := by rw [← hp, hpair]
        rcases pairOf_cases hne hxy hp2 with ⟨h1, h2⟩ | ⟨h1, h2⟩
        · subst h1
          subst h2
          exact hEC
        · subst h1
          subst h2
          exact EConn.symm hEC
      · exact Relation.ReflTransGen.single ⟨hne, e', (List.mem_erase_of_ne hee).2 he', hp⟩
    have hiffR : ∀ u v, EConn res u v ↔ EConn (res.erase e) u v := by
      intro u v
      constructor
      · exact rtc_absorb hcollapse
      · exact EConn.mono (fun e2 he2 => List.mem_of_mem_erase he2)
    have hEedges : ∀ f ∈ res.erase e, ∃ a b, a < b ∧ f.1 = [a, b] ∧
        a ∈ g.nodeSet ∧ b ∈ g.nodeSet := by
      intro f hf
      obtain ⟨a, b, h1, h2, h3, h4⟩ := hwe.2.2 f (hmemE f (List.mem_of_mem_erase hf))
      exact ⟨a, b, h1, h4, h2, h3⟩
    obtain ⟨qE, hokE, hwqE, hkqE, hgeE, hiffE, _⟩ :=
      ufInit_ok hwe.1 (res.erase e) hEedges
    have hsub1 : ∀ u v, Partition.SameRoot pf.parents u v →
        Partition.SameRoot qE.parents u v := by
      intro u v h
      obtain ⟨huV, hc⟩ := (hinvpf u v).1 h
      exact (hiffE u v huV).2 ((hiffR u v).1 hc)
    have hsub2 : ∀ u v, Partition.SameRoot qE.parents u v →
        Partition.SameRoot pf.parents u v := by
      intro u v h
      have huV : u ∈ g.nodeSet := by
        rw [← hkqE]
        exact Partition.sameRoot_mem_left h
      exact (hinvpf u v).2 ⟨huV, (hiffR u v).2 ((hiffE u v huV).1 h)⟩
    have hceq : Partition.rootCountP qE.parents = Partition.rootCountP pf.parents :=
      le_antisymm (Partition.rootCount_le_of_sub hwpf hwqE
          (hkqE.trans hkpf.symm) hsub1)
        (Partition.rootCount_le_of_sub hwqE hwpf (hkpf.trans hkqE.symm) hsub2)
    have hlenE : (res.erase e).length = res.length - 1 := List.length_erase_of_mem he
    have hrespos : 0 < res.length :=
      List.length_pos.2 (fun hnil => by rw [hnil] at he; cases he)
    omega
  · -- minimality against every spanning tree
    intro T hTn hTsub hTspan hTacyc
    have hTlen : T.length = g.nodeSet.length - 1 :=
      spanning_tree_size hwe hVne hTn hTsub hTspan hTacyc
    have hperm := sortEdges_perm T
    have hsortT := sortEdges_sorted T
    have hTlen2 : (sortEdges T).length = g.nodeSet.length - 1 :=
      hperm.length_eq.trans hTlen
    have hsortTn : (sortEdges T).Nodup := hperm.nodup_iff.2 hTn
    have hpoint : ∀ i (h1 : i < (res.map Prod.snd).length)
        (h2 : i < ((sortEdges T).map Prod.snd).length),
        (res.map Prod.snd).get ⟨i, h1⟩ ≤ ((sortEdges T).map Prod.snd).get ⟨i, h2⟩ := by
      intro i h1 h2
      have hiRes : i < res.length := by simpa using h1
      have hiT : i < (sortEdges T).length := by simpa using h2
      simp only [List.get_eq_getElem, List.getElem_map]
      by_contra hgt
      push_neg at hgt
      have hStake_n : ((sortEdges T).take (i + 1)).Nodup :=
        (List.take_sublist (i + 1) (sortEdges T)).nodup hsortTn
      have hStake_sub : ∀ e ∈ (sortEdges T).take (i + 1), e ∈ T :=
        fun e he => hperm.mem_iff.1 (List.mem_of_mem_take he)
      have hKsub : ∀ e ∈ res.filter
          (fun e2 => decide (e2.2 < (res.get ⟨i, hiRes⟩).2)), e ∈ g.edgeMap :=
        fun e he => hmemE e (List.mem_filter.1 he).1
      have hKlen : (res.filter
          (fun e2 => decide (e2.2 < (res.get ⟨i, hiRes⟩).2))).length ≤ i :=
        filter_lt_length_le hsort hiRes
      have hSlen : ((sortEdges T).take (i + 1)).length = i + 1 := by
        rw [List.length_take]
        omega
      obtain ⟨f, hfS, af, bf, hfab, hnc⟩ :=
        kruskal_exchange hwe hTn hTsub hTacyc hStake_n hStake_sub hKsub
          (by rw [hSlen]; omega)
      have hfw : f.2 ≤ ((sortEdges T).get ⟨i, hiT⟩).2 := sorted_take_le hsortT hiT hfS
      have hfwc : f.2 < (res.get ⟨i, hiRes⟩).2 := by
        have h3 : ((sortEdges T).get ⟨i, hiT⟩).2 < (res.get ⟨i, hiRes⟩).2 := hgt
        omega
      have hfE : f ∈ g.edgeMap := hTsub f (hStake_sub f hfS)
      obtain ⟨a0, b0, hlt0, _, _, hf0⟩ := hwe.2.2 f hfE
      have hab0 : af = a0 ∧ bf = b0 := by
        rw [hf0] at hfab
        injection hfab with hh1 hh2
        injection hh2 with hh2 _
        exact ⟨hh1.symm, hh2.symm⟩
      have hne_ab : af ≠ bf := by omega
      have hfpair : f.1 = pairOf af bf := by
        rw [hab0.1, hab0.2, pairOf_of_lt hlt0]
        exact hf0
      rcases hR6 f hfE with hm | hcn | hwt
      · exact hnc (Relation.ReflTransGen.single ⟨hne_ab, f,
          List.mem_filter.2 ⟨hm, by simp only [decide_eq_true_eq]; exact hfwc⟩,
          hfpair⟩)
      · refine hnc (EConn.mono ?_ (hcn af bf hfab))
        intro e2 he2
        obtain ⟨hm1, hm2⟩ := List.mem_filter.1 he2
        refine List.mem_filter.2 ⟨hm1, ?_⟩
        simp only [decide_eq_true_eq] at hm2 ⊢
        omega
      · have := hwt (res.get ⟨i, hiRes⟩) (res.get_mem _ _)
        omega
    have hsum : (res.map Prod.snd).sum ≤ ((sortEdges T).map Prod.snd).sum :=
      sum_le_pointwise _ _ (by simp only [List.length_map]; omega) hpoint
    have hsum2 : ((sortEdges T).map Prod.snd).sum = (T.map Prod.snd).sum :=
      (hperm.map Prod.snd).sum_eq
    unfold totalWeight
    omega

end EdgeMapGraph

/-- C2: on every connected, well-formed `EdgeMapGraph` without
self-loops, `min_span_tree` succeeds and returns exactly
`node_count - 1` edges of the graph, listed in ascending weight order,
forming an acyclic spanning set whose total weight is minimum among
all acyclic spanning subsets of the edges (spanning trees); on a
single-node graph it returns the empty list. -/
theorem C2_kruskal_correctness (g : EdgeMapGraph) (hwe : WFE g)
    (hne : g.nodeSet ≠ []) (hconn : SpanningOf g g.edgeMap) :
    ∃ res, g.minSpanTree = .ok res ∧
      res.length = g.nodeCount - 1 ∧
      (∀ e ∈ res, e ∈ g.edges) ∧
      List.Pairwise (fun a b => a.2 ≤ b.2) res ∧
      SpanningOf g res ∧
      AcyclicE res ∧
      (∀ T, T.Nodup → (∀ e ∈ T, e ∈ g.edges) → SpanningOf g T → AcyclicE T →
        totalWeight res ≤ totalWeight T) ∧
      (g.nodeCount = 1 → res = []) := by
  obtain ⟨res, h1, h2, h3, h4, h5, h6, h7⟩ := EdgeMapGraph.kruskal_main hwe hne hconn
  refine ⟨res, h1, h2, h3, h4, h5, h6, h7, ?_⟩
  intro hone
  have hz : res.length = 0 := by
    have h1' : g.nodeSet.length = 1 := hone
    rw [h2, h1']
  exact List.length_eq_zero.1 hz

/-- C2 witness: the weighted triangle `0-1 (1), 1-2 (2), 0-2 (3)`. -/
theorem C2_kruskal_correctness_witness :
    ∃ res, exampleGraphC2.minSpanTree = .ok res ∧
      res.length = exampleGraphC2.nodeCount - 1 ∧
      (∀ e ∈ res, e ∈ exampleGraphC2.edges) ∧
      List.Pairwise (fun a b => a.2 ≤ b.2) res ∧
      SpanningOf exampleGraphC2 res ∧
      AcyclicE res ∧
      (∀ T, T.Nodup → (∀ e ∈ T, e ∈ exampleGraphC2.edges) →
        SpanningOf exampleGraphC2 T → AcyclicE T →
        totalWeight res ≤ totalWeight T) ∧
      (exampleGraphC2.nodeCount = 1 → res = []) :=
  C2_kruskal_correctness exampleGraphC2
    ⟨by decide, by decide, by
      intro p hp
      have hp' : p ∈ [([0, 1], (1 : Int)), ([1, 2], 2), ([0, 2], 3)] := hp
      simp only [List.mem_cons, List.not_mem_nil, or_false] at hp'
      rcases hp' with rfl | rfl | rfl
      · exact ⟨0, 1, by decide, by decide, by decide, rfl⟩
      · exact ⟨1, 2, by decide, by decide, by decide, rfl⟩
      · exact ⟨0, 2, by decide, by decide, by decide, rfl⟩⟩
    (by decide)
    (by
      have e01 : EStep exampleGraphC2.edgeMap 0 1 :=
        ⟨by decide, ([0, 1], 1), by decide, by decide⟩
      have e12 : EStep exampleGraphC2.edgeMap 1 2 :=
        ⟨by decide, ([1, 2], 2), by decide, by decide⟩
      have c01 : EConn exampleGraphC2.edgeMap 0 1 := Relation.ReflTransGen.single e01
      have c12 : EConn exampleGraphC2.edgeMap 1 2 := Relation.ReflTransGen.single e12
      have c02 : EConn exampleGraphC2.edgeMap 0 2 := Relation.ReflTransGen.trans c01 c12
      intro x hx y hy
      have hx' : x ∈ [0, 1, 2] := hx
      have hy' : y ∈ [0, 1, 2] := hy
      simp only [List.mem_cons, List.not_mem_nil, or_false] at hx' hy'
      rcases hx' with rfl | rfl | rfl <;> rcases hy' with rfl | rfl | rfl
      · exact Relation.ReflTransGen.refl
      · exact c01
      · exact c02
      · exact EConn.symm c01
      · exact Relation.ReflTransGen.refl
      · exact c12
      · exact EConn.symm c02
      · exact EConn.symm c12
      · exact Relation.ReflTransGen.refl)

end DS
